import Mathlib

/-!
# The S-expression parser and module builder of `wasm-s-parser.h`

A shallow embedding of `src/wasm-s-parser.h` (the tokenizer `SExpressionParser`
and the builder `SExpressionWasmBuilder`) together with theorems about it.

Conventions of the embedding:

* a C string is the list of its characters before the terminating NUL; reading
  the terminator gives NUL, reading further is undefined behaviour;
* every way in which the C++ code stops without a result is an error value
  (`Err`): `abort()`, a failed `assert`, and undefined behaviour (a vector index
  out of range, a read past the terminator of a string, an integer conversion
  whose value does not fit). The value `undefined` marks a point where the code
  decides nothing: what happens there depends on what lies in memory behind the
  vector or the string, which is not part of the embedding;
* assertions are enabled (the code is not compiled with `NDEBUG`);
* the members a method mutates are passed in and returned explicitly;
* the global `debug` is zero (it is never assigned), so the tracing statements
  do nothing and are left out;
* the printing operator of `Element` is modelled by the text it writes to the
  stream.
-/

set_option autoImplicit false

namespace wasm

/-! ## Outcomes -/

/-- The ways in which the code stops without producing a result. -/
inductive Err
  /-- A call of `abort()`, directly or through `abort_on`. -/
  | abort
  /-- An `assert` whose condition is false. -/
  | assertFail
  /-- Undefined behaviour: `std::vector::operator[]` out of range, a read past
  the terminating NUL of a string, `atoi`/`atol` on a value that does not fit.
  The code decides nothing at such a point. -/
  | undefined
  /-- The recursion budget of the tokenizer model is exhausted (a model artefact). -/
  | outOfFuel
deriving DecidableEq, Repr

/-! ## C strings -/

/-- The name type `cashew::IString` (also used as `Name`): an interned C string,
compared by content. -/
abbrev Name := String

/-- The terminating character of a C string. -/
def NUL : Char := Char.ofNat 0

/-- The C library `isspace` in the "C" locale: space, and the control characters
from horizontal tab (9) to carriage return (13). -/
def isspace (c : Char) : Bool :=
  c.toNat == 32 || (9 ≤ c.toNat && c.toNat ≤ 13)

/-- The read `str[i]` on a C string: a character of the string, the terminator
at index `length`, undefined behaviour beyond it. -/
def cAt (str : List Char) (i : Nat) : Except Err Char :=
  match str[i]? with
  | some c => .ok c
  | none => if i = str.length then .ok NUL else .error .undefined

/-- The C library `strchr(str, c)` for a non-NUL `c`: the suffix of `str` that
starts at the first occurrence of `c` (the returned pointer), if there is one. -/
def strchr : List Char → Char → Option (List Char)
  | [], _ => none
  | x :: rest, c => if x = c then some (x :: rest) else strchr rest c

/-- The leading decimal digits of a string, accumulated as a natural number
(the digit loop of `atoi`). -/
def atoiDigits : List Char → Nat → Nat
  | [], acc => acc
  | c :: rest, acc =>
    if c.isDigit then atoiDigits rest (10 * acc + (c.toNat - 48)) else acc

/-- The mathematical value `atoi`/`atol` read from a string: leading white space
is skipped, an optional sign is read, then the decimal digits; zero when there
is no digit. -/
def atoiValue (str : List Char) : Int :=
  match str.dropWhile isspace with
  | '-' :: rest => - (atoiDigits rest 0 : Int)
  | '+' :: rest => (atoiDigits rest 0 : Int)
  | rest => (atoiDigits rest 0 : Int)

/-- The C library `atoi`: the value read, which must fit the 32-bit `int`
(otherwise the behaviour is undefined). -/
def atoi (str : List Char) : Except Err Int :=
  let v := atoiValue str
  if -(2 : Int) ^ 31 ≤ v ∧ v < (2 : Int) ^ 31 then .ok v else .error .undefined

/-- The C library `atol` with a 64-bit `long`. -/
def atol (str : List Char) : Except Err Int :=
  let v := atoiValue str
  if -(2 : Int) ^ 63 ≤ v ∧ v < (2 : Int) ^ 63 then .ok v else .error .undefined

/-! ## Element: a list or a string -/

/-- An element of an S-expression (`class Element`): a list of elements
(`isList_` true) or a string. -/
inductive Element
  | list : List Element → Element
  | str : Name → Element
deriving Repr

namespace Element

/-- The method `isList()`. -/
def isList : Element → Bool
  | .list _ => true
  | .str _ => false

/-- The method `isString()`. -/
def isString (e : Element) : Bool := !e.isList

/-- The method `list()`, which asserts `isList_`. -/
def getList : Element → Except Err (List Element)
  | .list xs => .ok xs
  | .str _ => .error .assertFail

/-- The method `operator[]`: `list()[i]`, an unchecked vector access. -/
def index (e : Element) (i : Nat) : Except Err Element :=
  match e.getList with
  | .error err => .error err
  | .ok xs =>
    match xs[i]? with
    | some x => .ok x
    | none => .error .undefined

/-- The method `size()`: `list().size()`. -/
def size (e : Element) : Except Err Nat :=
  match e.getList with
  | .error err => .error err
  | .ok xs => .ok xs.length

/-- The method `str()`, which asserts `!isList_`. -/
def getStr : Element → Except Err Name
  | .str s => .ok s
  | .list _ => .error .assertFail

/-- The method `c_str()`, which asserts `!isList_`; the result is the C string
of the name. -/
def c_str : Element → Except Err (List Char)
  | .str s => .ok s.data
  | .list _ => .error .assertFail

end Element

mutual
/-- The printing operator `operator<<` of `Element`: a list prints as `(`, then
each item preceded by a blank, then ` )`; a string prints as its text. The
result is the text written to the stream; the operator ends without a `return`
statement, and the stream reference it should return is not modelled. -/
def Element.print : Element → List Char
  | .list xs => '(' :: (printItems xs ++ [' ', ')'])
  | .str s => s.data
/-- The loop `for (auto item : e.list_) o << ' ' << *item` of the printing
operator. -/
def printItems : List Element → List Char
  | [] => []
  | x :: rest => ' ' :: (x.print ++ printItems rest)
end

/-! ## SExpressionParser: text to elements

The input position `input` is the list of characters from the position to the
end of the buffer; the buffer ends with an implicit NUL, and a NUL character in
the list ends it as well. -/

/-- The read `input[0]`. -/
def peek : List Char → Char
  | [] => NUL
  | c :: _ => c

/-- The method `skipWhitespace`: `while (isspace(input[0])) input++`. -/
def skipWhitespace : List Char → List Char
  | [] => []
  | c :: rest => if isspace c then skipWhitespace rest else c :: rest

/-- The loop of `parseString`,
`while (input[0] && !isspace(input[0]) && input[0] != ')') input++`,
returning the characters passed over and the new position. -/
def parseStringLoop : List Char → List Char → List Char × List Char
  | [], acc => (acc, [])
  | c :: rest, acc =>
    if c ≠ NUL ∧ isspace c = false ∧ c ≠ ')' then parseStringLoop rest (acc ++ [c])
    else (acc, c :: rest)

/-- The method `parseString`: the characters from `start` to the new position
become a string element. -/
def parseString (input : List Char) : Element × List Char :=
  let r := parseStringLoop input []
  (Element.str (String.mk r.1), r.2)

/-- The call `strstr(input, ";)")`: the position of the first `;)` in the rest
of the buffer, or the null pointer. -/
def strstrCommentEnd : List Char → Option (List Char)
  | [] => none
  | c :: rest =>
    if c = NUL then none
    else if c = ';' ∧ peek rest = ')' then some (c :: rest)
    else strstrCommentEnd rest

mutual
/-- The method `parseInnerList`: a comment (null result), or the elements up to
the point where `parse` returns null. The first argument bounds the recursion. -/
def parseInnerList : Nat → List Char → Except Err (Option Element × List Char)
  | 0, _ => .error .outOfFuel
  | fuel + 1, input =>
    if peek input = ';' then
      -- input++; input = strstr(input, ";)"); assert(input); return nullptr;
      match strstrCommentEnd input.tail with
      | none => .error .assertFail
      | some pos => .ok (none, pos)
    else parseInnerListLoop fuel input []
/-- The loop `while (1)` of `parseInnerList`, with the list `ret` built so far. -/
def parseInnerListLoop : Nat → List Char → List Element →
    Except Err (Option Element × List Char)
  | 0, _, _ => .error .outOfFuel
  | fuel + 1, input, ret =>
    match parse fuel input with
    | .error e => .error e
    | .ok (none, pos) => .ok (some (Element.list ret), pos)
    | .ok (some curr, pos) => parseInnerListLoop fuel pos (ret ++ [curr])
/-- The method `parse`: null at the end of the buffer or at `)`, a list after
`(` (whose closing `)` is asserted and consumed), a string otherwise. -/
def parse : Nat → List Char → Except Err (Option Element × List Char)
  | 0, _ => .error .outOfFuel
  | fuel + 1, input =>
    let input := skipWhitespace input
    if peek input = NUL ∨ peek input = ')' then .ok (none, input)
    else if peek input = '(' then
      match parseInnerList fuel input.tail with
      | .error e => .error e
      | .ok (ret, pos) =>
        let pos := skipWhitespace pos
        if peek pos = ')' then .ok (ret, pos.tail) else .error .assertFail
    else
      let r := parseString input
      .ok (some r.1, r.2)
end

/-- The method `parseEverything` on a buffer holding the given characters. Each
call in the chain `parseInnerList`, its loop, `parse` uses one unit of the
recursion budget, and three units per character of the buffer are enough. -/
def parseEverything (input : List Char) : Except Err (Option Element) :=
  match parseInnerList (3 * input.length + 3) input with
  | .error e => .error e
  | .ok (root, _) => .ok root

/-! ## The IR of `wasm.h`

The header `wasm.h` is not among the sources. The declarations below list the
enumerators and fields that `wasm-s-parser.h` uses, with the field names it
uses. -/

/-- Modelled from the spec: the enum `WasmType` of `wasm.h`, the four numeric
types (32/64-bit integer, 32/64-bit float). The extra value `none` stands for
the enumerator of value zero, the value of a value-initialised `WasmType` (the
type a `std::map<Name, WasmType>` holds for a key created by `operator[]`, and
the one outside the four cases of the `switch` in `makeConst`). -/
inductive WasmType
  | none | i32 | i64 | f32 | f64
deriving DecidableEq, Repr

/-- Modelled from the spec: `isWasmTypeFloat` of `wasm.h`, true on the two
float types. -/
def isWasmTypeFloat : WasmType → Bool
  | .f32 => true
  | .f64 => true
  | _ => false

/-- Modelled from the spec: `getWasmTypeSize` of `wasm.h`, the natural width in
bytes of a numeric type (4 for i32/f32, 8 for i64/f64); no width is given for
the zero enumerator, for which 0 is used. -/
def getWasmTypeSize : WasmType → Nat
  | .none => 0
  | .i32 => 4
  | .i64 => 8
  | .f32 => 4
  | .f64 => 8

/-- The enumerators of `BinaryOp` that the parser uses. -/
inductive BinaryOp
  | Add | And | CopySign | DivU | DivS | Div | Min | Max | Mul | Or
  | RemU | RemS | Shl | ShrU | ShrS | Sub | Xor
deriving DecidableEq, Repr

/-- The enumerators of `UnaryOp` that the parser uses. -/
inductive UnaryOp
  | Clz | Floor | Neg
deriving DecidableEq, Repr

/-- The enumerators of `RelationalOp` that the parser uses. -/
inductive RelationalOp
  | Eq | GtU | GtS | Gt | GeU | GeS | Ge | LtU | LtS | Lt | LeU | LeS | Le | Ne
deriving DecidableEq, Repr

/-- The enumerators of `ConvertOp` that the parser uses. -/
inductive ConvertOp
  | ConvertUInt32 | ConvertSInt32 | TruncSFloat64
deriving DecidableEq, Repr

/-- The value of a `Const`: the member of the union that `makeConst` assigns.
Integer members hold the value read by `atoi`/`atol`; floating point values are
not modelled, a float member holds the text handed to `atof`. -/
inductive Literal
  | i32 (value : Int)
  | i64 (value : Int)
  | f32 (text : List Char)
  | f64 (text : List Char)
deriving DecidableEq, Repr

/-- The expression nodes the parser allocates, each with the fields it assigns.
A `Block` whose `name` is not assigned keeps the default name (`none`). -/
inductive Expression
  | Binary (op : BinaryOp) (left right : Expression) (type : WasmType)
  | Unary (op : UnaryOp) (value : Expression) (type : WasmType)
  | Compare (op : RelationalOp) (left right : Expression) (type : WasmType)
  | Convert (op : ConvertOp) (value : Expression) (type : WasmType)
  | GetLocal (name : Name) (type : WasmType)
  | SetLocal (name : Name) (value : Expression) (type : WasmType)
  | Block (name : Option Name) (list : List Expression)
  | Const (type : WasmType) (value : Literal)
  | Load (type : WasmType) (float_ : Bool) (bytes : Nat) (signed_ : Bool)
      (offset : Int) (align : Int) (ptr : Expression)
  | Store (type : WasmType) (float_ : Bool) (bytes : Nat)
      (offset : Int) (align : Int) (ptr : Expression) (value : Expression)
deriving Repr

/-- A `Function` with the fields `parseFunction` assigns. A freshly allocated
one has no parameters, no locals and no body. -/
structure Function where
  name : Name := ""
  params : List (Name × WasmType) := []
  result : WasmType := WasmType.none
  locals : List (Name × WasmType) := []
  body : Option Expression := Option.none
deriving Repr

/-- An `Export`: the exported name and the internal name it refers to. -/
structure Export where
  name : Name
  value : Name
deriving DecidableEq, Repr

/-- The `Table` of a module: a sequence of names. -/
structure Table where
  names : List Name := []
deriving DecidableEq, Repr

/-- Modelled from the spec: the `Module` of `wasm.h`, with its ordered sequence
of functions, its memory size, its exports and its table. -/
structure Module where
  functions : List Function := []
  memorySize : Int := 0
  exports : List Export := []
  table : Table := {}
deriving Repr

/-! ## The Local Environment `currLocalTypes` -/

/-- The member `std::map<Name, WasmType> currLocalTypes`, as the list of its
entries (one per key). -/
abbrev LocalTypes := List (Name × WasmType)

namespace LocalTypes

/-- The entry of a key, if the map has one. -/
def find : LocalTypes → Name → Option WasmType
  | [], _ => none
  | (k, v) :: rest, name => if k = name then some v else find rest name

/-- The assignment `currLocalTypes[name] = type`: the entry of `name` is
created or overwritten. -/
def assign : LocalTypes → Name → WasmType → LocalTypes
  | [], name, type => [(name, type)]
  | (k, v) :: rest, name, type =>
    if k = name then (k, type) :: rest else (k, v) :: assign rest name type

/-- The read `currLocalTypes[name]`: the value of the entry, and the map after
the access. `std::map::operator[]` creates a value-initialised entry for a key
that has none. -/
def subscript (m : LocalTypes) (name : Name) : WasmType × LocalTypes :=
  match find m name with
  | some type => (type, m)
  | none => (WasmType.none, assign m name WasmType.none)

end LocalTypes

/-! ## SExpressionWasmBuilder: elements to IR -/

/-- The global `MODULE`. -/
def MODULE : Name := "module"
/-- The global `FUNC`. -/
def FUNC : Name := "func"
/-- The global `PARAM`. -/
def PARAM : Name := "param"
/-- The global `RESULT`. -/
def RESULT : Name := "result"
/-- The global `MEMORY`. -/
def MEMORY : Name := "memory"
/-- The global `EXPORT`. -/
def EXPORT : Name := "export"
/-- The global `TABLE`. -/
def TABLE : Name := "table"
/-- The global `LOCAL`. -/
def LOCAL : Name := "local"
/-- The global `ALIGN`. -/
def ALIGN : Name := "align"
/-- The global `OFFSET`. -/
def OFFSET : Name := "offset"

/-- The static method `stringToWasmType(const char*)`: the first two characters
select the type, any other first character aborts. -/
def stringToWasmType (str : List Char) : Except Err WasmType := do
  let c0 ← cAt str 0
  if c0 = 'i' then do
    let c1 ← cAt str 1
    if c1 = '3' then pure WasmType.i32 else pure WasmType.i64
  else if c0 = 'f' then do
    let c1 ← cAt str 1
    if c1 = '3' then pure WasmType.f32 else pure WasmType.f64
  else throw Err.abort

/-- What the `switch (op[0])` of `parseExpression` selects for an operation
suffix: the `make` method it calls and the operator it passes. -/
inductive Operation
  | Binary (op : BinaryOp)
  | Unary (op : UnaryOp)
  | Compare (op : RelationalOp)
  | Convert (op : ConvertOp)
  | Const
  | Load
  | Store
deriving DecidableEq, Repr

/-- The `switch (op[0])` of `parseExpression` on the text after the dot: the
nested tests on single characters, each case ending in `abort_on(op)`. -/
def classify (op : List Char) : Except Err Operation := do
  let c0 ← cAt op 0
  if c0 = 'a' then do
    let c1 ← cAt op 1
    if c1 = 'd' then pure (.Binary .Add)
    else if c1 = 'n' then pure (.Binary .And)
    else throw .abort
  else if c0 = 'c' then do
    let c1 ← cAt op 1
    if c1 = 'o' then do
      let c2 ← cAt op 2
      if c2 = 'p' then pure (.Binary .CopySign)
      else if c2 = 'n' then do
        let c3 ← cAt op 3
        if c3 = 'v' then do
          let c8 ← cAt op 8
          pure (.Convert (if c8 = 'u' then .ConvertUInt32 else .ConvertSInt32))
        else if c3 = 's' then pure .Const
        else throw .abort
      else throw .abort
    else if c1 = 'l' then pure (.Unary .Clz)
    else throw .abort
  else if c0 = 'd' then do
    let c1 ← cAt op 1
    if c1 = 'i' then do
      let c3 ← cAt op 3
      if c3 = '_' then do
        let c4 ← cAt op 4
        pure (.Binary (if c4 = 'u' then .DivU else .DivS))
      else if c3 = NUL then pure (.Binary .Div)
      else throw .abort
    else throw .abort
  else if c0 = 'e' then do
    let c1 ← cAt op 1
    if c1 = 'q' then pure (.Compare .Eq) else throw .abort
  else if c0 = 'f' then do
    let c1 ← cAt op 1
    if c1 = 'l' then pure (.Unary .Floor) else throw .abort
  else if c0 = 'g' then do
    let c1 ← cAt op 1
    if c1 = 't' then do
      let c2 ← cAt op 2
      if c2 = '_' then do
        let c3 ← cAt op 3
        pure (.Compare (if c3 = 'u' then .GtU else .GtS))
      else if c2 = NUL then pure (.Compare .Gt)
      else throw .abort
    else if c1 = 'e' then do
      let c2 ← cAt op 2
      if c2 = '_' then do
        let c3 ← cAt op 3
        pure (.Compare (if c3 = 'u' then .GeU else .GeS))
      else if c2 = NUL then pure (.Compare .Ge)
      else throw .abort
    else throw .abort
  else if c0 = 'l' then do
    let c1 ← cAt op 1
    if c1 = 't' then do
      let c2 ← cAt op 2
      if c2 = '_' then do
        let c3 ← cAt op 3
        pure (.Compare (if c3 = 'u' then .LtU else .LtS))
      else if c2 = NUL then pure (.Compare .Lt)
      else throw .abort
    else if c1 = 'e' then do
      let c2 ← cAt op 2
      if c2 = '_' then do
        let c3 ← cAt op 3
        pure (.Compare (if c3 = 'u' then .LeU else .LeS))
      else if c2 = NUL then pure (.Compare .Le)
      else throw .abort
    else if c1 = 'o' then pure .Load
    else throw .abort
  else if c0 = 'm' then do
    let c1 ← cAt op 1
    if c1 = 'i' then pure (.Binary .Min)
    else if c1 = 'a' then pure (.Binary .Max)
    else if c1 = 'u' then pure (.Binary .Mul)
    else throw .abort
  else if c0 = 'n' then do
    let c1 ← cAt op 1
    if c1 = 'e' then do
      let c2 ← cAt op 2
      if c2 = NUL then pure (.Compare .Ne)
      else if c2 = 'g' then pure (.Unary .Neg)
      else throw .abort
    else throw .abort
  else if c0 = 'o' then do
    let c1 ← cAt op 1
    if c1 = 'r' then pure (.Binary .Or) else throw .abort
  else if c0 = 'r' then do
    let c1 ← cAt op 1
    if c1 = 'e' then do
      let c3 ← cAt op 3
      pure (.Binary (if c3 = 'u' then .RemU else .RemS))
    else throw .abort
  else if c0 = 's' then do
    let c1 ← cAt op 1
    if c1 = 'h' then do
      let c2 ← cAt op 2
      if c2 = 'l' then pure (.Binary .Shl)
      else do
        let c4 ← cAt op 4
        pure (.Binary (if c4 = 'u' then .ShrU else .ShrS))
    else if c1 = 'u' then pure (.Binary .Sub)
    else if c1 = 't' then pure .Store
    else throw .abort
  else if c0 = 't' then do
    let c1 ← cAt op 1
    if c1 = 'r' then pure (.Convert .TruncSFloat64) else throw .abort
  else if c0 = 'x' then do
    let c1 ← cAt op 1
    if c1 = 'o' then pure (.Binary .Xor) else throw .abort
  else throw .abort

/-- The result of parsing an expression: the node, and `currLocalTypes` after
the call. -/
abbrev Parsed := Except Err (Expression × LocalTypes)

/-- The type of the recursive call `parseExpression(s[i])` on the children of
the element `s` at hand, as the `make` methods use it: from `currLocalTypes` and
the index `i` to the result. -/
abbrev ParseChild := LocalTypes → Nat → Parsed

/-- The method `makeBinary`; `child L i` is `parseExpression(s[i])`. -/
def makeBinary (child : ParseChild) (L : LocalTypes) (op : BinaryOp) (type : WasmType) :
    Parsed := do
  let (left, L1) ← child L 1
  let (right, L2) ← child L1 2
  pure (Expression.Binary op left right type, L2)

/-- The method `makeUnary`. -/
def makeUnary (child : ParseChild) (L : LocalTypes) (op : UnaryOp) (type : WasmType) :
    Parsed := do
  let (value, L1) ← child L 1
  pure (Expression.Unary op value type, L1)

/-- The method `makeCompare`. -/
def makeCompare (child : ParseChild) (L : LocalTypes) (op : RelationalOp)
    (type : WasmType) : Parsed := do
  let (left, L1) ← child L 1
  let (right, L2) ← child L1 2
  pure (Expression.Compare op left right type, L2)

/-- The method `makeConvert`. -/
def makeConvert (child : ParseChild) (L : LocalTypes) (op : ConvertOp) (type : WasmType) :
    Parsed := do
  let (value, L1) ← child L 1
  pure (Expression.Convert op value type, L1)

/-- The method `makeGetLocal`: the type is read with `currLocalTypes[name]`. -/
def makeGetLocal (s : Element) (L : LocalTypes) : Parsed := do
  let name ← (← s.index 1).getStr
  let r := LocalTypes.subscript L name
  pure (Expression.GetLocal name r.1, r.2)

/-- The method `makeSetLocal`: the value is parsed before the type is read. -/
def makeSetLocal (s : Element) (child : ParseChild) (L : LocalTypes) : Parsed := do
  let name ← (← s.index 1).getStr
  let (value, L1) ← child L 2
  let r := LocalTypes.subscript L1 name
  pure (Expression.SetLocal name value r.1, r.2)

/-- The loop `for (; i < s.size(); i++) ret->list.push_back(parseExpression(s[i]))`
of `makeBlock`, with the number of iterations left as first argument. -/
def makeBlockLoop (child : ParseChild) :
    Nat → Nat → LocalTypes → List Expression → Except Err (List Expression × LocalTypes)
  | 0, _, L, list => .ok (list, L)
  | n + 1, i, L, list =>
    match child L i with
    | .error e => .error e
    | .ok (e, L1) => makeBlockLoop child n (i + 1) L1 (list ++ [e])

/-- The method `makeBlock`: a string at `s[1]` is the name, the children after
it are the list. -/
def makeBlock (s : Element) (child : ParseChild) (L : LocalTypes) : Parsed := do
  let s1 ← s.index 1
  let size ← s.size
  if s1.isString then do
    let name ← s1.getStr
    let (list, L1) ← makeBlockLoop child (size - 2) 2 L []
    pure (Expression.Block (some name) list, L1)
  else do
    let (list, L1) ← makeBlockLoop child (size - 1) 1 L []
    pure (Expression.Block Option.none list, L1)

/-- The method `makeConst`: the literal is read with the conversion of the
type; a type outside the four aborts. -/
def makeConst (s : Element) (L : LocalTypes) (type : WasmType) : Parsed := do
  let value ← (← s.index 1).c_str
  match type with
  | .i32 => do
    let v ← atoi value
    pure (Expression.Const type (Literal.i32 v), L)
  | .i64 => do
    let v ← atol value
    pure (Expression.Const type (Literal.i64 v), L)
  | .f32 => pure (Expression.Const type (Literal.f32 value), L)
  | .f64 => pure (Expression.Const type (Literal.f64 value), L)
  | .none => throw Err.abort

/-- The loop `while (s[i]->isList())` of `makeLoad` and `makeStore` over the
children of `s` from index `i` on (first argument): an `align` or `offset` list
sets the immediate, any other list aborts, and a string ends the loop. The
result is the final `i` with `align` and `offset`. Running off the end of the
children is an access out of range. -/
def immediatesLoop : List Element → Nat → Int → Int → Except Err (Nat × Int × Int)
  | [], _, _, _ => .error .undefined
  | curr :: rest, i, align, offset =>
    if curr.isList then
      match curr.index 0 with
      | .error e => .error e
      | .ok c0 =>
        match c0.getStr with
        | .error e => .error e
        | .ok id =>
          if id = ALIGN then
            match curr.index 1 with
            | .error e => .error e
            | .ok c1 =>
              match c1.c_str with
              | .error e => .error e
              | .ok text =>
                match atoi text with
                | .error e => .error e
                | .ok v => immediatesLoop rest (i + 1) v offset
          else if id = OFFSET then
            match curr.index 1 with
            | .error e => .error e
            | .ok c1 =>
              match c1.c_str with
              | .error e => .error e
              | .ok text =>
                match atoi text with
                | .error e => .error e
                | .ok v => immediatesLoop rest (i + 1) align v
          else .error .abort
    else .ok (i, align, offset)

/-- The width and the position of `extra` that `makeLoad` and `makeStore`
compute from the mnemonic: `extra` starts `skip` characters after the dot; an
`8` there sets the width to 1 and moves `extra` by one, a `1` asserts a `6`
after it and moves `extra` by two (the width is left as it is). The result is
the width and the offset of `extra` from the dot. -/
def widthOf (dot : List Char) (skip : Nat) (type : WasmType) : Except Err (Nat × Nat) := do
  let bytes := getWasmTypeSize type
  let e0 ← cAt dot skip
  if e0 = '8' then pure (1, skip + 1)
  else if e0 = '1' then do
    let e1 ← cAt dot (skip + 1)
    if e1 = '6' then pure (bytes, skip + 2) else throw Err.assertFail
  else pure (bytes, skip)

/-- The method `makeLoad`. -/
def makeLoad (s : Element) (child : ParseChild) (L : LocalTypes) (type : WasmType) :
    Parsed := do
  let str ← (← s.index 0).c_str
  match strchr str '.' with
  | Option.none => throw Err.undefined
  | some dot => do
    let (bytes, extra) ← widthOf dot 5 type
    let e ← cAt dot extra
    let signed_ := decide (e ≠ NUL)
    let xs ← s.getList
    let (i, align, offset) ← immediatesLoop (xs.drop 1) 1 (-1) 0
    let (ptr, L1) ← child L i
    pure (Expression.Load type (isWasmTypeFloat type) bytes signed_ offset align ptr, L1)

/-- The first part of `makeLoad`, up to the assignment
`ret->signed_ = extra[0] != 0`: the width and the signed flag that it stores in
the node it has allocated. Both are read off the mnemonic `s[0]`; the operands
are not looked at yet. -/
def makeLoadFlags (s : Element) (type : WasmType) : Except Err (Nat × Bool) := do
  let str ← (← s.index 0).c_str
  match strchr str '.' with
  | Option.none => throw Err.undefined
  | some dot => do
    let (bytes, extra) ← widthOf dot 5 type
    let e ← cAt dot extra
    pure (bytes, decide (e ≠ NUL))

/-- The method `makeStore`. -/
def makeStore (s : Element) (child : ParseChild) (L : LocalTypes) (type : WasmType) :
    Parsed := do
  let str ← (← s.index 0).c_str
  match strchr str '.' with
  | Option.none => throw Err.undefined
  | some dot => do
    let (bytes, _) ← widthOf dot 6 type
    let xs ← s.getList
    let (i, align, offset) ← immediatesLoop (xs.drop 1) 1 (-1) 0
    let (ptr, L1) ← child L i
    let (value, L2) ← child L1 (i + 1)
    pure (Expression.Store type (isWasmTypeFloat type) bytes offset align ptr value, L2)

/-- The body of `parseExpression(Element& s)`, with the recursive calls on the
children of `s` given by `child`: a head with a dot is `type.operation` and goes
through `stringToWasmType` and the switch on the operation, any other head goes
through the switch on its first characters. -/
def parseExpressionBody (s : Element) (child : ParseChild) (L : LocalTypes) : Parsed := do
  let id ← (← s.index 0).getStr
  let str := id.data
  match strchr str '.' with
  | some dot => do
    let type ← stringToWasmType str
    let op := dot.tail
    match ← classify op with
    | .Binary o => makeBinary child L o type
    | .Unary o => makeUnary child L o type
    | .Compare o => makeCompare child L o type
    | .Convert o => makeConvert child L o type
    | .Const => makeConst s L type
    | .Load => makeLoad s child L type
    | .Store => makeStore s child L type
  | Option.none => do
    let c0 ← cAt str 0
    if c0 = 'b' then do
      let c1 ← cAt str 1
      if c1 = 'l' then makeBlock s child L else throw Err.abort
    else if c0 = 'g' then do
      let c1 ← cAt str 1
      if c1 = 'e' then makeGetLocal s L else throw Err.abort
    else if c0 = 's' then do
      let c1 ← cAt str 1
      if c1 = 'e' then makeSetLocal s child L else throw Err.abort
    else throw Err.abort

mutual
/-- The method `parseExpression(Element& s)`, with `currLocalTypes` passed in
and returned. A string element fails at `s[0]`, whose `list()` asserts. -/
def parseExpression (L : LocalTypes) : Element → Parsed
  | .str _ => .error .assertFail
  | .list xs => parseExpressionBody (.list xs) (fun L1 i => parseChildAt L1 xs i) L
/-- The call `parseExpression(s[i])` for an element `s` with the given children:
the access `s[i]` and the recursive call. -/
def parseChildAt (L : LocalTypes) : List Element → Nat → Parsed
  | [], _ => .error .undefined
  | x :: _, 0 => parseExpression L x
  | _ :: rest, i + 1 => parseChildAt L rest i
end

/-- One iteration of the loop of `parseFunction` on the child `curr`: a `param`
or `local` form is recorded in the function and in `currLocalTypes`, a `result`
form sets the result, any other form is parsed as the body. -/
def parseFunctionItem (func : Function) (L : LocalTypes) (curr : Element) :
    Except Err (Function × LocalTypes) := do
  let id ← (← curr.index 0).getStr
  if id = PARAM then do
    let name ← (← curr.index 1).getStr
    let type ← stringToWasmType (← (← curr.index 2).getStr).data
    pure ({ func with params := func.params ++ [(name, type)] }, LocalTypes.assign L name type)
  else if id = RESULT then do
    let type ← stringToWasmType (← (← curr.index 1).getStr).data
    pure ({ func with result := type }, L)
  else if id = LOCAL then do
    let name ← (← curr.index 1).getStr
    let type ← stringToWasmType (← (← curr.index 2).getStr).data
    pure ({ func with locals := func.locals ++ [(name, type)] }, LocalTypes.assign L name type)
  else do
    let (body, L1) ← parseExpression L curr
    pure ({ func with body := some body }, L1)

/-- The loop `for (unsigned i = 2; i < s.size(); i++)` of `parseFunction` over
the children it visits. -/
def parseFunctionLoop : List Element → Function → LocalTypes →
    Except Err (Function × LocalTypes)
  | [], func, L => .ok (func, L)
  | curr :: rest, func, L =>
    match parseFunctionItem func L curr with
    | .error e => .error e
    | .ok (func1, L1) => parseFunctionLoop rest func1 L1

/-- The method `parseFunction`, with `currLocalTypes` passed in and returned.
The method returns nothing and stores the function it allocates nowhere; the
model returns that function so that it can be observed. -/
def parseFunction (currLocalTypes : LocalTypes) (s : Element) :
    Except Err (Function × LocalTypes) := do
  let name ← (← s.index 1).getStr
  let func : Function := { name := name }
  let xs ← s.getList
  let (func1, _) ← parseFunctionLoop (xs.drop 2) func currLocalTypes
  -- currLocalTypes.clear()
  pure (func1, [])

/-- The members of `SExpressionWasmBuilder` that its methods change: the module
`wasm` it was given by reference, and `currLocalTypes`. -/
structure SExpressionWasmBuilder where
  wasm : Module
  currLocalTypes : LocalTypes := []
deriving Repr

namespace SExpressionWasmBuilder

/-- The method `parseMemory`. -/
def parseMemory (b : SExpressionWasmBuilder) (s : Element) :
    Except Err SExpressionWasmBuilder := do
  let v ← atoi (← (← s.index 1).c_str)
  pure { b with wasm := { b.wasm with memorySize := v } }

/-- The method `parseExport`: the pair of names is appended to the exports. -/
def parseExport (b : SExpressionWasmBuilder) (s : Element) :
    Except Err SExpressionWasmBuilder := do
  let name ← (← s.index 1).getStr
  let value ← (← s.index 2).getStr
  pure { b with wasm := { b.wasm with exports := b.wasm.exports ++ [{ name := name, value := value }] } }

/-- The loop of `parseTable` over the children from index 1 on. -/
def parseTableLoop : List Element → List Name → Except Err (List Name)
  | [], names => .ok names
  | x :: rest, names =>
    match x.getStr with
    | .error e => .error e
    | .ok n => parseTableLoop rest (names ++ [n])

/-- The method `parseTable`. -/
def parseTable (b : SExpressionWasmBuilder) (s : Element) :
    Except Err SExpressionWasmBuilder := do
  let xs ← s.getList
  let names ← parseTableLoop (xs.drop 1) b.wasm.table.names
  pure { b with wasm := { b.wasm with table := { names := names } } }

/-- The method `parseModuleElement`: dispatch on the head of the form. For a
`func` form the function that `parseFunction` builds is not kept. -/
def parseModuleElement (b : SExpressionWasmBuilder) (curr : Element) :
    Except Err SExpressionWasmBuilder := do
  let id ← (← curr.index 0).getStr
  if id = FUNC then do
    let (_, L) ← parseFunction b.currLocalTypes curr
    pure { b with currLocalTypes := L }
  else if id = MEMORY then parseMemory b curr
  else if id = EXPORT then parseExport b curr
  else if id = TABLE then parseTable b curr
  else throw Err.abort

/-- The loop `for (unsigned i = 1; i < module->size(); i++)` of the constructor. -/
def parseModuleElements : List Element → SExpressionWasmBuilder →
    Except Err SExpressionWasmBuilder
  | [], b => .ok b
  | curr :: rest, b =>
    match parseModuleElement b curr with
    | .error e => .error e
    | .ok b1 => parseModuleElements rest b1

/-- The constructor `SExpressionWasmBuilder(Module& wasm, char* input)`: the
text is tokenized, the first element of the root must be a list headed by
`module`, and its other children are handled in order. The result is the
builder once the constructor returns; its `wasm` is the caller's module. -/
def build (wasm : Module) (input : List Char) : Except Err SExpressionWasmBuilder := do
  match ← parseEverything input with
  | Option.none => throw Err.assertFail
  | some root => do
    let module ← root.index 0
    let id ← (← module.index 0).getStr
    if id = MODULE then do
      let xs ← module.getList
      parseModuleElements (xs.drop 1) { wasm := wasm }
    else throw Err.assertFail

end SExpressionWasmBuilder


/-! ## Notions used in the statements -/

/-- The number of operand children that the `make` method selected for an
operation parses: `s[1]` and `s[2]` in `makeBinary` and `makeCompare`, `s[1]` in
`makeUnary` and `makeConvert`. The other methods are not operator forms. -/
def operandCount : Operation → Option Nat
  | .Binary _ => some 2
  | .Compare _ => some 2
  | .Unary _ => some 1
  | .Convert _ => some 1
  | _ => none


mutual
/-- Every `GetLocal` and `SetLocal` node for the name `n` in the expression
carries the type `t`. -/
def Expression.localsTyped (n : Name) (t : WasmType) : Expression → Bool
  | .Binary _ left right _ => left.localsTyped n t && right.localsTyped n t
  | .Unary _ value _ => value.localsTyped n t
  | .Compare _ left right _ => left.localsTyped n t && right.localsTyped n t
  | .Convert _ value _ => value.localsTyped n t
  | .GetLocal name type => decide (name = n → type = t)
  | .SetLocal name value type => decide (name = n → type = t) && value.localsTyped n t
  | .Block _ list => localsTypedList n t list
  | .Const _ _ => true
  | .Load _ _ _ _ _ _ ptr => ptr.localsTyped n t
  | .Store _ _ _ _ _ ptr value => ptr.localsTyped n t && value.localsTyped n t
/-- The same for every expression of a list (the children of a `Block`). -/
def localsTypedList (n : Name) (t : WasmType) : List Expression → Bool
  | [] => true
  | e :: rest => e.localsTyped n t && localsTypedList n t rest
end

/-- The child `curr` of a `func` form declares the name `n`: it is a list whose
head is `param` or `local` and whose next element is the string `n`. -/
def declares (curr : Element) (n : Name) : Bool :=
  match curr with
  | .list (.str id :: .str name :: _) => (id == PARAM || id == LOCAL) && name == n
  | _ => false

/-- The type that a `param` or `local` form declares:
`stringToWasmType(curr[2]->str())`. -/
def declaredType (curr : Element) : Except Err WasmType := do
  stringToWasmType (← (← curr.index 2).getStr).data

/-- The child `curr` of a `func` form is one that `parseFunction` reads as a
declaration (head `param`, `result` or `local`) and not as the body. -/
def isDeclaration (curr : Element) : Bool :=
  match curr with
  | .list (.str id :: _) => id == PARAM || id == RESULT || id == LOCAL
  | _ => false

/-- The list opened last is still open at the end of the buffer. The text is
read from a position at nesting depth `depth`, inside an atom or not, with the
token rules of the grammar: white space separates tokens, `(` at the start of a
token opens a list, `)` ends an atom and closes a list, any other character
starts or continues an atom. The answer is yes when the buffer ends at a depth
above zero, and no when it ends at depth zero or a `)` comes at depth zero. -/
def unclosed : Nat → Bool → List Char → Bool
  | depth, _, [] => decide (0 < depth)
  | depth, inAtom, c :: rest =>
    if c = NUL then decide (0 < depth)
    else if c = ')' then
      match depth with
      | 0 => false
      | d + 1 => unclosed d false rest
    else if isspace c then unclosed depth false rest
    else if inAtom then unclosed depth true rest
    else if c = '(' then unclosed (depth + 1) false rest
    else unclosed depth true rest

/-- The decimal literal of an integer: its decimal digits, most significant
first, after a minus sign when it is negative. -/
def decimalLiteral : Int → List Char
  | Int.ofNat m => Nat.toDigits 10 m
  | Int.negSucc m => '-' :: Nat.toDigits 10 (m + 1)

/-- A character that can stand in an atom: not the terminator, no white space
and not `)` (the condition of the loop of `parseString`). -/
def atomChar (c : Char) : Bool :=
  c != NUL && !isspace c && c != ')'

/-- The text of an atom as the tokenizer reads them: not empty, made of atom
characters, and not starting with `(`. -/
def isAtomText : List Char → Bool
  | [] => false
  | c :: rest => c != '(' && (c :: rest).all atomChar

mutual
/-- Every atom of the element has the text of an atom that the tokenizer reads. -/
def Element.tokenized : Element → Bool
  | .list xs => tokenizedList xs
  | .str s => isAtomText s.data
/-- The same for every element of a list. -/
def tokenizedList : List Element → Bool
  | [] => true
  | x :: rest => x.tokenized && tokenizedList rest
end

/-- The position `pos` is reached from the position `input` by moving forwards
over characters of the buffer, none of which is the terminator: `pos` is a
suffix of `input`, and the part passed over holds no NUL. -/
def advancesTo (input pos : List Char) : Prop :=
  ∃ passed, input = passed ++ pos ∧ NUL ∉ passed

/-- One position of a pattern on the leading characters of an operation
suffix. -/
inductive Lead
  /-- The given character stands at this position. -/
  | ch (c : Char)
  /-- The position is not looked at: any character may stand there. -/
  | skip
  /-- The text ends at this position. -/
  | stop
deriving DecidableEq, Repr

/-- The text begins as the pattern says, position by position. A text that ends
at a position that is not looked at begins as the pattern says, whatever the
later positions ask for: those lie behind the terminator, where the text decides
nothing. -/
def beginsWith : List Lead → List Char → Bool
  | [], _ => true
  | .ch c :: ps, x :: xs => x == c && beginsWith ps xs
  | .ch _ :: _, [] => false
  | .skip :: ps, _ :: xs => beginsWith ps xs
  | .skip :: _, [] => true
  | .stop :: _, [] => true
  | .stop :: _, x :: _ => x == NUL

/-- The leading characters by which an operation suffix is taken for a known
one: `ad` (add), `an` (and), `cop` (copysign), `conv` (convert), `cons` (const),
`cl` (clz), `di` with `_` or the end of the text two positions later (div),
`eq`, `fl` (floor), `gt`, `ge`, `lt`, `le` followed by `_` or by the end of the
text, `lo` (load), `mi`, `ma`, `mu` (min, max, mul), `ne` followed by the end of
the text or by `g` (ne, neg), `or`, `re` (rem), `sh` (shl, shr), `su` (sub),
`st` (store), `tr` (trunc), `xo` (xor). -/
def knownLeading : List (List Lead) :=
  [ [.ch 'a', .ch 'd'], [.ch 'a', .ch 'n'],
    [.ch 'c', .ch 'o', .ch 'p'], [.ch 'c', .ch 'o', .ch 'n', .ch 'v'],
    [.ch 'c', .ch 'o', .ch 'n', .ch 's'], [.ch 'c', .ch 'l'],
    [.ch 'd', .ch 'i', .skip, .ch '_'], [.ch 'd', .ch 'i', .skip, .stop],
    [.ch 'e', .ch 'q'],
    [.ch 'f', .ch 'l'],
    [.ch 'g', .ch 't', .ch '_'], [.ch 'g', .ch 't', .stop],
    [.ch 'g', .ch 'e', .ch '_'], [.ch 'g', .ch 'e', .stop],
    [.ch 'l', .ch 't', .ch '_'], [.ch 'l', .ch 't', .stop],
    [.ch 'l', .ch 'e', .ch '_'], [.ch 'l', .ch 'e', .stop],
    [.ch 'l', .ch 'o'],
    [.ch 'm', .ch 'i'], [.ch 'm', .ch 'a'], [.ch 'm', .ch 'u'],
    [.ch 'n', .ch 'e', .stop], [.ch 'n', .ch 'e', .ch 'g'],
    [.ch 'o', .ch 'r'],
    [.ch 'r', .ch 'e'],
    [.ch 's', .ch 'h'], [.ch 's', .ch 'u'], [.ch 's', .ch 't'],
    [.ch 't', .ch 'r'],
    [.ch 'x', .ch 'o'] ]

/-- The operation suffix begins with the leading characters of a known one. -/
def recognised (op : List Char) : Bool :=
  knownLeading.any (fun p => beginsWith p op)

/-- A `param` or `local` form of a function, as the statements speak of it. -/
structure Declaration where
  /-- The form is a `param` form; otherwise it is a `local` form. -/
  isParam : Bool
  /-- The name declared. -/
  name : Name
  /-- The text of the type. -/
  typeText : Name
  /-- The type declared. -/
  type : WasmType
deriving Repr

/-- The element of the declaration: `(param name type)` or `(local name type)`. -/
def Declaration.form (d : Declaration) : Element :=
  .list [.str (if d.isParam then PARAM else LOCAL), .str d.name, .str d.typeText]

/-- The type of the declaration is the one that `stringToWasmType` reads in its
text. -/
def Declaration.wellTyped (d : Declaration) : Prop :=
  stringToWasmType d.typeText.data = .ok d.type

/-- The names and types of the `param` forms among the declarations, in order. -/
def declaredParams (ds : List Declaration) : List (Name × WasmType) :=
  (ds.filter (fun d => d.isParam)).map (fun d => (d.name, d.type))

/-- The names and types of the `local` forms among the declarations, in order. -/
def declaredLocals (ds : List Declaration) : List (Name × WasmType) :=
  (ds.filter (fun d => !d.isParam)).map (fun d => (d.name, d.type))

/-- The type of the last of the declarations that declares the name `n`, if
there is one. -/
def lastDeclared (ds : List Declaration) (n : Name) : Option WasmType :=
  (ds.reverse.find? (fun d => d.name == n)).map (fun d => d.type)

/-- The recursive calls on the children keep the entry of `n` and give nodes
whose locals named `n` have type `t`. -/
def ChildKeeps (n : Name) (t : WasmType) (child : ParseChild) : Prop :=
  ∀ L i e L1, LocalTypes.find L n = some t → child L i = .ok (e, L1) →
    e.localsTyped n t = true ∧ LocalTypes.find L1 n = some t

/-! ## Basic facts about the builder -/

theorem parseChildAt_eq (L : LocalTypes) (xs : List Element) (i : Nat) :
    parseChildAt L xs i =
      match xs[i]? with
      | some x => parseExpression L x
      | none => .error Err.undefined := by
  induction xs generalizing i with
  | nil => simp [parseChildAt]
  | cons x rest ih =>
    cases i with
    | zero => simp [parseChildAt]
    | succ j => simp [parseChildAt, ih]

theorem parseExpression_list (L : LocalTypes) (xs : List Element) :
    parseExpression L (.list xs)
      = parseExpressionBody (.list xs) (fun L1 i => parseChildAt L1 xs i) L := by
  simp [parseExpression]

/-- The body of `parseExpression` on a form headed by a dotted mnemonic whose
type and operation are known: the dispatch to the `make` methods. -/
theorem parseExpressionBody_dotted (s : Element) (child : ParseChild) (L : LocalTypes)
    (id : Name) (rest : List Element) (dot : List Char) (type : WasmType) (k : Operation)
    (hs : s = .list (.str id :: rest)) (hdot : strchr id.data '.' = some dot)
    (htype : stringToWasmType id.data = .ok type) (hk : classify dot.tail = .ok k) :
    parseExpressionBody s child L =
      match k with
      | .Binary o => makeBinary child L o type
      | .Unary o => makeUnary child L o type
      | .Compare o => makeCompare child L o type
      | .Convert o => makeConvert child L o type
      | .Const => makeConst s L type
      | .Load => makeLoad s child L type
      | .Store => makeStore s child L type := by
  subst hs
  simp [parseExpressionBody, Element.index, Element.getList, Element.getStr, bind,
    Except.bind, hdot, htype, hk]
  cases k <;> rfl

/-! ## Induction on elements, and the Local Environment -/

mutual
theorem Element.induction {P : Element → Prop} (hstr : ∀ s, P (.str s))
    (hlist : ∀ xs, (∀ x ∈ xs, P x) → P (.list xs)) : ∀ e, P e
  | .str s => hstr s
  | .list xs => hlist xs (Element.induction_list hstr hlist xs)
theorem Element.induction_list {P : Element → Prop} (hstr : ∀ s, P (.str s))
    (hlist : ∀ xs, (∀ x ∈ xs, P x) → P (.list xs)) : ∀ xs : List Element, ∀ x ∈ xs, P x
  | [], _, h => absurd h (List.not_mem_nil _)
  | a :: rest, x, h =>
    match List.mem_cons.mp h with
    | Or.inl hx => hx ▸ Element.induction hstr hlist a
    | Or.inr hx => Element.induction_list hstr hlist rest x hx
end

theorem LocalTypes.find_assign_same (m : LocalTypes) (n : Name) (t : WasmType) :
    LocalTypes.find (LocalTypes.assign m n t) n = some t := by
  induction m with
  | nil => simp [LocalTypes.assign, LocalTypes.find]
  | cons p rest ih =>
    obtain ⟨k, v⟩ := p
    by_cases h : k = n
    · simp [LocalTypes.assign, LocalTypes.find, h]
    · simp [LocalTypes.assign, LocalTypes.find, h, ih]

theorem LocalTypes.find_assign_other (m : LocalTypes) (n name : Name) (t : WasmType)
    (h : name ≠ n) :
    LocalTypes.find (LocalTypes.assign m name t) n = LocalTypes.find m n := by
  induction m with
  | nil => simp [LocalTypes.assign, LocalTypes.find, h]
  | cons p rest ih =>
    obtain ⟨k, v⟩ := p
    by_cases hk : k = name
    · subst hk
      simp [LocalTypes.assign, LocalTypes.find, h]
    · by_cases hn : k = n
      · subst hn
        simp [LocalTypes.assign, LocalTypes.find, hk]
      · simp [LocalTypes.assign, LocalTypes.find, hk, hn, ih]

theorem LocalTypes.subscript_keeps (m : LocalTypes) (n name : Name) (t : WasmType)
    (h : LocalTypes.find m n = some t) :
    LocalTypes.find (LocalTypes.subscript m name).2 n = some t
      ∧ (name = n → (LocalTypes.subscript m name).1 = t) := by
  unfold LocalTypes.subscript
  cases hf : LocalTypes.find m name with
  | some v =>
    refine ⟨by simpa using h, ?_⟩
    intro hn
    subst hn
    rw [hf] at h
    simpa using h
  | none =>
    have hne : name ≠ n := by
      intro hn
      subst hn
      rw [hf] at h
      cases h
    refine ⟨by simpa [LocalTypes.find_assign_other m n name _ hne] using h, ?_⟩
    intro hn
    exact absurd hn hne

theorem localsTypedList_append (n : Name) (t : WasmType) (xs ys : List Expression) :
    localsTypedList n t (xs ++ ys) = (localsTypedList n t xs && localsTypedList n t ys) := by
  induction xs with
  | nil => simp [localsTypedList]
  | cons e rest ih => simp [localsTypedList, ih, Bool.and_assoc]

theorem makeBinary_keeps (n : Name) (t : WasmType) (child : ParseChild)
    (hc : ChildKeeps n t child) (L : LocalTypes) (op : BinaryOp) (type : WasmType)
    (e : Expression) (L1 : LocalTypes) (hL : LocalTypes.find L n = some t)
    (h : makeBinary child L op type = .ok (e, L1)) :
    e.localsTyped n t = true ∧ LocalTypes.find L1 n = some t := by
  unfold makeBinary at h
  cases h1 : child L 1 with
  | error e1 => simp [h1, bind, Except.bind] at h
  | ok r1 =>
    obtain ⟨l, La⟩ := r1
    obtain ⟨hl, hLa⟩ := hc L 1 l La hL h1
    cases h2 : child La 2 with
    | error e2 => simp [h1, h2, bind, Except.bind] at h
    | ok r2 =>
      obtain ⟨r, Lb⟩ := r2
      obtain ⟨hr, hLb⟩ := hc La 2 r Lb hLa h2
      simp [h1, h2, bind, Except.bind, pure, Except.pure] at h
      obtain ⟨he, hL1⟩ := h
      subst he hL1
      simp [Expression.localsTyped, hl, hr, hLb]

theorem bind_ok {α β : Type} (x : Except Err α) (f : α → Except Err β) (b : β)
    (h : (x >>= f) = .ok b) : ∃ a, x = .ok a ∧ f a = .ok b := by
  cases x with
  | error e => simp [bind, Except.bind] at h
  | ok a => exact ⟨a, rfl, by simpa [bind, Except.bind] using h⟩

theorem makeCompare_keeps (n : Name) (t : WasmType) (child : ParseChild)
    (hc : ChildKeeps n t child) (L : LocalTypes) (op : RelationalOp) (type : WasmType)
    (e : Expression) (L1 : LocalTypes) (hL : LocalTypes.find L n = some t)
    (h : makeCompare child L op type = .ok (e, L1)) :
    e.localsTyped n t = true ∧ LocalTypes.find L1 n = some t := by
  unfold makeCompare at h
  obtain ⟨⟨l, La⟩, h1, h⟩ := bind_ok _ _ _ h
  obtain ⟨hl, hLa⟩ := hc L 1 l La hL h1
  obtain ⟨⟨r, Lb⟩, h2, h⟩ := bind_ok _ _ _ h
  obtain ⟨hr, hLb⟩ := hc La 2 r Lb hLa h2
  simp [pure, Except.pure] at h
  obtain ⟨he, hL1⟩ := h
  subst he hL1
  simp [Expression.localsTyped, hl, hr, hLb]

theorem makeUnary_keeps (n : Name) (t : WasmType) (child : ParseChild)
    (hc : ChildKeeps n t child) (L : LocalTypes) (op : UnaryOp) (type : WasmType)
    (e : Expression) (L1 : LocalTypes) (hL : LocalTypes.find L n = some t)
    (h : makeUnary child L op type = .ok (e, L1)) :
    e.localsTyped n t = true ∧ LocalTypes.find L1 n = some t := by
  unfold makeUnary at h
  obtain ⟨⟨v, La⟩, h1, h⟩ := bind_ok _ _ _ h
  obtain ⟨hv, hLa⟩ := hc L 1 v La hL h1
  simp [pure, Except.pure] at h
  obtain ⟨he, hL1⟩ := h
  subst he hL1
  simp [Expression.localsTyped, hv, hLa]

theorem makeConvert_keeps (n : Name) (t : WasmType) (child : ParseChild)
    (hc : ChildKeeps n t child) (L : LocalTypes) (op : ConvertOp) (type : WasmType)
    (e : Expression) (L1 : LocalTypes) (hL : LocalTypes.find L n = some t)
    (h : makeConvert child L op type = .ok (e, L1)) :
    e.localsTyped n t = true ∧ LocalTypes.find L1 n = some t := by
  unfold makeConvert at h
  obtain ⟨⟨v, La⟩, h1, h⟩ := bind_ok _ _ _ h
  obtain ⟨hv, hLa⟩ := hc L 1 v La hL h1
  simp [pure, Except.pure] at h
  obtain ⟨he, hL1⟩ := h
  subst he hL1
  simp [Expression.localsTyped, hv, hLa]

theorem makeGetLocal_keeps (n : Name) (t : WasmType) (s : Element) (L : LocalTypes)
    (e : Expression) (L1 : LocalTypes) (hL : LocalTypes.find L n = some t)
    (h : makeGetLocal s L = .ok (e, L1)) :
    e.localsTyped n t = true ∧ LocalTypes.find L1 n = some t := by
  unfold makeGetLocal at h
  obtain ⟨s1, _, h⟩ := bind_ok _ _ _ h
  obtain ⟨name, _, h⟩ := bind_ok _ _ _ h
  simp [pure, Except.pure] at h
  obtain ⟨he, hL1⟩ := h
  subst he hL1
  obtain ⟨hk, ht⟩ := LocalTypes.subscript_keeps L n name t hL
  simp [Expression.localsTyped, hk]
  exact not_or_of_imp ht

theorem makeSetLocal_keeps (n : Name) (t : WasmType) (s : Element) (child : ParseChild)
    (hc : ChildKeeps n t child) (L : LocalTypes)
    (e : Expression) (L1 : LocalTypes) (hL : LocalTypes.find L n = some t)
    (h : makeSetLocal s child L = .ok (e, L1)) :
    e.localsTyped n t = true ∧ LocalTypes.find L1 n = some t := by
  unfold makeSetLocal at h
  obtain ⟨s1, _, h⟩ := bind_ok _ _ _ h
  obtain ⟨name, _, h⟩ := bind_ok _ _ _ h
  obtain ⟨⟨v, La⟩, h1, h⟩ := bind_ok _ _ _ h
  obtain ⟨hv, hLa⟩ := hc L 2 v La hL h1
  simp [pure, Except.pure] at h
  obtain ⟨he, hL1⟩ := h
  subst he hL1
  obtain ⟨hk, ht⟩ := LocalTypes.subscript_keeps La n name t hLa
  simp [Expression.localsTyped, hk, hv]
  exact not_or_of_imp ht

theorem makeBlockLoop_keeps (n : Name) (t : WasmType) (child : ParseChild)
    (hc : ChildKeeps n t child) (k : Nat) :
    ∀ (i : Nat) (L : LocalTypes) (acc list : List Expression) (L1 : LocalTypes),
      LocalTypes.find L n = some t → localsTypedList n t acc = true →
      makeBlockLoop child k i L acc = .ok (list, L1) →
      localsTypedList n t list = true ∧ LocalTypes.find L1 n = some t := by
  induction k with
  | zero =>
    intro i L acc list L1 hL hacc h
    simp [makeBlockLoop] at h
    obtain ⟨h1, h2⟩ := h
    subst h1 h2
    exact ⟨hacc, hL⟩
  | succ k ih =>
    intro i L acc list L1 hL hacc h
    unfold makeBlockLoop at h
    cases h1 : child L i with
    | error e1 => simp [h1] at h
    | ok r =>
      obtain ⟨e, La⟩ := r
      obtain ⟨he, hLa⟩ := hc L i e La hL h1
      simp only [h1] at h
      exact ih (i + 1) La (acc ++ [e]) list L1 hLa
        (by simp [localsTypedList_append, localsTypedList, hacc, he]) h

theorem makeBlock_keeps (n : Name) (t : WasmType) (s : Element) (child : ParseChild)
    (hc : ChildKeeps n t child) (L : LocalTypes)
    (e : Expression) (L1 : LocalTypes) (hL : LocalTypes.find L n = some t)
    (h : makeBlock s child L = .ok (e, L1)) :
    e.localsTyped n t = true ∧ LocalTypes.find L1 n = some t := by
  unfold makeBlock at h
  obtain ⟨s1, _, h⟩ := bind_ok _ _ _ h
  obtain ⟨size, _, h⟩ := bind_ok _ _ _ h
  split at h
  · obtain ⟨name, _, h⟩ := bind_ok _ _ _ h
    obtain ⟨⟨list, La⟩, h1, h⟩ := bind_ok _ _ _ h
    obtain ⟨hl, hLa⟩ := makeBlockLoop_keeps n t child hc _ _ L [] list La hL rfl h1
    simp [pure, Except.pure] at h
    obtain ⟨he, hL1⟩ := h
    subst he hL1
    simp [Expression.localsTyped, hl, hLa]
  · obtain ⟨⟨list, La⟩, h1, h⟩ := bind_ok _ _ _ h
    obtain ⟨hl, hLa⟩ := makeBlockLoop_keeps n t child hc _ _ L [] list La hL rfl h1
    simp [pure, Except.pure] at h
    obtain ⟨he, hL1⟩ := h
    subst he hL1
    simp [Expression.localsTyped, hl, hLa]

theorem makeConst_keeps (n : Name) (t : WasmType) (s : Element) (L : LocalTypes)
    (type : WasmType) (e : Expression) (L1 : LocalTypes)
    (hL : LocalTypes.find L n = some t) (h : makeConst s L type = .ok (e, L1)) :
    e.localsTyped n t = true ∧ LocalTypes.find L1 n = some t := by
  unfold makeConst at h
  obtain ⟨s1, _, h⟩ := bind_ok _ _ _ h
  obtain ⟨value, _, h⟩ := bind_ok _ _ _ h
  cases type with
  | none => simp [throw, throwThe, MonadExceptOf.throw] at h
  | i32 =>
    obtain ⟨v, _, h⟩ := bind_ok _ _ _ h
    simp [pure, Except.pure] at h
    obtain ⟨he, hL1⟩ := h
    subst he hL1
    simp [Expression.localsTyped, hL]
  | i64 =>
    obtain ⟨v, _, h⟩ := bind_ok _ _ _ h
    simp [pure, Except.pure] at h
    obtain ⟨he, hL1⟩ := h
    subst he hL1
    simp [Expression.localsTyped, hL]
  | f32 =>
    simp [pure, Except.pure] at h
    obtain ⟨he, hL1⟩ := h
    subst he hL1
    simp [Expression.localsTyped, hL]
  | f64 =>
    simp [pure, Except.pure] at h
    obtain ⟨he, hL1⟩ := h
    subst he hL1
    simp [Expression.localsTyped, hL]

theorem makeLoad_keeps (n : Name) (t : WasmType) (s : Element) (child : ParseChild)
    (hc : ChildKeeps n t child) (L : LocalTypes) (type : WasmType)
    (e : Expression) (L1 : LocalTypes) (hL : LocalTypes.find L n = some t)
    (h : makeLoad s child L type = .ok (e, L1)) :
    e.localsTyped n t = true ∧ LocalTypes.find L1 n = some t := by
  unfold makeLoad at h
  obtain ⟨s0, _, h⟩ := bind_ok _ _ _ h
  obtain ⟨str, _, h⟩ := bind_ok _ _ _ h
  split at h
  · simp [throw, throwThe, MonadExceptOf.throw] at h
  · obtain ⟨⟨bytes, extra⟩, _, h⟩ := bind_ok _ _ _ h
    obtain ⟨c, _, h⟩ := bind_ok _ _ _ h
    obtain ⟨xs, _, h⟩ := bind_ok _ _ _ h
    obtain ⟨⟨i, align, offset⟩, _, h⟩ := bind_ok _ _ _ h
    obtain ⟨⟨ptr, La⟩, h1, h⟩ := bind_ok _ _ _ h
    obtain ⟨hp, hLa⟩ := hc L i ptr La hL h1
    simp [pure, Except.pure] at h
    obtain ⟨he, hL1⟩ := h
    subst he hL1
    simp [Expression.localsTyped, hp, hLa]

theorem makeStore_keeps (n : Name) (t : WasmType) (s : Element) (child : ParseChild)
    (hc : ChildKeeps n t child) (L : LocalTypes) (type : WasmType)
    (e : Expression) (L1 : LocalTypes) (hL : LocalTypes.find L n = some t)
    (h : makeStore s child L type = .ok (e, L1)) :
    e.localsTyped n t = true ∧ LocalTypes.find L1 n = some t := by
  unfold makeStore at h
  obtain ⟨s0, _, h⟩ := bind_ok _ _ _ h
  obtain ⟨str, _, h⟩ := bind_ok _ _ _ h
  split at h
  · simp [throw, throwThe, MonadExceptOf.throw] at h
  · obtain ⟨⟨bytes, extra⟩, _, h⟩ := bind_ok _ _ _ h
    obtain ⟨xs, _, h⟩ := bind_ok _ _ _ h
    obtain ⟨⟨i, align, offset⟩, _, h⟩ := bind_ok _ _ _ h
    obtain ⟨⟨ptr, La⟩, h1, h⟩ := bind_ok _ _ _ h
    obtain ⟨hp, hLa⟩ := hc L i ptr La hL h1
    obtain ⟨⟨value, Lb⟩, h2, h⟩ := bind_ok _ _ _ h
    obtain ⟨hv, hLb⟩ := hc La (i + 1) value Lb hLa h2
    simp [pure, Except.pure] at h
    obtain ⟨he, hL1⟩ := h
    subst he hL1
    simp [Expression.localsTyped, hp, hv, hLb]

theorem parseExpressionBody_keeps (n : Name) (t : WasmType) (s : Element)
    (child : ParseChild) (hc : ChildKeeps n t child) (L : LocalTypes)
    (e : Expression) (L1 : LocalTypes) (hL : LocalTypes.find L n = some t)
    (h : parseExpressionBody s child L = .ok (e, L1)) :
    e.localsTyped n t = true ∧ LocalTypes.find L1 n = some t := by
  unfold parseExpressionBody at h
  obtain ⟨s0, _, h⟩ := bind_ok _ _ _ h
  obtain ⟨id, _, h⟩ := bind_ok _ _ _ h
  dsimp only at h
  split at h
  · obtain ⟨type, _, h⟩ := bind_ok _ _ _ h
    obtain ⟨k, _, h⟩ := bind_ok _ _ _ h
    cases k with
    | Binary o => exact makeBinary_keeps n t child hc L o type e L1 hL h
    | Unary o => exact makeUnary_keeps n t child hc L o type e L1 hL h
    | Compare o => exact makeCompare_keeps n t child hc L o type e L1 hL h
    | Convert o => exact makeConvert_keeps n t child hc L o type e L1 hL h
    | Const => exact makeConst_keeps n t s L type e L1 hL h
    | Load => exact makeLoad_keeps n t s child hc L type e L1 hL h
    | Store => exact makeStore_keeps n t s child hc L type e L1 hL h
  · obtain ⟨c0, _, h⟩ := bind_ok _ _ _ h
    split at h
    · obtain ⟨c1, _, h⟩ := bind_ok _ _ _ h
      split at h
      · exact makeBlock_keeps n t s child hc L e L1 hL h
      · simp [throw, throwThe, MonadExceptOf.throw] at h
    · split at h
      · obtain ⟨c1, _, h⟩ := bind_ok _ _ _ h
        split at h
        · exact makeGetLocal_keeps n t s L e L1 hL h
        · simp [throw, throwThe, MonadExceptOf.throw] at h
      · split at h
        · obtain ⟨c1, _, h⟩ := bind_ok _ _ _ h
          split at h
          · exact makeSetLocal_keeps n t s child hc L e L1 hL h
          · simp [throw, throwThe, MonadExceptOf.throw] at h
        · simp [throw, throwThe, MonadExceptOf.throw] at h

/-- Parsing an expression keeps the entry of a declared name in
`currLocalTypes`, and every `GetLocal`/`SetLocal` node for that name in the
result carries the declared type. -/
theorem parseExpression_keeps (n : Name) (t : WasmType) (s : Element) :
    ∀ (L : LocalTypes) (e : Expression) (L1 : LocalTypes),
      LocalTypes.find L n = some t → parseExpression L s = .ok (e, L1) →
      e.localsTyped n t = true ∧ LocalTypes.find L1 n = some t := by
  induction s using Element.induction with
  | hstr name =>
    intro L e L1 _ h
    simp [parseExpression] at h
  | hlist xs ih =>
    intro L e L1 hL h
    rw [parseExpression_list] at h
    refine parseExpressionBody_keeps n t _ _ ?_ L e L1 hL h
    intro La i ea Lb hLa hch
    simp only [parseChildAt_eq] at hch
    cases hx : xs[i]? with
    | none => simp [hx] at hch
    | some x =>
      simp only [hx] at hch
      exact ih x (List.getElem?_mem hx) La ea Lb hLa hch

theorem parseFunctionLoop_append (xs ys : List Element) (func : Function) (L : LocalTypes) :
    parseFunctionLoop (xs ++ ys) func L =
      match parseFunctionLoop xs func L with
      | .error e => .error e
      | .ok (f1, L1) => parseFunctionLoop ys f1 L1 := by
  induction xs generalizing func L with
  | nil => simp [parseFunctionLoop]
  | cons c rest ih =>
    simp only [List.cons_append, parseFunctionLoop]
    cases parseFunctionItem func L c with
    | error e => rfl
    | ok r => exact ih r.1 r.2

theorem parseFunctionItem_shape (func : Function) (L : LocalTypes) (c : Element)
    (r : Function × LocalTypes) (h : parseFunctionItem func L c = .ok r) :
    ∃ id rest, c = .list (.str id :: rest) := by
  unfold parseFunctionItem at h
  obtain ⟨c0, h0, h⟩ := bind_ok _ _ _ h
  obtain ⟨id, hid, _⟩ := bind_ok _ _ _ h
  cases c with
  | str name => simp [Element.index, Element.getList] at h0
  | list xs =>
    cases xs with
    | nil => simp [Element.index, Element.getList] at h0
    | cons hd rest =>
      simp [Element.index, Element.getList] at h0
      subst h0
      cases hd with
      | list ys => simp [Element.getStr] at hid
      | str name => exact ⟨name, rest, rfl⟩

theorem parseFunctionItem_declaring (n : Name) (t : WasmType) (func : Function)
    (L : LocalTypes) (c : Element) (f1 : Function) (L1 : LocalTypes)
    (hd : declares c n = true) (ht : declaredType c = .ok t)
    (h : parseFunctionItem func L c = .ok (f1, L1)) :
    LocalTypes.find L1 n = some t := by
  unfold declares at hd
  split at hd
  · rename_i id name rest
    simp only [Bool.and_eq_true, Bool.or_eq_true, beq_iff_eq] at hd
    obtain ⟨hid, hname⟩ := hd
    subst hname
    simp only [declaredType, Element.index, Element.getList] at ht
    cases rest with
    | nil => simp [bind, Except.bind] at ht
    | cons ty rest1 =>
      cases ty with
      | list ys => simp [bind, Except.bind, Element.getStr] at ht
      | str tys =>
        simp [bind, Except.bind, Element.getStr] at ht
        rcases hid with hid | hid
        · subst hid
          simp [parseFunctionItem, Element.index, Element.getList, Element.getStr, bind,
            Except.bind, ht, pure, Except.pure] at h
          obtain ⟨_, hL1⟩ := h
          subst hL1
          exact LocalTypes.find_assign_same L name t
        · subst hid
          simp [parseFunctionItem, Element.index, Element.getList, Element.getStr, bind,
            Except.bind, ht, pure, Except.pure, PARAM, RESULT, LOCAL] at h
          obtain ⟨_, hL1⟩ := h
          subst hL1
          exact LocalTypes.find_assign_same L name t
  · simp at hd

theorem parseFunctionItem_keeps (n : Name) (t : WasmType) (func : Function)
    (L : LocalTypes) (c : Element) (f1 : Function) (L1 : LocalTypes)
    (hd : declares c n = false) (hL : LocalTypes.find L n = some t)
    (h : parseFunctionItem func L c = .ok (f1, L1)) :
    LocalTypes.find L1 n = some t := by
  obtain ⟨id, rest, hc⟩ := parseFunctionItem_shape func L c _ h
  subst hc
  unfold parseFunctionItem at h
  simp only [Element.index, Element.getList, List.getElem?_cons_zero, Element.getStr, bind,
    Except.bind] at h
  split at h
  · -- a `param` form
    rename_i hid
    cases rest with
    | nil => simp at h
    | cons x rest1 =>
      cases x with
      | list ys => simp at h
      | str name =>
        have hne : name ≠ n := by
          intro hn
          simp [declares, hid, hn] at hd
        simp only [List.getElem?_cons_succ, List.getElem?_cons_zero] at h
        cases h2 : (rest1[0]?) with
        | none => simp [h2] at h
        | some y =>
          cases y with
          | list ys => simp [h2] at h
          | str tys =>
            cases h3 : stringToWasmType tys.data with
            | error e => simp [h2, h3] at h
            | ok type =>
              simp [h2, h3, pure, Except.pure] at h
              obtain ⟨_, hL1⟩ := h
              subst hL1
              rw [LocalTypes.find_assign_other L n name type hne]
              exact hL
  · split at h
    · -- a `result` form
      cases h2 : (rest[0]?) with
      | none => simp [h2] at h
      | some y =>
        cases y with
        | list ys => simp [h2] at h
        | str tys =>
          cases h3 : stringToWasmType tys.data with
          | error e => simp [h2, h3] at h
          | ok type =>
            simp [h2, h3, pure, Except.pure] at h
            obtain ⟨_, hL1⟩ := h
            subst hL1
            exact hL
    · split at h
      · -- a `local` form
        rename_i hid
        cases rest with
        | nil => simp at h
        | cons x rest1 =>
          cases x with
          | list ys => simp at h
          | str name =>
            have hne : name ≠ n := by
              intro hn
              simp [declares, hid, hn] at hd
            simp only [List.getElem?_cons_succ, List.getElem?_cons_zero] at h
            cases h2 : (rest1[0]?) with
            | none => simp [h2] at h
            | some y =>
              cases y with
              | list ys => simp [h2] at h
              | str tys =>
                cases h3 : stringToWasmType tys.data with
                | error e => simp [h2, h3] at h
                | ok type =>
                  simp [h2, h3, pure, Except.pure] at h
                  obtain ⟨_, hL1⟩ := h
                  subst hL1
                  rw [LocalTypes.find_assign_other L n name type hne]
                  exact hL
      · -- the body
        cases h2 : parseExpression L (.list (.str id :: rest)) with
        | error e => simp [h2] at h
        | ok r =>
          obtain ⟨b, La⟩ := r
          simp [h2, pure, Except.pure] at h
          obtain ⟨_, hL1⟩ := h
          subst hL1
          exact (parseExpression_keeps n t _ L b La hL h2).2

theorem parseFunctionLoop_keeps (n : Name) (t : WasmType) (cs : List Element) :
    ∀ (func : Function) (L : LocalTypes) (f1 : Function) (L1 : LocalTypes),
      (∀ c ∈ cs, declares c n = false) → LocalTypes.find L n = some t →
      parseFunctionLoop cs func L = .ok (f1, L1) → LocalTypes.find L1 n = some t := by
  induction cs with
  | nil =>
    intro func L f1 L1 _ hL h
    simp [parseFunctionLoop] at h
    obtain ⟨_, hL1⟩ := h
    subst hL1
    exact hL
  | cons c rest ih =>
    intro func L f1 L1 hcs hL h
    unfold parseFunctionLoop at h
    cases h1 : parseFunctionItem func L c with
    | error e => simp [h1] at h
    | ok r =>
      obtain ⟨fa, La⟩ := r
      simp only [h1] at h
      exact ih fa La f1 L1 (fun c1 hc1 => hcs c1 (List.mem_cons_of_mem _ hc1))
        (parseFunctionItem_keeps n t func L c fa La (hcs c (List.mem_cons_self _ _)) hL h1) h

theorem parseFunctionItem_body (n : Name) (t : WasmType) (func : Function)
    (L : LocalTypes) (c : Element) (f1 : Function) (L1 : LocalTypes)
    (hb : isDeclaration c = false) (hL : LocalTypes.find L n = some t)
    (h : parseFunctionItem func L c = .ok (f1, L1)) :
    ∃ b, f1.body = some b ∧ b.localsTyped n t = true := by
  obtain ⟨id, rest, hc⟩ := parseFunctionItem_shape func L c _ h
  subst hc
  simp only [isDeclaration, Bool.or_eq_false_iff, beq_eq_false_iff_ne, ne_eq] at hb
  obtain ⟨⟨hp, hr⟩, hl⟩ := hb
  unfold parseFunctionItem at h
  simp only [Element.index, Element.getList, List.getElem?_cons_zero, Element.getStr, bind,
    Except.bind, hp, hr, hl, if_false] at h
  cases h2 : parseExpression L (.list (.str id :: rest)) with
  | error e => simp [h2] at h
  | ok r =>
    obtain ⟨b, La⟩ := r
    simp [h2, pure, Except.pure] at h
    obtain ⟨hf, _⟩ := h
    subst hf
    exact ⟨b, rfl, (parseExpression_keeps n t _ L b La hL h2).1⟩

theorem parseFunctionItem_declaration_body (func : Function) (L : LocalTypes) (c : Element)
    (f1 : Function) (L1 : LocalTypes) (hb : isDeclaration c = true)
    (h : parseFunctionItem func L c = .ok (f1, L1)) : f1.body = func.body := by
  obtain ⟨id, rest, hc⟩ := parseFunctionItem_shape func L c _ h
  subst hc
  simp only [isDeclaration, Bool.or_eq_true, beq_iff_eq] at hb
  unfold parseFunctionItem at h
  simp only [Element.index, Element.getList, List.getElem?_cons_zero, Element.getStr, bind,
    Except.bind] at h
  split at h
  · obtain ⟨a, _, h⟩ := bind_ok _ _ _ h
    obtain ⟨a1, _, h⟩ := bind_ok _ _ _ h
    obtain ⟨a2, _, h⟩ := bind_ok _ _ _ h
    obtain ⟨a3, _, h⟩ := bind_ok _ _ _ h
    obtain ⟨a4, _, h⟩ := bind_ok _ _ _ h
    simp [pure, Except.pure] at h
    rw [← h.1]
  · split at h
    · obtain ⟨a, _, h⟩ := bind_ok _ _ _ h
      obtain ⟨a1, _, h⟩ := bind_ok _ _ _ h
      obtain ⟨a2, _, h⟩ := bind_ok _ _ _ h
      simp [pure, Except.pure] at h
      rw [← h.1]
    · split at h
      · obtain ⟨a, _, h⟩ := bind_ok _ _ _ h
        obtain ⟨a1, _, h⟩ := bind_ok _ _ _ h
        obtain ⟨a2, _, h⟩ := bind_ok _ _ _ h
        obtain ⟨a3, _, h⟩ := bind_ok _ _ _ h
        obtain ⟨a4, _, h⟩ := bind_ok _ _ _ h
        simp [pure, Except.pure] at h
        rw [← h.1]
      · rename_i h1 h2 h3
        rcases hb with (hb | hb) | hb
        · exact absurd hb h1
        · exact absurd hb h2
        · exact absurd hb h3

theorem parseFunctionLoop_declarations_body (cs : List Element) :
    ∀ (func : Function) (L : LocalTypes) (f1 : Function) (L1 : LocalTypes),
      (∀ c ∈ cs, isDeclaration c = true) →
      parseFunctionLoop cs func L = .ok (f1, L1) → f1.body = func.body := by
  induction cs with
  | nil =>
    intro func L f1 L1 _ h
    simp [parseFunctionLoop] at h
    rw [← h.1]
  | cons c rest ih =>
    intro func L f1 L1 hcs h
    unfold parseFunctionLoop at h
    cases h1 : parseFunctionItem func L c with
    | error e => simp [h1] at h
    | ok r =>
      obtain ⟨fa, La⟩ := r
      simp only [h1] at h
      rw [ih fa La f1 L1 (fun c1 hc1 => hcs c1 (List.mem_cons_of_mem _ hc1)) h]
      exact parseFunctionItem_declaration_body func L c fa La (hcs c (List.mem_cons_self _ _)) h1

/-! ## The functions of the module -/

/-- No module-level form changes `Module.functions`: a `func` form changes only
`currLocalTypes`, the other forms change the memory size, the exports or the
table. -/
theorem parseModuleElement_functions (b b1 : SExpressionWasmBuilder) (curr : Element)
    (h : SExpressionWasmBuilder.parseModuleElement b curr = .ok b1) :
    b1.wasm.functions = b.wasm.functions := by
  unfold SExpressionWasmBuilder.parseModuleElement at h
  obtain ⟨c0, _, h⟩ := bind_ok _ _ _ h
  obtain ⟨id, _, h⟩ := bind_ok _ _ _ h
  split at h
  · obtain ⟨⟨f, L⟩, _, h⟩ := bind_ok _ _ _ h
    simp only [pure, Except.pure, Except.ok.injEq] at h
    rw [← h]
  · split at h
    · unfold SExpressionWasmBuilder.parseMemory at h
      obtain ⟨a, _, h⟩ := bind_ok _ _ _ h
      obtain ⟨a1, _, h⟩ := bind_ok _ _ _ h
      obtain ⟨a2, _, h⟩ := bind_ok _ _ _ h
      simp only [pure, Except.pure, Except.ok.injEq] at h
      rw [← h]
    · split at h
      · unfold SExpressionWasmBuilder.parseExport at h
        obtain ⟨a, _, h⟩ := bind_ok _ _ _ h
        obtain ⟨a1, _, h⟩ := bind_ok _ _ _ h
        obtain ⟨a2, _, h⟩ := bind_ok _ _ _ h
        obtain ⟨a3, _, h⟩ := bind_ok _ _ _ h
        simp only [pure, Except.pure, Except.ok.injEq] at h
        rw [← h]
      · split at h
        · unfold SExpressionWasmBuilder.parseTable at h
          obtain ⟨a, _, h⟩ := bind_ok _ _ _ h
          obtain ⟨a1, _, h⟩ := bind_ok _ _ _ h
          simp only [pure, Except.pure, Except.ok.injEq] at h
          rw [← h]
        · simp [throw, throwThe, MonadExceptOf.throw] at h

theorem parseModuleElements_functions (cs : List Element) :
    ∀ (b b1 : SExpressionWasmBuilder),
      SExpressionWasmBuilder.parseModuleElements cs b = .ok b1 →
      b1.wasm.functions = b.wasm.functions := by
  induction cs with
  | nil =>
    intro b b1 h
    simp only [SExpressionWasmBuilder.parseModuleElements, Except.ok.injEq] at h
    rw [← h]
  | cons c rest ih =>
    intro b b1 h
    unfold SExpressionWasmBuilder.parseModuleElements at h
    cases h1 : SExpressionWasmBuilder.parseModuleElement b c with
    | error e => simp [h1] at h
    | ok b2 =>
      simp only [h1] at h
      rw [ih b2 b1 h, parseModuleElement_functions b b2 c h1]

/-- Whatever the text, a successful run of the constructor leaves
`Module.functions` as the caller passed it. -/
theorem build_functions (wasm : Module) (input : List Char) (b : SExpressionWasmBuilder)
    (h : SExpressionWasmBuilder.build wasm input = .ok b) :
    b.wasm.functions = wasm.functions := by
  unfold SExpressionWasmBuilder.build at h
  obtain ⟨root, _, h⟩ := bind_ok _ _ _ h
  split at h
  · simp [throw, throwThe, MonadExceptOf.throw] at h
  · obtain ⟨module, _, h⟩ := bind_ok _ _ _ h
    obtain ⟨a, _, h⟩ := bind_ok _ _ _ h
    obtain ⟨id, _, h⟩ := bind_ok _ _ _ h
    split at h
    · obtain ⟨xs, _, h⟩ := bind_ok _ _ _ h
      exact parseModuleElements_functions _ _ b h
    · simp [throw, throwThe, MonadExceptOf.throw] at h

/-! ## Module building (C1) -/

/-- C1 (code defect): on the text
`(module (func $f (param $x i32) (result i32) (get_local $x)))` the constructor
of the builder succeeds and leaves `Module.functions` empty, although
`parseFunction`, on the `func` form of that text, builds the function `$f` with
one param `$x : i32`, result type i32 and body `GetLocal($x)` of type i32: the
function is built and never stored in the module. -/
theorem C1_function_built_but_not_registered :
    SExpressionWasmBuilder.build {}
        "(module (func $f (param $x i32) (result i32) (get_local $x)))".data
      = .ok { wasm := { functions := [], memorySize := 0, exports := [], table := { names := [] } },
              currLocalTypes := [] }
    ∧ parseFunction []
        (.list [.str "func", .str "$f", .list [.str "param", .str "$x", .str "i32"],
          .list [.str "result", .str "i32"], .list [.str "get_local", .str "$x"]])
      = .ok ({ name := "$f", params := [("$x", WasmType.i32)], result := WasmType.i32,
               locals := [], body := some (Expression.GetLocal "$x" WasmType.i32) }, []) :=
  ⟨rfl, rfl⟩

/-! ## Loads (C2) -/

/-- C2 (code defect): with `$p` declared as i32, `parseExpression` aborts on
`(i32.load (align 4) (offset 8) (get_local $p))` and on
`(i32.load (get_local $p))`: the loop over the immediates takes the pointer
expression, a list that is neither `align` nor `offset`, for an unknown
immediate. No Load node is returned. -/
theorem C2_load_with_pointer_expression_aborts :
    parseExpression [("$p", WasmType.i32)]
        (.list [.str "i32.load", .list [.str "align", .str "4"],
          .list [.str "offset", .str "8"], .list [.str "get_local", .str "$p"]])
      = .error Err.abort
    ∧ parseExpression [("$p", WasmType.i32)]
        (.list [.str "i32.load", .list [.str "get_local", .str "$p"]])
      = .error Err.abort :=
  ⟨rfl, rfl⟩

/-! ## Signed and unsigned operators (C3) -/

/-- C3 (code defect): `(i64.rem_u (i64.const 1) (i64.const 2))` is parsed as a
Binary node of type i64 with operator `RemS`, the same node as for `i64.rem_s`:
the switch tests the character `op[3]`, which is `_`, where the sign letter is
`op[4]`. The other signed/unsigned pairs (div, shr, lt, le, gt, ge) test the
sign letter and are classified as written. -/
theorem C3_rem_u_is_parsed_as_RemS :
    parseExpression []
        (.list [.str "i64.rem_u", .list [.str "i64.const", .str "1"],
          .list [.str "i64.const", .str "2"]])
      = .ok (Expression.Binary BinaryOp.RemS
              (Expression.Const WasmType.i64 (Literal.i64 1))
              (Expression.Const WasmType.i64 (Literal.i64 2)) WasmType.i64, [])
    ∧ classify "rem_u".data = .ok (Operation.Binary BinaryOp.RemS)
    ∧ classify "rem_s".data = .ok (Operation.Binary BinaryOp.RemS)
    ∧ classify "div_u".data = .ok (Operation.Binary BinaryOp.DivU)
    ∧ classify "div_s".data = .ok (Operation.Binary BinaryOp.DivS)
    ∧ classify "shr_u".data = .ok (Operation.Binary BinaryOp.ShrU)
    ∧ classify "shr_s".data = .ok (Operation.Binary BinaryOp.ShrS)
    ∧ classify "lt_u".data = .ok (Operation.Compare RelationalOp.LtU)
    ∧ classify "lt_s".data = .ok (Operation.Compare RelationalOp.LtS)
    ∧ classify "le_u".data = .ok (Operation.Compare RelationalOp.LeU)
    ∧ classify "le_s".data = .ok (Operation.Compare RelationalOp.LeS)
    ∧ classify "gt_u".data = .ok (Operation.Compare RelationalOp.GtU)
    ∧ classify "gt_s".data = .ok (Operation.Compare RelationalOp.GtS)
    ∧ classify "ge_u".data = .ok (Operation.Compare RelationalOp.GeU)
    ∧ classify "ge_s".data = .ok (Operation.Compare RelationalOp.GeS) :=
  ⟨rfl, rfl, rfl, rfl, rfl, rfl, rfl, rfl, rfl, rfl, rfl, rfl, rfl, rfl, rfl⟩

/-! ## Unknown operations (C4) -/

/-- C4 (counterexample): `(i32.adzzz (i32.const 1) (i32.const 2))`, whose suffix
`adzzz` is no operator but shares its first two characters with `add`, does not
fail: it is parsed as a Binary node with operator `Add`. Likewise `i32.rexyz` is
parsed as `RemS` and `i32.shzzz` as `ShrS`. -/
theorem C4_counterexample_shared_leading_characters :
    parseExpression []
        (.list [.str "i32.adzzz", .list [.str "i32.const", .str "1"],
          .list [.str "i32.const", .str "2"]])
      = .ok (Expression.Binary BinaryOp.Add
              (Expression.Const WasmType.i32 (Literal.i32 1))
              (Expression.Const WasmType.i32 (Literal.i32 2)) WasmType.i32, [])
    ∧ parseExpression []
        (.list [.str "i32.rexyz", .list [.str "i32.const", .str "1"],
          .list [.str "i32.const", .str "2"]])
      = .ok (Expression.Binary BinaryOp.RemS
              (Expression.Const WasmType.i32 (Literal.i32 1))
              (Expression.Const WasmType.i32 (Literal.i32 2)) WasmType.i32, [])
    ∧ parseExpression []
        (.list [.str "i32.shzzz", .list [.str "i32.const", .str "1"],
          .list [.str "i32.const", .str "2"]])
      = .ok (Expression.Binary BinaryOp.ShrS
              (Expression.Const WasmType.i32 (Literal.i32 1))
              (Expression.Const WasmType.i32 (Literal.i32 2)) WasmType.i32, []) :=
  ⟨rfl, rfl, rfl⟩

theorem cAt_zero (str : List Char) : cAt str 0 = .ok (peek str) := by
  cases str <;> simp [cAt, peek]

theorem cAt_succ (c : Char) (str : List Char) (i : Nat) :
    cAt (c :: str) (i + 1) = cAt str i := by
  simp [cAt]

theorem cAt_cons_zero (c : Char) (str : List Char) : cAt (c :: str) 0 = .ok c := by
  simp [cAt]

theorem cAt_nil_zero : cAt [] 0 = .ok NUL := rfl

theorem cAt_nil_succ (i : Nat) : cAt [] (i + 1) = .error Err.undefined := by
  simp [cAt]

/-- A read in a string gives a character or lies past the terminator. -/
theorem cAt_cases (str : List Char) (i : Nat) :
    (∃ c, cAt str i = .ok c) ∨ cAt str i = .error Err.undefined := by
  unfold cAt
  cases str[i]? with
  | some c => simp
  | none => by_cases h : i = str.length <;> simp [h]

/-- Every suffix whose first character is none of the letters the switch has a
case for is rejected with `abort_on`. -/
theorem classify_abort_of_first (op : List Char)
    (h : peek op ∉ ['a', 'c', 'd', 'e', 'f', 'g', 'l', 'm', 'n', 'o', 'r', 's', 't', 'x']) :
    classify op = .error Err.abort := by
  have h0 : cAt op 0 = .ok (peek op) := by
    cases op <;> simp [cAt, peek]
  simp only [List.mem_cons, List.mem_singleton, List.not_mem_nil, not_or, or_false] at h
  obtain ⟨h1, h2, h3, h4, h5, h6, h7, h8, h9, h10, h11, h12, h13, h14⟩ := h
  simp [classify, h0, bind, Except.bind, h1, h2, h3, h4, h5, h6, h7, h8, h9, h10, h11,
    h12, h13, h14, throw, throwThe, MonadExceptOf.throw]

/-- The switch ends in `abort_on` exactly on the suffixes that do not begin with
the leading characters of a known one. On every other suffix it selects an
operation, or goes on to read a character behind the terminator. -/
theorem classify_abort_iff (op : List Char) :
    classify op = .error Err.abort ↔ recognised op = false := by
  rcases op with _ | ⟨a, op1⟩
  · exact ⟨fun _ => rfl, fun _ => rfl⟩
  by_cases ha : a ∈ ['a', 'c', 'd', 'e', 'f', 'g', 'l', 'm', 'n', 'o', 'r', 's', 't', 'x']
  · simp only [List.mem_cons, List.mem_singleton, List.not_mem_nil, or_false] at ha
    rcases ha with rfl | rfl | rfl | rfl | rfl | rfl | rfl | rfl | rfl | rfl | rfl | rfl
      | rfl | rfl <;>
    rcases op1 with _ | ⟨b, _ | ⟨c, _ | ⟨d, rest⟩⟩⟩ <;>
    simp [classify, recognised, knownLeading, beginsWith,
      bind, Except.bind, pure, Except.pure, throw, throwThe, MonadExceptOf.throw,
      cAt_cons_zero, cAt_succ, cAt_nil_zero, cAt_nil_succ, NUL] <;>
    (try split_ifs) <;> (try simp_all) <;>
    first
    | done
    | (rcases cAt_cases rest 0 with ⟨v, hv⟩ | hv <;> simp [hv])
    | (rcases cAt_cases rest 4 with ⟨v, hv⟩ | hv <;> simp [hv])
    | (by_cases hb : b = 'o' <;> simp [hb])
  · have h1 : classify (a :: op1) = .error Err.abort := classify_abort_of_first _ ha
    simp only [List.mem_cons, List.mem_singleton, List.not_mem_nil, not_or, or_false] at ha
    obtain ⟨h1, h2, h3, h4, h5, h6, h7, h8, h9, h10, h11, h12, h13, h14⟩ := ha
    simp [*, recognised, knownLeading, beginsWith]

/-- A read in a string fails only behind the terminator. -/
theorem cAt_error (str : List Char) (i : Nat) (e : Err) (h : cAt str i = .error e) :
    e = Err.undefined := by
  rcases cAt_cases str i with ⟨c, hc⟩ | hc
  · rw [hc] at h; cases h
  · rw [hc] at h; cases h; rfl

theorem error_bind_cAt {α : Type} (str : List Char) (i : Nat) (f : Char → Except Err α)
    (hf : ∀ c e, f c = .error e → e = Err.abort ∨ e = Err.undefined) :
    ∀ e, (cAt str i >>= f) = .error e → e = Err.abort ∨ e = Err.undefined := by
  intro e h
  cases hc : cAt str i with
  | error e1 =>
    rw [hc] at h
    cases h
    exact Or.inr (cAt_error _ _ _ hc)
  | ok c =>
    rw [hc] at h
    exact hf c e h

theorem error_ite {α : Type} (p : Prop) [Decidable p] (a b : Except Err α)
    (ha : ∀ e, a = .error e → e = Err.abort ∨ e = Err.undefined)
    (hb : ∀ e, b = .error e → e = Err.abort ∨ e = Err.undefined) :
    ∀ e, (if p then a else b) = .error e → e = Err.abort ∨ e = Err.undefined := by
  intro e h
  split at h
  · exact ha e h
  · exact hb e h

theorem error_pure {α : Type} (a : α) :
    ∀ e, (pure a : Except Err α) = .error e → e = Err.abort ∨ e = Err.undefined := by
  intro e h
  cases h

theorem error_throw_abort {α : Type} :
    ∀ e, (throw Err.abort : Except Err α) = .error e → e = Err.abort ∨ e = Err.undefined := by
  intro e h
  cases h
  exact Or.inl rfl

set_option maxRecDepth 20000 in
/-- The switch fails in `abort_on` or at a read behind the terminator. -/
theorem classify_error (op : List Char) :
    ∀ e, classify op = .error e → e = Err.abort ∨ e = Err.undefined := by
  unfold classify
  repeat (first
    | exact error_pure _
    | exact error_throw_abort
    | apply error_ite
    | (apply error_bind_cAt; intro _))

/-- On a suffix that begins with the leading characters of a known one, the
switch selects an operation or reads a character behind the terminator. -/
theorem classify_recognised (op : List Char) (h : recognised op = true) :
    (∃ k, classify op = .ok k) ∨ classify op = .error Err.undefined := by
  cases hc : classify op with
  | ok k => exact Or.inl ⟨k, rfl⟩
  | error e =>
    rcases classify_error op e hc with he | he
    · subst he
      rw [(classify_abort_iff op).1 hc] at h
      exact absurd h (by decide)
    · subst he
      exact Or.inr rfl

/-- On a name with a dot, `stringToWasmType` gives a type or aborts. -/
theorem stringToWasmType_error (str : List Char) (c : Char) (dot : List Char) (e : Err)
    (hdot : strchr str c = some dot) (h : stringToWasmType str = .error e) :
    e = Err.abort := by
  rcases str with _ | ⟨a, rest⟩
  · simp [strchr] at hdot
  · simp only [stringToWasmType, cAt_cons_zero, cAt_succ, cAt_zero, bind, Except.bind,
      pure, Except.pure, throw, throwThe, MonadExceptOf.throw] at h
    split_ifs at h
    simp_all

/-- C4 (amended): for every dotted mnemonic whose operation suffix (the text
after the first dot) does not begin with the leading characters of a known
suffix (the table `knownLeading`), `parseExpression` fails with `abort_on` and
returns no node, whatever the operands and whatever `currLocalTypes` holds. No
other suffix is rejected by the switch: on every suffix that begins with the
leading characters of a known one, the switch selects an operation or reads a
character behind the end of the mnemonic. -/
theorem C4_unknown_leading_characters_fail (L : LocalTypes) (id : Name) (dot : List Char)
    (operands : List Element)
    (hdot : strchr id.data '.' = some dot) (hk : recognised dot.tail = false) :
    parseExpression L (.list (.str id :: operands)) = .error Err.abort
    ∧ ∀ op : List Char, recognised op = true →
        (∃ k, classify op = .ok k) ∨ classify op = .error Err.undefined := by
  refine ⟨?_, classify_recognised⟩
  have hc : classify dot.tail = .error Err.abort := (classify_abort_iff _).2 hk
  rw [parseExpression_list]
  cases htype : stringToWasmType id.data with
  | error e0 =>
    have he : e0 = Err.abort := stringToWasmType_error _ _ _ _ hdot htype
    subst he
    simp [parseExpressionBody, Element.index, Element.getList, Element.getStr, bind,
      Except.bind, hdot, htype]
  | ok type =>
    simp [parseExpressionBody, Element.index, Element.getList, Element.getStr, bind,
      Except.bind, hdot, htype, hc]

/-- C4 (witness): the suffix `bogus` begins with the leading characters of no
known suffix, so a form headed by `i32.bogus` fails, here with two well-formed
operands. The suffix `adzzz` begins with those of `add`, and the switch selects
an operation for it. -/
theorem C4_unknown_leading_characters_fail_witness :
    strchr "i32.bogus".data '.' = some ".bogus".data
    ∧ recognised ".bogus".data.tail = false
    ∧ parseExpression []
        (.list (.str "i32.bogus" :: [.list [.str "i32.const", .str "1"],
          .list [.str "i32.const", .str "2"]])) = .error Err.abort
    ∧ recognised "adzzz".data = true
    ∧ ((∃ k, classify "adzzz".data = .ok k) ∨ classify "adzzz".data = .error Err.undefined) :=
  ⟨rfl, by decide,
    (C4_unknown_leading_characters_fail [] "i32.bogus" ".bogus".data
      [.list [.str "i32.const", .str "1"], .list [.str "i32.const", .str "2"]]
      rfl (by decide)).1,
    by decide,
    (C4_unknown_leading_characters_fail [] "i32.bogus" ".bogus".data [] rfl (by decide)).2
      "adzzz".data (by decide)⟩

/-! ## Surplus operands (C6) -/

/-- C6 (counterexample): `(i32.add (i32.const 1) (i32.const 2) (i32.const 3))`,
a binary form with three operands, is not rejected: it is parsed as the Binary
node of its first two operands. -/
theorem C6_counterexample_surplus_operand_accepted :
    parseExpression []
        (.list [.str "i32.add", .list [.str "i32.const", .str "1"],
          .list [.str "i32.const", .str "2"], .list [.str "i32.const", .str "3"]])
      = .ok (Expression.Binary BinaryOp.Add
              (Expression.Const WasmType.i32 (Literal.i32 1))
              (Expression.Const WasmType.i32 (Literal.i32 2)) WasmType.i32, []) :=
  rfl

/-- C6 (amended): operands beyond the count of the operator are ignored. A
binary or compare form with more than two operand children, or a unary or
convert form with more than one, has the same result (node, failure and
`currLocalTypes`) as the form cut after its second, respectively first,
operand. -/
theorem C6_surplus_operands_ignored (L : LocalTypes) (id : Name) (dot : List Char)
    (operands surplus : List Element) (k : Operation)
    (hdot : strchr id.data '.' = some dot) (hk : classify dot.tail = .ok k)
    (hlen : operandCount k = some operands.length) :
    parseExpression L (.list (.str id :: (operands ++ surplus)))
      = parseExpression L (.list (.str id :: operands)) := by
  rw [parseExpression_list, parseExpression_list]
  cases htype : stringToWasmType id.data with
  | error e0 =>
    simp [parseExpressionBody, Element.index, Element.getList, Element.getStr, bind,
      Except.bind, hdot, htype]
  | ok type =>
    rw [parseExpressionBody_dotted _ _ L id (operands ++ surplus) dot type k rfl hdot htype hk,
      parseExpressionBody_dotted _ _ L id operands dot type k rfl hdot htype hk]
    cases k with
    | Binary o =>
      simp only [operandCount, Option.some.injEq] at hlen
      match operands, hlen with
      | [a, b], _ => simp [makeBinary, parseChildAt]
    | Compare o =>
      simp only [operandCount, Option.some.injEq] at hlen
      match operands, hlen with
      | [a, b], _ => simp [makeCompare, parseChildAt]
    | Unary o =>
      simp only [operandCount, Option.some.injEq] at hlen
      match operands, hlen with
      | [a], _ => simp [makeUnary, parseChildAt]
    | Convert o =>
      simp only [operandCount, Option.some.injEq] at hlen
      match operands, hlen with
      | [a], _ => simp [makeConvert, parseChildAt]
    | Const => simp [operandCount] at hlen
    | Load => simp [operandCount] at hlen
    | Store => simp [operandCount] at hlen

/-- C6 (witness): the binary form `i32.add` with a third operand has the result
of the form with its first two operands. -/
theorem C6_surplus_operands_ignored_witness :
    strchr "i32.add".data '.' = some ".add".data
    ∧ classify ".add".data.tail = .ok (Operation.Binary BinaryOp.Add)
    ∧ operandCount (Operation.Binary BinaryOp.Add)
        = some [Element.list [.str "i32.const", .str "1"],
            Element.list [.str "i32.const", .str "2"]].length
    ∧ parseExpression []
        (.list (.str "i32.add" :: ([.list [.str "i32.const", .str "1"],
          .list [.str "i32.const", .str "2"]] ++ [.list [.str "i32.const", .str "3"]])))
      = parseExpression []
        (.list (.str "i32.add" :: [.list [.str "i32.const", .str "1"],
          .list [.str "i32.const", .str "2"]])) :=
  ⟨rfl, rfl, rfl,
    C6_surplus_operands_ignored [] "i32.add" ".add".data _ _ (Operation.Binary BinaryOp.Add)
      rfl rfl rfl⟩

/-! ## Resolution of declared locals (C7) -/

/-- C7: in a function form whose child `decl` declares the name `n` with type
`t` (a `param` or `local` form), whose body child `body` (the last child that is
not a declaration) comes after `decl`, and in which no other child declares `n`,
every `GetLocal` and `SetLocal` node for `n` in the body of the function that
`parseFunction` builds carries the type `t`, whatever `currLocalTypes` held
before. The second part is the instance of the claim:
`(func $f (local $y f64) (set_local $y (f64.const 1.5)))` is parsed successfully
and its `SetLocal` node for `$y` has type f64. -/
theorem C7_declared_local_has_declared_type :
    (∀ (L : LocalTypes) (head fname : Element) (before between after : List Element)
        (decl body : Element) (n : Name) (t : WasmType) (f : Function) (L1 : LocalTypes),
        declares decl n = true → declaredType decl = .ok t →
        (∀ c ∈ before ++ between ++ after, declares c n = false) →
        isDeclaration body = false → (∀ c ∈ after, isDeclaration c = true) →
        parseFunction L
            (.list (head :: fname :: (before ++ decl :: (between ++ body :: after))))
          = .ok (f, L1) →
        ∃ b, f.body = some b ∧ b.localsTyped n t = true)
    ∧ parseFunction []
        (.list [.str "func", .str "$f", .list [.str "local", .str "$y", .str "f64"],
          .list [.str "set_local", .str "$y", .list [.str "f64.const", .str "1.5"]]])
      = .ok ({ name := "$f", params := [], result := WasmType.none,
               locals := [("$y", WasmType.f64)],
               body := some (Expression.SetLocal "$y"
                 (Expression.Const WasmType.f64 (Literal.f64 "1.5".data)) WasmType.f64) },
             []) := by
  refine ⟨?_, rfl⟩
  intro L head fname before between after decl body n t f L1 hdecl htype hother hbody
    hafter h
  unfold parseFunction at h
  obtain ⟨s1, _, h⟩ := bind_ok _ _ _ h
  obtain ⟨name, _, h⟩ := bind_ok _ _ _ h
  obtain ⟨xs, hxs, h⟩ := bind_ok _ _ _ h
  obtain ⟨⟨f2, L2⟩, hloop, h⟩ := bind_ok _ _ _ h
  simp only [pure, Except.pure, Except.ok.injEq, Prod.mk.injEq] at h
  obtain ⟨hf, _⟩ := h
  subst hf
  simp only [Element.getList, Except.ok.injEq] at hxs
  subst hxs
  simp only [List.drop_succ_cons, List.drop_zero] at hloop
  -- the children before the declaration
  rw [parseFunctionLoop_append] at hloop
  cases ha : parseFunctionLoop before { name := name } L with
  | error e => simp [ha] at hloop
  | ok ra =>
    obtain ⟨fa, La⟩ := ra
    simp only [ha] at hloop
    -- the declaration
    unfold parseFunctionLoop at hloop
    cases hb : parseFunctionItem fa La decl with
    | error e => simp [hb] at hloop
    | ok rb =>
      obtain ⟨fb, Lb⟩ := rb
      simp only [hb] at hloop
      have hLb := parseFunctionItem_declaring n t fa La decl fb Lb hdecl htype hb
      -- the children between the declaration and the body
      rw [parseFunctionLoop_append] at hloop
      cases hc : parseFunctionLoop between fb Lb with
      | error e => simp [hc] at hloop
      | ok rc =>
        obtain ⟨fc, Lc⟩ := rc
        simp only [hc] at hloop
        have hLc := parseFunctionLoop_keeps n t between fb Lb fc Lc
          (fun c hmem => hother c (by simp [hmem])) hLb hc
        -- the body
        unfold parseFunctionLoop at hloop
        cases hd : parseFunctionItem fc Lc body with
        | error e => simp [hd] at hloop
        | ok rd =>
          obtain ⟨fd, Ld⟩ := rd
          simp only [hd] at hloop
          obtain ⟨b, hfb, hb1⟩ := parseFunctionItem_body n t fc Lc body fd Ld hbody hLc hd
          -- the declarations after the body
          have hlast := parseFunctionLoop_declarations_body after fd Ld f2 L2 hafter hloop
          exact ⟨b, by rw [hlast, hfb], hb1⟩

/-- C7 (witness): the function form `(func $f (local $y f64) (set_local $y
(f64.const 1.5)))` meets the conditions, with `(local $y f64)` declaring `$y`
and the `set_local` form as body; the `SetLocal` node for `$y` has type f64. -/
theorem C7_declared_local_has_declared_type_witness :
    declares (.list [.str "local", .str "$y", .str "f64"]) "$y" = true
    ∧ declaredType (.list [.str "local", .str "$y", .str "f64"]) = .ok WasmType.f64
    ∧ isDeclaration
        (.list [.str "set_local", .str "$y", .list [.str "f64.const", .str "1.5"]]) = false
    ∧ ∃ b, some (Expression.SetLocal "$y"
              (Expression.Const WasmType.f64 (Literal.f64 "1.5".data)) WasmType.f64) = some b
        ∧ b.localsTyped "$y" WasmType.f64 = true :=
  ⟨rfl, rfl, rfl,
    C7_declared_local_has_declared_type.1 [] (.str "func") (.str "$f") [] [] []
      (.list [.str "local", .str "$y", .str "f64"])
      (.list [.str "set_local", .str "$y", .list [.str "f64.const", .str "1.5"]])
      "$y" WasmType.f64 _ [] rfl rfl (by simp) rfl (by simp) rfl⟩

/-! ## Undeclared locals (C8) -/

/-- C8 (counterexample): `(func $f (local $y f64) (set_local $z (f64.const 1.5)))`,
where `$z` is declared nowhere, does not fail: `parseFunction` builds the
function, and its body is a `SetLocal` node for `$z`. -/
theorem C8_counterexample_undeclared_local_accepted :
    parseFunction []
        (.list [.str "func", .str "$f", .list [.str "local", .str "$y", .str "f64"],
          .list [.str "set_local", .str "$z", .list [.str "f64.const", .str "1.5"]]])
      = .ok ({ name := "$f", params := [], result := WasmType.none,
               locals := [("$y", WasmType.f64)],
               body := some (Expression.SetLocal "$z"
                 (Expression.Const WasmType.f64 (Literal.f64 "1.5".data)) WasmType.none) },
             []) :=
  rfl

/-- C8 (amended): a `get_local` or `set_local` whose name has no entry in
`currLocalTypes` does not fail. The read `currLocalTypes[name]` creates the
entry, and the node is produced with the value-initialised type: for every
name without entry, `(get_local name)` gives `GetLocal(name)`, and
`(set_local name value)` gives `SetLocal(name)` around the parsed value whenever
the value parses and leaves the name without entry. -/
theorem C8_undeclared_local_is_created :
    (∀ (L : LocalTypes) (name : Name), LocalTypes.find L name = none →
        parseExpression L (.list [.str "get_local", .str name])
          = .ok (Expression.GetLocal name WasmType.none,
                 LocalTypes.assign L name WasmType.none))
    ∧ (∀ (L : LocalTypes) (name : Name) (value : Element) (v : Expression)
        (L1 : LocalTypes), parseExpression L value = .ok (v, L1) →
        LocalTypes.find L1 name = none →
        parseExpression L (.list [.str "set_local", .str name, value])
          = .ok (Expression.SetLocal name v WasmType.none,
                 LocalTypes.assign L1 name WasmType.none)) := by
  constructor
  · intro L name hfind
    have h0 : strchr "get_local".data '.' = none := rfl
    have h1 : cAt "get_local".data 0 = .ok 'g' := rfl
    have h2 : cAt "get_local".data 1 = .ok 'e' := rfl
    rw [parseExpression_list]
    simp [parseExpressionBody, Element.index, Element.getList, Element.getStr, bind,
      Except.bind, h0, h1, h2, makeGetLocal, LocalTypes.subscript, hfind, pure, Except.pure]
  · intro L name value v L1 hv hfind
    have h0 : strchr "set_local".data '.' = none := rfl
    have h1 : cAt "set_local".data 0 = .ok 's' := rfl
    have h2 : cAt "set_local".data 1 = .ok 'e' := rfl
    rw [parseExpression_list]
    simp [parseExpressionBody, Element.index, Element.getList, Element.getStr, bind,
      Except.bind, h0, h1, h2, makeSetLocal, parseChildAt, hv, LocalTypes.subscript, hfind,
      pure, Except.pure]

/-- C8 (witness): with only `$y` declared, `(get_local $z)` and
`(set_local $z (f64.const 1.5))` both give a node for `$z`. -/
theorem C8_undeclared_local_is_created_witness :
    LocalTypes.find [("$y", WasmType.f64)] "$z" = none
    ∧ parseExpression [("$y", WasmType.f64)] (.list [.str "get_local", .str "$z"])
        = .ok (Expression.GetLocal "$z" WasmType.none,
               LocalTypes.assign [("$y", WasmType.f64)] "$z" WasmType.none)
    ∧ parseExpression [("$y", WasmType.f64)]
          (.list [.str "set_local", .str "$z", .list [.str "f64.const", .str "1.5"]])
        = .ok (Expression.SetLocal "$z"
                 (Expression.Const WasmType.f64 (Literal.f64 "1.5".data)) WasmType.none,
               LocalTypes.assign [("$y", WasmType.f64)] "$z" WasmType.none) :=
  ⟨rfl, C8_undeclared_local_is_created.1 [("$y", WasmType.f64)] "$z" rfl,
    C8_undeclared_local_is_created.2 [("$y", WasmType.f64)] "$z"
      (.list [.str "f64.const", .str "1.5"]) _ _ rfl rfl⟩

/-! ## Repeated declarations (C9) -/

/-- C9 (counterexample): `(func $f (param $x i32) (local $x f64) (get_local $x))`,
which declares `$x` twice, does not fail: `parseFunction` builds the function,
with both declarations recorded, and the body `GetLocal($x)` has the type f64 of
the later declaration. -/
theorem C9_counterexample_repeated_declaration_accepted :
    parseFunction []
        (.list [.str "func", .str "$f", .list [.str "param", .str "$x", .str "i32"],
          .list [.str "local", .str "$x", .str "f64"], .list [.str "get_local", .str "$x"]])
      = .ok ({ name := "$f", params := [("$x", WasmType.i32)], result := WasmType.none,
               locals := [("$x", WasmType.f64)],
               body := some (Expression.GetLocal "$x" WasmType.f64) }, []) :=
  rfl

/-- A `param` or `local` form with a valid type is recorded in the function and
in `currLocalTypes`, whatever these hold already. -/
theorem parseFunctionItem_declaration (func : Function) (L : LocalTypes) (d : Declaration)
    (hd : d.wellTyped) :
    parseFunctionItem func L d.form
      = .ok (if d.isParam then { func with params := func.params ++ [(d.name, d.type)] }
             else { func with locals := func.locals ++ [(d.name, d.type)] },
             LocalTypes.assign L d.name d.type) := by
  unfold Declaration.wellTyped at hd
  cases hp : d.isParam <;>
  simp [parseFunctionItem, Declaration.form, hp, Element.index, Element.getList,
    Element.getStr, bind, Except.bind, pure, Except.pure, PARAM, RESULT, LOCAL, hd]

/-- The loop over a run of declarations: all of them are recorded, in order,
and the entry of a name in `currLocalTypes` is the type of its last declaration,
or the entry it had before when none declares it. -/
theorem parseFunctionLoop_declarations (ds : List Declaration) (rest : List Element) :
    ∀ (func : Function) (L : LocalTypes), (∀ d ∈ ds, d.wellTyped) →
      ∃ L1, parseFunctionLoop (ds.map Declaration.form ++ rest) func L
        = parseFunctionLoop rest
            { func with params := func.params ++ declaredParams ds,
                        locals := func.locals ++ declaredLocals ds } L1
        ∧ ∀ n, LocalTypes.find L1 n = (lastDeclared ds n).orElse (fun _ => LocalTypes.find L n) := by
  induction ds with
  | nil =>
    intro func L _
    exact ⟨L, by simp [declaredParams, declaredLocals], by simp [lastDeclared]⟩
  | cons d ds ih =>
    intro func L hds
    have hd := hds d (List.mem_cons_self _ _)
    obtain ⟨L1, h1, h2⟩ := ih
      (if d.isParam then { func with params := func.params ++ [(d.name, d.type)] }
             else { func with locals := func.locals ++ [(d.name, d.type)] })
      (LocalTypes.assign L d.name d.type)
      (fun d1 hd1 => hds d1 (List.mem_cons_of_mem _ hd1))
    refine ⟨L1, ?_, ?_⟩
    · simp only [List.map_cons, List.cons_append]
      rw [parseFunctionLoop, parseFunctionItem_declaration func L d hd]
      simp only
      rw [h1]
      cases hp : d.isParam <;> simp [declaredParams, declaredLocals, hp]
    · intro n
      rw [h2 n]
      simp only [lastDeclared, List.reverse_cons, List.find?_append]
      cases hfind : List.find? (fun d => d.name == n) ds.reverse with
      | some d1 => simp
      | none =>
        by_cases hn : d.name = n
        · subst hn
          simp [LocalTypes.find_assign_same]
        · have hne : (d.name == n) = false := by simpa using hn
          simp [List.find?, hne, LocalTypes.find_assign_other _ _ _ _ hn]

/-- A child that is no declaration is parsed as the body. -/
theorem parseFunctionItem_not_declaration (func : Function) (L : LocalTypes) (body : Element)
    (hb : isDeclaration body = false) :
    parseFunctionItem func L body
      = match parseExpression L body with
        | .error e => .error e
        | .ok (b, L1) => .ok ({ func with body := some b }, L1) := by
  cases body with
  | str name => simp [parseFunctionItem, parseExpression, Element.index, Element.getList, bind,
      Except.bind]
  | list xs =>
    cases xs with
    | nil => simp [parseFunctionItem, parseExpression_list, parseExpressionBody, Element.index,
        Element.getList, bind, Except.bind]
    | cons hd rest =>
      cases hd with
      | list ys => simp [parseFunctionItem, parseExpression_list, parseExpressionBody,
          Element.index, Element.getList, Element.getStr, bind, Except.bind]
      | str id =>
        simp only [isDeclaration, Bool.or_eq_false_iff, beq_eq_false_iff_ne, ne_eq] at hb
        obtain ⟨⟨hp, hr⟩, hl⟩ := hb
        simp only [parseFunctionItem, Element.index, Element.getList, List.getElem?_cons_zero,
          Element.getStr, bind, Except.bind, hp, hr, hl, if_false]
        cases parseExpression L (.list (.str id :: rest)) with
        | error e => rfl
        | ok r => rfl

/-- A function form made of declarations and a body. -/
theorem parseFunction_declarations_then_body (L : LocalTypes) (head : Element) (f : Name)
    (ds : List Declaration) (body : Element) (hds : ∀ d ∈ ds, d.wellTyped)
    (hb : isDeclaration body = false) :
    ∃ L1, (∀ n, LocalTypes.find L1 n
              = (lastDeclared ds n).orElse (fun _ => LocalTypes.find L n))
      ∧ parseFunction L (.list (head :: .str f :: (ds.map Declaration.form ++ [body])))
          = match parseExpression L1 body with
            | .error e => .error e
            | .ok (b, _) =>
              .ok ({ name := f, params := declaredParams ds, result := WasmType.none,
                     locals := declaredLocals ds, body := some b }, []) := by
  obtain ⟨L1, h1, h2⟩ := parseFunctionLoop_declarations ds [body] { name := f } L hds
  refine ⟨L1, h2, ?_⟩
  simp only [parseFunction, Element.index, Element.getList, Element.getStr, bind, Except.bind,
    List.getElem?_cons_succ, List.getElem?_cons_zero, List.drop_succ_cons, List.drop_zero, h1,
    parseFunctionLoop, parseFunctionItem_not_declaration _ _ _ hb]
  cases parseExpression L1 body with
  | error e => rfl
  | ok r => simp [pure, Except.pure]


/-- The body of a function gets, for a name, the type of the last declaration of
that name before it, whatever the children before that declaration are. -/
theorem parseFunction_last_declaration (L : LocalTypes) (head fname : Element)
    (before between after : List Element) (decl body : Element) (n : Name) (t : WasmType)
    (f : Function) (L1 : LocalTypes)
    (hdecl : declares decl n = true) (htype : declaredType decl = .ok t)
    (hother : ∀ c ∈ between, declares c n = false)
    (hbody : isDeclaration body = false) (hafter : ∀ c ∈ after, isDeclaration c = true)
    (h : parseFunction L
            (.list (head :: fname :: (before ++ decl :: (between ++ body :: after))))
          = .ok (f, L1)) :
    ∃ b, f.body = some b ∧ b.localsTyped n t = true := by
  unfold parseFunction at h
  obtain ⟨s1, _, h⟩ := bind_ok _ _ _ h
  obtain ⟨name, _, h⟩ := bind_ok _ _ _ h
  obtain ⟨xs, hxs, h⟩ := bind_ok _ _ _ h
  obtain ⟨⟨f2, L2⟩, hloop, h⟩ := bind_ok _ _ _ h
  simp only [pure, Except.pure, Except.ok.injEq, Prod.mk.injEq] at h
  obtain ⟨hf, _⟩ := h
  subst hf
  simp only [Element.getList, Except.ok.injEq] at hxs
  subst hxs
  simp only [List.drop_succ_cons, List.drop_zero] at hloop
  rw [parseFunctionLoop_append] at hloop
  cases ha : parseFunctionLoop before { name := name } L with
  | error e => simp [ha] at hloop
  | ok ra =>
    obtain ⟨fa, La⟩ := ra
    simp only [ha] at hloop
    unfold parseFunctionLoop at hloop
    cases hb : parseFunctionItem fa La decl with
    | error e => simp [hb] at hloop
    | ok rb =>
      obtain ⟨fb, Lb⟩ := rb
      simp only [hb] at hloop
      have hLb := parseFunctionItem_declaring n t fa La decl fb Lb hdecl htype hb
      rw [parseFunctionLoop_append] at hloop
      cases hc : parseFunctionLoop between fb Lb with
      | error e => simp [hc] at hloop
      | ok rc =>
        obtain ⟨fc, Lc⟩ := rc
        simp only [hc] at hloop
        have hLc := parseFunctionLoop_keeps n t between fb Lb fc Lc hother hLb hc
        unfold parseFunctionLoop at hloop
        cases hd : parseFunctionItem fc Lc body with
        | error e => simp [hd] at hloop
        | ok rd =>
          obtain ⟨fd, Ld⟩ := rd
          simp only [hd] at hloop
          obtain ⟨b, hfb, hb1⟩ := parseFunctionItem_body n t fc Lc body fd Ld hbody hLc hd
          have hlast := parseFunctionLoop_declarations_body after fd Ld f2 L2 hafter hloop
          exact ⟨b, by rw [hlast, hfb], hb1⟩

/-- C9 (amended): declaring a name again is not an error, and the last
declaration before the body gives the name its type. First part: a function
form made of any `param` and `local` forms with valid types, names repeated in
any way, and a body is built exactly when the body parses; every declaration is
recorded in the params or the locals, in order; the body is parsed with
`currLocalTypes` holding for each name the type of its last declaration (or what
it held before, for a name that is not declared). Second part: with the body
`(get_local n)` the function is built and the node has the type of the last
declaration of `n`. Third part: in a function form with any children, the
`GetLocal` and `SetLocal` nodes for `n` in the body carry the type of the last
declaration of `n` before the body, whatever earlier declarations of `n` there
are. -/
theorem C9_last_declaration_wins :
    (∀ (L : LocalTypes) (head : Element) (f : Name) (ds : List Declaration) (body : Element),
        (∀ d ∈ ds, d.wellTyped) → isDeclaration body = false →
        ∃ L1, (∀ n, LocalTypes.find L1 n
                  = (lastDeclared ds n).orElse (fun _ => LocalTypes.find L n))
          ∧ parseFunction L (.list (head :: .str f :: (ds.map Declaration.form ++ [body])))
              = match parseExpression L1 body with
                | .error e => .error e
                | .ok (b, _) =>
                  .ok ({ name := f, params := declaredParams ds, result := WasmType.none,
                         locals := declaredLocals ds, body := some b }, []))
    ∧ (∀ (L : LocalTypes) (head : Element) (f : Name) (ds : List Declaration) (n : Name)
        (t : WasmType), (∀ d ∈ ds, d.wellTyped) → lastDeclared ds n = some t →
        parseFunction L
            (.list (head :: .str f
              :: (ds.map Declaration.form ++ [.list [.str "get_local", .str n]])))
          = .ok ({ name := f, params := declaredParams ds, result := WasmType.none,
                   locals := declaredLocals ds, body := some (Expression.GetLocal n t) }, []))
    ∧ (∀ (L : LocalTypes) (head fname : Element) (before between after : List Element)
        (decl body : Element) (n : Name) (t : WasmType) (f : Function) (L1 : LocalTypes),
        declares decl n = true → declaredType decl = .ok t →
        (∀ c ∈ between, declares c n = false) →
        isDeclaration body = false → (∀ c ∈ after, isDeclaration c = true) →
        parseFunction L
            (.list (head :: fname :: (before ++ decl :: (between ++ body :: after))))
          = .ok (f, L1) →
        ∃ b, f.body = some b ∧ b.localsTyped n t = true) := by
  refine ⟨?_, ?_, ?_⟩
  · intro L head f ds body hds hb
    exact parseFunction_declarations_then_body L head f ds body hds hb
  · intro L head f ds n t hds hlast
    obtain ⟨L1, hL1, h⟩ := parseFunction_declarations_then_body L head f ds
      (.list [.str "get_local", .str n]) hds rfl
    have hfind : LocalTypes.find L1 n = some t := by rw [hL1 n, hlast]; rfl
    have h0 : strchr "get_local".data '.' = none := rfl
    have hc0 : cAt "get_local".data 0 = .ok 'g' := rfl
    have hc1 : cAt "get_local".data 1 = .ok 'e' := rfl
    rw [h]
    simp [parseExpression_list, parseExpressionBody, Element.index, Element.getList,
      Element.getStr, bind, Except.bind, h0, hc0, hc1, makeGetLocal, LocalTypes.subscript,
      hfind, pure, Except.pure]
  · intro L head fname before between after decl body n t f L1 hdecl htype hother hbody
      hafter h
    exact parseFunction_last_declaration L head fname before between after decl body n t f L1
      hdecl htype hother hbody hafter h

/-- C9 (witness): `$x` is declared four times, as param of type i32, as local of
type f64, as local of type f32 and as param of type i64, with a declaration of
`$y` in between. The function is built, with the body `GetLocal($x)` of type
i64. The last part takes `(local $x f64)` as the declaration before the body in
`(func $f (local $x i32) (param $x f32) (local $x f64) (param $y i32)
(get_local $x))`. -/
theorem C9_last_declaration_wins_witness :
    (∀ d ∈ [Declaration.mk true "$x" "i32" WasmType.i32,
            Declaration.mk false "$x" "f64" WasmType.f64,
            Declaration.mk false "$y" "f32" WasmType.f32,
            Declaration.mk false "$x" "f32" WasmType.f32,
            Declaration.mk true "$x" "i64" WasmType.i64], d.wellTyped)
    ∧ lastDeclared [Declaration.mk true "$x" "i32" WasmType.i32,
            Declaration.mk false "$x" "f64" WasmType.f64,
            Declaration.mk false "$y" "f32" WasmType.f32,
            Declaration.mk false "$x" "f32" WasmType.f32,
            Declaration.mk true "$x" "i64" WasmType.i64] "$x" = some WasmType.i64
    ∧ parseFunction [("$x", WasmType.f32)]
        (.list (.str "func" :: .str "$f"
          :: ([Declaration.mk true "$x" "i32" WasmType.i32,
               Declaration.mk false "$x" "f64" WasmType.f64,
               Declaration.mk false "$y" "f32" WasmType.f32,
               Declaration.mk false "$x" "f32" WasmType.f32,
               Declaration.mk true "$x" "i64" WasmType.i64].map Declaration.form
              ++ [.list [.str "get_local", .str "$x"]])))
      = .ok ({ name := "$f",
               params := [("$x", WasmType.i32), ("$x", WasmType.i64)],
               result := WasmType.none,
               locals := [("$x", WasmType.f64), ("$y", WasmType.f32), ("$x", WasmType.f32)],
               body := some (Expression.GetLocal "$x" WasmType.i64) }, [])
    ∧ (∃ L1, (∀ n, LocalTypes.find L1 n
                = (lastDeclared [Declaration.mk false "$x" "i32" WasmType.i32,
                      Declaration.mk false "$x" "f64" WasmType.f64] n).orElse
                    (fun _ => LocalTypes.find [] n))
        ∧ parseFunction []
            (.list (.str "func" :: .str "$f"
              :: ([Declaration.mk false "$x" "i32" WasmType.i32,
                   Declaration.mk false "$x" "f64" WasmType.f64].map Declaration.form
                  ++ [.list [.str "f64.neg", .list [.str "get_local", .str "$x"]]])))
          = match parseExpression L1
                (.list [.str "f64.neg", .list [.str "get_local", .str "$x"]]) with
            | .error e => .error e
            | .ok (b, _) =>
              .ok ({ name := "$f",
                     params := declaredParams [Declaration.mk false "$x" "i32" WasmType.i32,
                       Declaration.mk false "$x" "f64" WasmType.f64],
                     result := WasmType.none,
                     locals := declaredLocals [Declaration.mk false "$x" "i32" WasmType.i32,
                       Declaration.mk false "$x" "f64" WasmType.f64],
                     body := some b }, []))
    ∧ ∃ b, some (Expression.GetLocal "$x" WasmType.f64) = some b
        ∧ b.localsTyped "$x" WasmType.f64 = true := by
  have hds : ∀ d ∈ [Declaration.mk true "$x" "i32" WasmType.i32,
            Declaration.mk false "$x" "f64" WasmType.f64,
            Declaration.mk false "$y" "f32" WasmType.f32,
            Declaration.mk false "$x" "f32" WasmType.f32,
            Declaration.mk true "$x" "i64" WasmType.i64], d.wellTyped := by
    intro d hd
    simp only [List.mem_cons, List.mem_singleton, List.not_mem_nil, or_false] at hd
    rcases hd with rfl | rfl | rfl | rfl | rfl <;> rfl
  have hds2 : ∀ d ∈ [Declaration.mk false "$x" "i32" WasmType.i32,
            Declaration.mk false "$x" "f64" WasmType.f64], d.wellTyped := by
    intro d hd
    simp only [List.mem_cons, List.mem_singleton, List.not_mem_nil, or_false] at hd
    rcases hd with rfl | rfl <;> rfl
  exact ⟨hds, by decide,
    C9_last_declaration_wins.2.1 _ (.str "func") "$f" _ "$x" WasmType.i64 hds (by decide),
    C9_last_declaration_wins.1 [] (.str "func") "$f" _
      (.list [.str "f64.neg", .list [.str "get_local", .str "$x"]]) hds2 rfl,
    C9_last_declaration_wins.2.2 [] (.str "func") (.str "$f")
      [.list [.str "local", .str "$x", .str "i32"], .list [.str "param", .str "$x", .str "f32"]]
      [.list [.str "param", .str "$y", .str "i32"]] []
      (.list [.str "local", .str "$x", .str "f64"])
      (.list [.str "get_local", .str "$x"])
      "$x" WasmType.f64 _ [] rfl rfl (by simp [declares]) rfl (by simp) rfl⟩

/-! ## Exports (C10) -/

/-- C10 (counterexample): the module `(module (export "f" $missing))`, which
declares no function at all, is built successfully, and the export of
`$missing` is recorded. -/
theorem C10_counterexample_dangling_export_accepted :
    SExpressionWasmBuilder.build {} "(module (export \"f\" $missing))".data
      = .ok { wasm := { functions := [], memorySize := 0,
                        exports := [{ name := "\"f\"", value := "$missing" }],
                        table := { names := [] } },
              currLocalTypes := [] } :=
  rfl

/-- C10 (amended): an export is recorded as written, without any check of the
name it refers to. For every state of the builder and all names, the form
`(export name value)` succeeds and appends the pair to `Module.exports`,
changing nothing else; and building
`(module (func $f (param $x i32) (result i32) (get_local $x)) (export "f" $f))`
succeeds with the one export `("f", $f)`, the exported name being the token as
written, quotes included. -/
theorem C10_export_recorded_unchecked :
    (∀ (b : SExpressionWasmBuilder) (name value : Name),
        SExpressionWasmBuilder.parseModuleElement b
            (.list [.str "export", .str name, .str value])
          = .ok { b with wasm := { b.wasm with
                    exports := b.wasm.exports ++ [{ name := name, value := value }] } })
    ∧ SExpressionWasmBuilder.build {}
        "(module (func $f (param $x i32) (result i32) (get_local $x)) (export \"f\" $f))".data
      = .ok { wasm := { functions := [], memorySize := 0,
                        exports := [{ name := "\"f\"", value := "$f" }],
                        table := { names := [] } },
              currLocalTypes := [] } := by
  refine ⟨?_, rfl⟩
  intro b name value
  simp [SExpressionWasmBuilder.parseModuleElement, SExpressionWasmBuilder.parseExport,
    Element.index, Element.getList, Element.getStr, bind, Except.bind, pure, Except.pure,
    FUNC, MEMORY, EXPORT]

/-! ## The tokenizer: positions, recursion budget, balance -/

theorem isspace_ne (c : Char) (h : isspace c = true) :
    c ≠ NUL ∧ c ≠ ')' ∧ c ≠ '(' ∧ c ≠ ';' := by
  refine ⟨?_, ?_, ?_, ?_⟩ <;> (intro hc; subst hc; revert h; decide)

theorem skipWhitespace_length_le (input : List Char) :
    (skipWhitespace input).length ≤ input.length := by
  induction input with
  | nil => simp [skipWhitespace]
  | cons c rest ih =>
    unfold skipWhitespace
    split
    · exact Nat.le_succ_of_le ih
    · exact Nat.le_refl _

theorem skipWhitespace_of_not_space (input : List Char) (h : isspace (peek input) = false) :
    skipWhitespace input = input := by
  cases input with
  | nil => rfl
  | cons c rest =>
    simp only [peek] at h
    simp [skipWhitespace, h]

theorem isspace_peek_skipWhitespace (input : List Char) :
    isspace (peek (skipWhitespace input)) = false := by
  induction input with
  | nil => decide
  | cons c rest ih =>
    unfold skipWhitespace
    split
    · exact ih
    · rename_i h
      simpa [peek] using h

theorem parseStringLoop_length_le (input acc : List Char) :
    (parseStringLoop input acc).2.length ≤ input.length := by
  induction input generalizing acc with
  | nil => simp [parseStringLoop]
  | cons c rest ih =>
    unfold parseStringLoop
    split
    · exact Nat.le_succ_of_le (ih _)
    · exact Nat.le_refl _

theorem parseString_length_lt (input : List Char) (h1 : peek input ≠ NUL)
    (h2 : isspace (peek input) = false) (h3 : peek input ≠ ')') :
    (parseString input).2.length < input.length := by
  cases input with
  | nil => exact absurd rfl h1
  | cons c rest =>
    simp only [peek] at h1 h2 h3
    simp only [parseString, parseStringLoop, h1, h2, h3, ne_eq, not_false_eq_true, and_self,
      if_true, List.length_cons]
    exact Nat.lt_succ_of_le (parseStringLoop_length_le _ _)

theorem strstrCommentEnd_length_le (input pos : List Char)
    (h : strstrCommentEnd input = some pos) : pos.length ≤ input.length := by
  induction input with
  | nil => simp [strstrCommentEnd] at h
  | cons c rest ih =>
    unfold strstrCommentEnd at h
    split at h
    · cases h
    · split at h
      · cases h
        exact Nat.le_refl _
      · exact Nat.le_succ_of_le (ih h)

theorem strstrCommentEnd_peek (input pos : List Char)
    (h : strstrCommentEnd input = some pos) : peek pos = ';' := by
  induction input with
  | nil => simp [strstrCommentEnd] at h
  | cons c rest ih =>
    unfold strstrCommentEnd at h
    split at h
    · cases h
    · split at h
      · rename_i hc
        cases h
        exact hc.1
      · exact ih h

theorem tail_length_le (input : List Char) : input.tail.length ≤ input.length := by
  cases input <;> simp

theorem tail_length_lt (input : List Char) (h : peek input ≠ NUL) :
    input.tail.length < input.length := by
  cases input with
  | nil => exact absurd rfl h
  | cons c rest => simp

/-- The tokenizer never moves the position backwards, and a call of `parse` that
returns an element (or passes over a list) moves it forwards. -/
theorem tokenizer_length (f : Nat) :
    (∀ input r pos, parseInnerList f input = .ok (r, pos) → pos.length ≤ input.length)
    ∧ (∀ input ret r pos, parseInnerListLoop f input ret = .ok (r, pos) →
        pos.length ≤ input.length)
    ∧ (∀ input r pos, parse f input = .ok (r, pos) →
        pos.length ≤ input.length ∧ (r ≠ none → pos.length < input.length)) := by
  induction f with
  | zero => simp [parseInnerList, parseInnerListLoop, parse]
  | succ f ih =>
    obtain ⟨ih1, ih2, ih3⟩ := ih
    refine ⟨?_, ?_, ?_⟩
    · intro input r pos h
      rw [parseInnerList] at h
      split at h
      · split at h
        · cases h
        · rename_i p hp
          cases h
          have h1 := strstrCommentEnd_length_le _ _ hp
          have h2 := tail_length_le input
          omega
      · exact ih2 _ _ _ _ h
    · intro input ret r pos h
      rw [parseInnerListLoop] at h
      split at h
      · cases h
      · rename_i p hp
        cases h
        exact (ih3 _ _ _ hp).1
      · rename_i curr p hp
        have h1 := (ih3 _ _ _ hp).1
        have h2 := ih2 _ _ _ _ h
        omega
    · intro input r pos h
      rw [parse] at h
      have hs := skipWhitespace_length_le input
      dsimp only at h
      split at h
      · cases h
        exact ⟨hs, fun hr => absurd rfl hr⟩
      · rename_i hend
        split at h
        · rename_i hopen
          split at h
          · cases h
          · rename_i ret p hp
            split at h
            · cases h
              have h1 := ih1 _ _ _ hp
              have h2 := skipWhitespace_length_le p
              have h3 := tail_length_le (skipWhitespace p)
              have h4 := tail_length_lt (skipWhitespace input) (by rw [hopen]; decide)
              constructor
              · omega
              · intro _
                omega
            · cases h
        · rename_i hopen
          cases h
          have h1 := parseString_length_lt (skipWhitespace input) (fun hc => hend (Or.inl hc))
            (isspace_peek_skipWhitespace input) (fun hc => hend (Or.inr hc))
          constructor
          · omega
          · intro _
            omega

/-- Three units of the recursion budget per character of the rest of the buffer
(and three more) are enough: the budget does not run out. -/
theorem tokenizer_fuel (f : Nat) :
    (∀ input, 3 * input.length + 3 ≤ f → parseInnerList f input ≠ .error Err.outOfFuel)
    ∧ (∀ input ret, 3 * input.length + 2 ≤ f →
        parseInnerListLoop f input ret ≠ .error Err.outOfFuel)
    ∧ (∀ input, 3 * input.length + 1 ≤ f → parse f input ≠ .error Err.outOfFuel) := by
  induction f with
  | zero =>
    refine ⟨?_, ?_, ?_⟩
    · intro input h
      omega
    · intro input ret h
      omega
    · intro input h
      omega
  | succ f ih =>
    obtain ⟨ih1, ih2, ih3⟩ := ih
    refine ⟨?_, ?_, ?_⟩
    · intro input hf
      rw [parseInnerList]
      split
      · split <;> simp
      · exact ih2 _ _ (by omega)
    · intro input ret hf
      rw [parseInnerListLoop]
      have h3 := ih3 input (by omega)
      split
      · rename_i e he
        intro hc
        injection hc with hc
        subst hc
        exact h3 he
      · simp
      · rename_i curr p hp
        have hlt := ((tokenizer_length f).2.2 _ _ _ hp).2 (by simp)
        exact ih2 _ _ (by omega)
    · intro input hf
      rw [parse]
      have hs := skipWhitespace_length_le input
      dsimp only
      split
      · simp
      · rename_i hend
        split
        · rename_i hopen
          have h4 := tail_length_lt (skipWhitespace input) (by rw [hopen]; decide)
          have h1 := ih1 (skipWhitespace input).tail (by omega)
          split
          · rename_i e he
            intro hc
            injection hc with hc
            subst hc
            exact h1 he
          · split <;> simp
        · simp

/-- The tokenizer stops only on a failed assertion (or on the recursion budget
of the model). -/
theorem tokenizer_error (f : Nat) :
    (∀ input e, parseInnerList f input = .error e → e = Err.assertFail ∨ e = Err.outOfFuel)
    ∧ (∀ input ret e, parseInnerListLoop f input ret = .error e →
        e = Err.assertFail ∨ e = Err.outOfFuel)
    ∧ (∀ input e, parse f input = .error e → e = Err.assertFail ∨ e = Err.outOfFuel) := by
  induction f with
  | zero =>
    refine ⟨?_, ?_, ?_⟩
    · intro input e h
      rw [parseInnerList] at h
      cases h
      exact Or.inr rfl
    · intro input ret e h
      rw [parseInnerListLoop] at h
      cases h
      exact Or.inr rfl
    · intro input e h
      rw [parse] at h
      cases h
      exact Or.inr rfl
  | succ f ih =>
    obtain ⟨ih1, ih2, ih3⟩ := ih
    refine ⟨?_, ?_, ?_⟩
    · intro input e h
      rw [parseInnerList] at h
      split at h
      · split at h
        · cases h
          exact Or.inl rfl
        · cases h
      · exact ih2 _ _ _ h
    · intro input ret e h
      rw [parseInnerListLoop] at h
      split at h
      · rename_i e1 he
        cases h
        exact ih3 _ _ he
      · cases h
      · exact ih2 _ _ _ h
    · intro input e h
      rw [parse] at h
      dsimp only at h
      split at h
      · cases h
      · split at h
        · split at h
          · rename_i e1 he
            cases h
            exact ih1 _ _ he
          · split at h
            · cases h
            · cases h
              exact Or.inl rfl
        · cases h

/-- A result reached within the recursion budget is the result for every larger
budget. -/
theorem tokenizer_fuel_succ (f : Nat) :
    (∀ input res, parseInnerList f input = res → res ≠ .error Err.outOfFuel →
        parseInnerList (f + 1) input = res)
    ∧ (∀ input ret res, parseInnerListLoop f input ret = res → res ≠ .error Err.outOfFuel →
        parseInnerListLoop (f + 1) input ret = res)
    ∧ (∀ input res, parse f input = res → res ≠ .error Err.outOfFuel →
        parse (f + 1) input = res) := by
  induction f with
  | zero =>
    refine ⟨?_, ?_, ?_⟩
    · intro input res h hne
      rw [parseInnerList] at h
      exact absurd h.symm hne
    · intro input ret res h hne
      rw [parseInnerListLoop] at h
      exact absurd h.symm hne
    · intro input res h hne
      rw [parse] at h
      exact absurd h.symm hne
  | succ f ih =>
    obtain ⟨ih1, ih2, ih3⟩ := ih
    refine ⟨?_, ?_, ?_⟩
    · intro input res h hne
      rw [parseInnerList] at h ⊢
      split
      · rename_i hc
        simpa [hc] using h
      · rename_i hc
        simp only [hc, if_false] at h
        exact ih2 _ _ _ h hne
    · intro input ret res h hne
      rw [parseInnerListLoop] at h ⊢
      cases hp : parse f input with
      | error e =>
        simp only [hp] at h
        have he : (Except.error e : Except Err (Option Element × List Char))
            ≠ .error Err.outOfFuel := by
          intro hc
          injection hc with hc
          subst hc
          exact hne h.symm
        rw [ih3 _ _ hp he]
        exact h
      | ok r =>
        obtain ⟨o, p⟩ := r
        rw [ih3 _ _ hp (by simp)]
        cases o with
        | none => simpa [hp] using h
        | some curr =>
          simp only [hp] at h
          exact ih2 _ _ _ h hne
    · intro input res h hne
      rw [parse] at h ⊢
      dsimp only at h ⊢
      split
      · rename_i hc
        simpa [hc] using h
      · rename_i hc
        simp only [hc, if_false] at h
        split
        · rename_i ho
          simp only [ho, if_true] at h
          cases hp : parseInnerList f (skipWhitespace input).tail with
          | error e =>
            simp only [hp] at h
            have he : (Except.error e : Except Err (Option Element × List Char))
                ≠ .error Err.outOfFuel := by
              intro hc2
              injection hc2 with hc2
              subst hc2
              exact hne h.symm
            rw [ih1 _ _ hp he]
            exact h
          | ok r =>
            rw [ih1 _ _ hp (by simp)]
            simpa [hp] using h
        · rename_i ho
          simpa [ho] using h

theorem parseInnerList_fuel_le (f g : Nat) (hfg : f ≤ g) (input : List Char)
    (res : Except Err (Option Element × List Char)) (h : parseInnerList f input = res)
    (hne : res ≠ .error Err.outOfFuel) : parseInnerList g input = res := by
  induction g with
  | zero =>
    have hf : f = 0 := by omega
    subst hf
    exact h
  | succ g ih =>
    by_cases hle : f ≤ g
    · exact (tokenizer_fuel_succ g).1 _ _ (ih hle) hne
    · have hf : f = g + 1 := by omega
      subst hf
      exact h

theorem unclosed_skipWhitespace (d : Nat) (input : List Char) :
    unclosed d false (skipWhitespace input) = unclosed d false input := by
  induction input with
  | nil => rfl
  | cons c rest ih =>
    unfold skipWhitespace
    split
    · rename_i hsp
      obtain ⟨h1, h2, _, _⟩ := isspace_ne c hsp
      rw [ih]
      simp [unclosed, h1, h2, hsp]
    · rfl

/-- At the end of an atom it makes no difference whether the position is taken
as inside the atom or not. -/
theorem unclosed_at_delimiter (d : Nat) (pos : List Char)
    (h : peek pos = NUL ∨ isspace (peek pos) = true ∨ peek pos = ')') :
    unclosed d true pos = unclosed d false pos := by
  cases pos with
  | nil => rfl
  | cons c rest =>
    simp only [peek] at h
    rcases h with h | h | h
    · simp [unclosed, h]
    · obtain ⟨h1, h2, _, _⟩ := isspace_ne c h
      simp [unclosed, h1, h2, h]
    · subst h
      simp [unclosed]

theorem parseStringLoop_unclosed (d : Nat) (input acc : List Char) :
    unclosed d true input = unclosed d false (parseStringLoop input acc).2 := by
  induction input generalizing acc with
  | nil => rfl
  | cons c rest ih =>
    unfold parseStringLoop
    split
    · rename_i hc
      obtain ⟨h1, h2, h3⟩ := hc
      rw [← ih]
      simp [unclosed, h1, h2, h3]
    · rename_i hc
      apply unclosed_at_delimiter
      simp only [peek]
      by_cases h1 : c = NUL
      · exact Or.inl h1
      · by_cases h2 : isspace c = true
        · exact Or.inr (Or.inl h2)
        · by_cases h3 : c = ')'
          · exact Or.inr (Or.inr h3)
          · exact absurd ⟨h1, by simpa using h2, h3⟩ hc

theorem unclosed_at_end (pos : List Char) (h : peek pos = NUL ∨ peek pos = ')') :
    unclosed 0 false pos = false := by
  cases pos with
  | nil => rfl
  | cons c rest =>
    simp only [peek] at h
    rcases h with h | h
    · simp [unclosed, h]
    · subst h
      simp [unclosed]

theorem eq_cons_of_peek (input : List Char) (c : Char) (hc : c ≠ NUL) (h : peek input = c) :
    input = c :: input.tail := by
  cases input with
  | nil => exact absurd h.symm hc
  | cons x rest =>
    simp only [peek] at h
    subst h
    rfl

/-- What the tokenizer passes over is balanced: after a successful call the
lists still open at the new position are the ones open before it. -/
theorem tokenizer_unclosed (f : Nat) :
    (∀ input r pos, parseInnerList f input = .ok (r, pos) →
        (r = none ∧ peek pos = ';')
        ∨ (r ≠ none ∧ (∀ d, unclosed d false input = unclosed d false pos)
            ∧ (peek pos = NUL ∨ peek pos = ')')))
    ∧ (∀ input ret r pos, parseInnerListLoop f input ret = .ok (r, pos) →
        r ≠ none ∧ (∀ d, unclosed d false input = unclosed d false pos)
          ∧ (peek pos = NUL ∨ peek pos = ')'))
    ∧ (∀ input r pos, parse f input = .ok (r, pos) →
        (∀ d, unclosed d false input = unclosed d false pos)
          ∧ (r = none → peek pos = NUL ∨ peek pos = ')')) := by
  induction f with
  | zero => simp [parseInnerList, parseInnerListLoop, parse]
  | succ f ih =>
    obtain ⟨ih1, ih2, ih3⟩ := ih
    refine ⟨?_, ?_, ?_⟩
    · intro input r pos h
      rw [parseInnerList] at h
      split at h
      · split at h
        · cases h
        · rename_i p hp
          cases h
          exact Or.inl ⟨rfl, strstrCommentEnd_peek _ _ hp⟩
      · exact Or.inr (ih2 _ _ _ _ h)
    · intro input ret r pos h
      rw [parseInnerListLoop] at h
      split at h
      · cases h
      · rename_i p hp
        cases h
        obtain ⟨h1, h2⟩ := ih3 _ _ _ hp
        exact ⟨by simp, h1, h2 rfl⟩
      · rename_i curr p hp
        obtain ⟨h1, _⟩ := ih3 _ _ _ hp
        obtain ⟨h3, h4, h5⟩ := ih2 _ _ _ _ h
        exact ⟨h3, fun d => (h1 d).trans (h4 d), h5⟩
    · intro input r pos h
      rw [parse] at h
      dsimp only at h
      split at h
      · rename_i hend
        cases h
        exact ⟨fun d => (unclosed_skipWhitespace d input).symm, fun _ => hend⟩
      · rename_i hend
        split at h
        · rename_i hopen
          split at h
          · cases h
          · rename_i ret p hp
            split at h
            · rename_i hclose
              cases h
              have hin := eq_cons_of_peek _ '(' (by decide) hopen
              have hcl := eq_cons_of_peek _ ')' (by decide) hclose
              rcases ih1 _ _ _ hp with ⟨_, hsemi⟩ | ⟨hr, hbal, _⟩
              · rw [skipWhitespace_of_not_space p (by rw [hsemi]; decide), hsemi] at hclose
                exact absurd hclose (by decide)
              · constructor
                · intro d
                  rw [← unclosed_skipWhitespace d input, hin]
                  have h1 : unclosed d false ('(' :: (skipWhitespace input).tail)
                      = unclosed (d + 1) false (skipWhitespace input).tail := by
                    simp [unclosed, NUL, isspace]
                  rw [h1, hbal (d + 1), ← unclosed_skipWhitespace (d + 1) p, hcl]
                  simp [unclosed, NUL]
                · intro hnone
                  exact absurd hnone hr
            · cases h
        · rename_i hopen
          cases h
          constructor
          · intro d
            rw [← unclosed_skipWhitespace d input]
            have hsp := isspace_peek_skipWhitespace input
            cases hx : skipWhitespace input with
            | nil => rw [hx] at hend; exact absurd (Or.inl rfl) hend
            | cons c rest =>
              rw [hx] at hend hopen hsp
              simp only [peek] at hend hopen hsp
              have h1 : c ≠ NUL := fun hc => hend (Or.inl hc)
              have h2 : c ≠ ')' := fun hc => hend (Or.inr hc)
              have h3 : unclosed d false (c :: rest) = unclosed d true rest := by
                simp [unclosed, h1, h2, hsp, hopen]
              rw [h3, parseString]
              simp only [parseStringLoop, h1, h2, hsp, ne_eq, not_false_eq_true, and_self,
                if_true]
              exact parseStringLoop_unclosed d rest _
          · intro hnone
            cases hnone

/-- A text in which the list opened last is still open at the end of the buffer
gives no tree. -/
theorem parseEverything_unclosed (input : List Char) (h : unclosed 0 false input = true)
    (root : Element) : parseEverything input ≠ .ok (some root) := by
  intro hc
  unfold parseEverything at hc
  split at hc
  · cases hc
  · rename_i r pos hp
    cases hc
    rcases (tokenizer_unclosed _).1 _ _ _ hp with ⟨hn, _⟩ | ⟨_, hbal, hend⟩
    · cases hn
    · rw [hbal 0, unclosed_at_end pos hend] at h
      cases h

theorem peek_cons (c : Char) (rest : List Char) : peek (c :: rest) = c := rfl

theorem peek_nil : peek [] = NUL := rfl

theorem peek_append (x s : List Char) (hx : peek x ≠ NUL) : peek (x ++ s) = peek x := by
  cases x with
  | nil => exact absurd rfl hx
  | cons c rest => rfl

theorem tail_append (x s : List Char) (hx : peek x ≠ NUL) : (x ++ s).tail = x.tail ++ s := by
  cases x with
  | nil => exact absurd rfl hx
  | cons c rest => rfl

theorem skipWhitespace_append (input s : List Char) (hs : peek s = ')') :
    skipWhitespace (input ++ s) = skipWhitespace input ++ s := by
  induction input with
  | nil =>
    simp only [List.nil_append, skipWhitespace]
    exact skipWhitespace_of_not_space s (by rw [hs]; decide)
  | cons c rest ih =>
    simp only [List.cons_append, skipWhitespace]
    split
    · exact ih
    · rfl

theorem parseStringLoop_append (input acc s : List Char) (hs : peek s = ')') :
    parseStringLoop (input ++ s) acc
      = ((parseStringLoop input acc).1, (parseStringLoop input acc).2 ++ s) := by
  induction input generalizing acc with
  | nil =>
    have hcons := eq_cons_of_peek s ')' (by decide) hs
    rw [List.nil_append, hcons]
    simp [parseStringLoop]
  | cons c rest ih =>
    simp only [List.cons_append, parseStringLoop]
    split
    · exact ih _
    · rfl

theorem strstrCommentEnd_append (input pos s : List Char)
    (h : strstrCommentEnd input = some pos) :
    strstrCommentEnd (input ++ s) = some (pos ++ s) := by
  induction input with
  | nil => simp [strstrCommentEnd] at h
  | cons c rest ih =>
    simp only [List.cons_append]
    unfold strstrCommentEnd at h ⊢
    split at h
    · cases h
    · rename_i hnul
      simp only [hnul, if_false]
      split at h
      · rename_i hc
        cases h
        have hp : peek (rest ++ s) = peek rest :=
          peek_append rest s (by rw [hc.2]; decide)
        simp [hc.1, hp, hc.2]
      · rename_i hc
        cases rest with
        | nil => simp [strstrCommentEnd] at h
        | cons x rest1 =>
          have hp : peek ((x :: rest1) ++ s) = peek (x :: rest1) := rfl
          rw [hp, if_neg hc]
          exact ih h

/-- The tokenizer reads a `)` as it reads the end of the buffer, apart from the
assertion on the closing `)` of a list: a successful call stays the same call
when the buffer is continued by text that starts with `)`. -/
theorem tokenizer_append (s : List Char) (hs : peek s = ')') (f : Nat) :
    (∀ input r pos, parseInnerList f input = .ok (r, pos) →
        parseInnerList f (input ++ s) = .ok (r, pos ++ s))
    ∧ (∀ input ret r pos, parseInnerListLoop f input ret = .ok (r, pos) →
        parseInnerListLoop f (input ++ s) ret = .ok (r, pos ++ s))
    ∧ (∀ input r pos, parse f input = .ok (r, pos) →
        parse f (input ++ s) = .ok (r, pos ++ s)) := by
  induction f with
  | zero => simp [parseInnerList, parseInnerListLoop, parse]
  | succ f ih =>
    obtain ⟨ih1, ih2, ih3⟩ := ih
    refine ⟨?_, ?_, ?_⟩
    · intro input r pos h
      rw [parseInnerList] at h ⊢
      by_cases hc : peek input = ';'
      · have hne : peek input ≠ NUL := by rw [hc]; decide
        rw [peek_append input s hne, tail_append input s hne]
        simp only [hc, if_true] at h ⊢
        split at h
        · cases h
        · rename_i p hp
          cases h
          rw [strstrCommentEnd_append _ _ s hp]
      · have hc2 : peek (input ++ s) ≠ ';' := by
          cases input with
          | nil =>
            rw [List.nil_append, hs]
            decide
          | cons c rest => exact hc
        simp only [hc, hc2, if_false] at h ⊢
        exact ih2 _ _ _ _ h
    · intro input ret r pos h
      rw [parseInnerListLoop] at h ⊢
      cases hp : parse f input with
      | error e => simp [hp] at h
      | ok res =>
        obtain ⟨o, p⟩ := res
        rw [ih3 _ _ _ hp]
        cases o with
        | none =>
          simp only [hp] at h
          cases h
          rfl
        | some curr =>
          simp only [hp] at h
          exact ih2 _ _ _ _ h
    · intro input r pos h
      rw [parse] at h ⊢
      dsimp only at h ⊢
      rw [skipWhitespace_append input s hs]
      cases hx : skipWhitespace input with
      | nil =>
        rw [hx] at h
        simp only [peek_nil, true_or, if_true] at h
        cases h
        simp [hs]
      | cons c rest =>
        rw [hx] at h
        simp only [List.cons_append, peek_cons, List.tail_cons] at h ⊢
        split at h
        · rename_i hend
          cases h
          simp [hend]
        · rename_i hend
          simp only [hend, if_false]
          split at h
          · rename_i hopen
            simp only [hopen, if_true]
            cases hp : parseInnerList f rest with
            | error e => simp [hp] at h
            | ok res =>
              obtain ⟨o, p⟩ := res
              simp only [hp] at h
              rw [ih1 _ _ _ hp]
              simp only
              split at h
              · rename_i hclose
                cases h
                have hne : peek (skipWhitespace p) ≠ NUL := by rw [hclose]; decide
                rw [skipWhitespace_append p s hs, peek_append _ s hne,
                  tail_append _ s hne]
                simp [hclose]
              · cases h
          · rename_i hopen
            simp only [hopen, if_false]
            cases h
            have := parseStringLoop_append (c :: rest) [] s hs
            simp only [List.cons_append] at this
            simp [parseString, this]

/-- The result of `parseEverything` is not an artefact of the recursion budget:
the budget it uses does not run out. -/
theorem parseEverything_fuel (input : List Char) :
    parseEverything input ≠ .error Err.outOfFuel := by
  have h := (tokenizer_fuel (3 * input.length + 3)).1 input (Nat.le_refl _)
  unfold parseEverything
  split
  · rename_i e he
    intro hc
    injection hc with hc
    subst hc
    exact h he
  · simp

/-- A successful `parseEverything` stays the same when the buffer is continued
by a `)` and any text after it. -/
theorem parseEverything_append_close (input rest : List Char) (root : Option Element)
    (h : parseEverything input = .ok root) :
    parseEverything (input ++ ')' :: rest) = .ok root := by
  unfold parseEverything at h ⊢
  split at h
  · cases h
  · rename_i r pos hp
    cases h
    have h1 := (tokenizer_append (')' :: rest) rfl _).1 _ _ _ hp
    have h2 := parseInnerList_fuel_le (3 * input.length + 3)
      (3 * (input ++ ')' :: rest).length + 3) (by simp) _ _ h1 (by simp)
    rw [h2]

theorem skipWhitespace_all_space (input : List Char) (h : ∀ c ∈ input, isspace c = true) :
    skipWhitespace input = [] := by
  induction input with
  | nil => rfl
  | cons c rest ih =>
    have hc := h c (List.mem_cons_self _ _)
    simp only [skipWhitespace, hc, if_true]
    exact ih (fun x hx => h x (List.mem_cons_of_mem _ hx))

/-- On a buffer that is empty or holds white space only, `parseEverything`
returns the empty root list. -/
theorem parseEverything_all_space (input : List Char) (h : ∀ c ∈ input, isspace c = true) :
    parseEverything input = .ok (some (Element.list [])) := by
  have hpeek : peek input ≠ ';' := by
    cases input with
    | nil => decide
    | cons c rest =>
      exact (isspace_ne c (h c (List.mem_cons_self _ _))).2.2.2
  have hskip := skipWhitespace_all_space input h
  unfold parseEverything
  have hfuel : 3 * input.length + 3 = (3 * input.length + 1 + 1) + 1 := rfl
  rw [hfuel, parseInnerList, if_neg hpeek, parseInnerListLoop, parse]
  simp [hskip, peek_nil]

/-- A comment at the start of a list makes `parse` fail, whatever follows: the
position is left on the `;` of the end of the comment, where the closing `)` of
the list is asserted. -/
theorem parse_comment_fails (f : Nat) (input : List Char)
    (hopen : peek (skipWhitespace input) = '(')
    (hsemi : peek (skipWhitespace input).tail = ';') :
    ∃ e, parse f input = .error e := by
  cases f with
  | zero => exact ⟨Err.outOfFuel, by rw [parse]⟩
  | succ f =>
    rw [parse]
    dsimp only
    have h1 : ¬ (peek (skipWhitespace input) = NUL ∨ peek (skipWhitespace input) = ')') := by
      rw [hopen]
      decide
    rw [if_neg h1, if_pos hopen]
    cases f with
    | zero => exact ⟨Err.outOfFuel, by rw [parseInnerList]⟩
    | succ f =>
      rw [parseInnerList, if_pos hsemi]
      cases hp : strstrCommentEnd (skipWhitespace input).tail.tail with
      | none => exact ⟨Err.assertFail, rfl⟩
      | some pos =>
        have h2 := strstrCommentEnd_peek _ _ hp
        have h3 : skipWhitespace pos = pos :=
          skipWhitespace_of_not_space pos (by rw [h2]; decide)
        refine ⟨Err.assertFail, ?_⟩
        simp only [h3, h2]
        rfl

/-- Without a comment at the very start of the buffer, `parseEverything` returns
a root list whenever it returns. -/
theorem parseEverything_none (input : List Char) (h : parseEverything input = .ok none) :
    peek input = ';' := by
  unfold parseEverything at h
  split at h
  · cases h
  · rename_i r pos hp
    cases h
    have hfuel : 3 * input.length + 3 = (3 * input.length + 2) + 1 := rfl
    rw [hfuel, parseInnerList] at hp
    by_contra hc
    rw [if_neg hc] at hp
    exact ((tokenizer_unclosed _).2.1 _ _ _ _ hp).1 rfl

theorem parseEverything_error (input : List Char) (e : Err)
    (h : parseEverything input = .error e) : e = Err.assertFail := by
  have hf := parseEverything_fuel input
  rw [h] at hf
  unfold parseEverything at h
  split at h
  · rename_i e1 he
    cases h
    rcases (tokenizer_error _).1 _ _ he with h1 | h1
    · exact h1
    · subst h1
      exact absurd rfl hf
  · cases h

/-! ## Top-level forms (C11) -/

/-- C11 (counterexample): the document `(module) (module (memory 5))`, which has
two top-level forms, is accepted: the builder succeeds, and the second form is
not read (the memory size stays as it was). -/
theorem C11_counterexample_second_form_ignored :
    SExpressionWasmBuilder.build {} "(module) (module (memory 5))".data
      = .ok { wasm := { functions := [], memorySize := 0, exports := [],
                        table := { names := [] } },
              currLocalTypes := [] } :=
  rfl

/-- C11 (amended): the builder accepts a document only if its root list has a
first top-level form and that form is a list whose leading atom is `module`;
the top-level forms after the first are not read, so two documents with the
same first form are built alike. -/
theorem C11_only_first_form_is_read :
    (∀ (wasm : Module) (input : List Char) (b : SExpressionWasmBuilder),
        SExpressionWasmBuilder.build wasm input = .ok b →
        ∃ forms others,
          parseEverything input = .ok (some (.list (.list (.str MODULE :: forms) :: others))))
    ∧ (∀ (wasm : Module) (input1 input2 : List Char) (first : Element)
        (others1 others2 : List Element),
        parseEverything input1 = .ok (some (.list (first :: others1))) →
        parseEverything input2 = .ok (some (.list (first :: others2))) →
        SExpressionWasmBuilder.build wasm input1 = SExpressionWasmBuilder.build wasm input2) := by
  constructor
  · intro wasm input b h
    unfold SExpressionWasmBuilder.build at h
    obtain ⟨root, hroot, h⟩ := bind_ok _ _ _ h
    cases root with
    | none => simp [throw, throwThe, MonadExceptOf.throw] at h
    | some root =>
      simp only at h
      obtain ⟨module, hmod, h⟩ := bind_ok _ _ _ h
      obtain ⟨hd, hhd, h⟩ := bind_ok _ _ _ h
      obtain ⟨id, hid, h⟩ := bind_ok _ _ _ h
      split at h
      · rename_i hmodule
        cases root with
        | str name => simp [Element.index, Element.getList] at hmod
        | list xs =>
          cases xs with
          | nil => simp [Element.index, Element.getList] at hmod
          | cons x others =>
            simp [Element.index, Element.getList] at hmod
            subst hmod
            cases x with
            | str name => simp [Element.index, Element.getList] at hhd
            | list ys =>
              cases ys with
              | nil => simp [Element.index, Element.getList] at hhd
              | cons y forms =>
                simp [Element.index, Element.getList] at hhd
                subst hhd
                cases y with
                | list zs => simp [Element.getStr] at hid
                | str name =>
                  simp [Element.getStr] at hid
                  subst hid
                  subst hmodule
                  exact ⟨forms, others, hroot⟩
      · simp [throw, throwThe, MonadExceptOf.throw] at h
  · intro wasm input1 input2 first others1 others2 h1 h2
    simp [SExpressionWasmBuilder.build, h1, h2, bind, Except.bind, Element.index,
      Element.getList]

/-- C11 (witness): `(module (memory 5))` and `(module (memory 5)) (junk)` have the
same first form and are built alike. -/
theorem C11_only_first_form_is_read_witness :
    parseEverything "(module (memory 5))".data
      = .ok (some (.list (.list [.str "module", .list [.str "memory", .str "5"]] :: [])))
    ∧ parseEverything "(module (memory 5)) (junk)".data
      = .ok (some (.list (.list [.str "module", .list [.str "memory", .str "5"]]
          :: [.list [.str "junk"]])))
    ∧ SExpressionWasmBuilder.build {} "(module (memory 5))".data
      = SExpressionWasmBuilder.build {} "(module (memory 5)) (junk)".data :=
  ⟨rfl, rfl, C11_only_first_form_is_read.2 {} _ _ _ _ _ rfl rfl⟩

/-! ## Comments (C12) -/

/-- A text whose first form is a list that starts with a comment makes
`parseEverything` fail, whatever follows. -/
theorem parseEverything_comment_fails (input : List Char)
    (hopen : peek (skipWhitespace input) = '(')
    (hsemi : peek (skipWhitespace input).tail = ';') :
    parseEverything input = .error Err.assertFail := by
  have hne : peek input ≠ ';' := by
    intro hc
    rw [skipWhitespace_of_not_space input (by rw [hc]; decide), hc] at hopen
    exact absurd hopen (by decide)
  obtain ⟨e, he⟩ := parse_comment_fails (3 * input.length + 1) input hopen hsemi
  have h : parseEverything input = .error e := by
    unfold parseEverything
    have hfuel : 3 * input.length + 3 = (3 * input.length + 1 + 1) + 1 := rfl
    rw [hfuel, parseInnerList, if_neg hne, parseInnerListLoop, he]
  rw [h, parseEverything_error input e h]

/-- C12 (code defect): on `(a (; c ;) b)` the tokenizer fails on an assertion
and returns no tree, where the text without the comment, `(a b)`, gives the
root with one child list of the atoms `a` and `b`. After a comment the position
is left on the `;` of `;)`, and `parse` asserts the closing `)` of the list
there; a comment alone in a list, `((; c ;))`, fails in the same way. -/
theorem C12_comment_in_list_fails :
    parseEverything "(a (; c ;) b)".data = .error Err.assertFail
    ∧ parseEverything "(a b)".data = .ok (some (.list [.list [.str "a", .str "b"]]))
    ∧ parseEverything "((; c ;))".data = .error Err.assertFail :=
  ⟨rfl, rfl, rfl⟩

/-! ## Unterminated lists (C13) -/

/-- C13 (counterexample): `a) (b` and `a(` hold a `(` without a matching `)`, and
`parseEverything` succeeds on both: in the first the `)` ends the top-level
sequence and the rest of the buffer is not read, in the second the `(` is part
of the atom `a(`. -/
theorem C13_counterexample_unread_open_paren :
    parseEverything "a) (b".data = .ok (some (.list [.str "a"]))
    ∧ parseEverything "a(".data = .ok (some (.list [.str "a("])) :=
  ⟨rfl, rfl⟩

/-- C13 (amended): for every input text in which a list that the tokenizer opens
(a `(` at the start of a token, read before any `)` that ends the top-level
sequence) is still open at the end of the buffer, `parseEverything` returns no
tree; unless the buffer starts with `;` (a comment), it fails on the assertion
for the closing `)`. -/
theorem C13_unclosed_list_fails (input : List Char) (h : unclosed 0 false input = true) :
    (∀ root, parseEverything input ≠ .ok (some root))
    ∧ (peek input ≠ ';' → parseEverything input = .error Err.assertFail) := by
  refine ⟨parseEverything_unclosed input h, ?_⟩
  intro hne
  cases hp : parseEverything input with
  | error e => rw [parseEverything_error input e hp]
  | ok r =>
    cases r with
    | none => exact absurd (parseEverything_none input hp) hne
    | some root => exact absurd hp (parseEverything_unclosed input h root)

/-- C13 (witness): in `(module (func $f` two lists are still open at the end of
the buffer, and `parseEverything` fails. -/
theorem C13_unclosed_list_fails_witness :
    unclosed 0 false "(module (func $f".data = true
    ∧ (∀ root, parseEverything "(module (func $f".data ≠ .ok (some root))
    ∧ parseEverything "(module (func $f".data = .error Err.assertFail :=
  ⟨by decide, (C13_unclosed_list_fails "(module (func $f".data (by decide)).1,
    (C13_unclosed_list_fails "(module (func $f".data (by decide)).2 (by decide)⟩

/-! ## Empty input and surplus closing parentheses (C14) -/

/-- C14 (counterexample): on the empty buffer and on a buffer of white space the
tokenizer returns the empty root list, and on `a) b` it returns the list of the
forms read before the surplus `)`. -/
theorem C14_counterexample_tree_for_invalid_text :
    parseEverything "".data = .ok (some (.list []))
    ∧ parseEverything "  ".data = .ok (some (.list []))
    ∧ parseEverything "a) b".data = .ok (some (.list [.str "a"])) :=
  ⟨rfl, rfl, rfl⟩

/-- C14 (amended): the tokenizer returns a tree on an empty buffer and at a
surplus `)`. On every buffer that is empty or holds white space only,
`parseEverything` returns the empty root list; and whenever `parseEverything`
succeeds on a text, it succeeds with the same result on that text continued by
a `)` and anything after it: the `)` ends the top-level sequence and the rest
of the buffer is not read. -/
theorem C14_empty_and_surplus_paren_accepted :
    (∀ input : List Char, (∀ c ∈ input, isspace c = true) →
        parseEverything input = .ok (some (.list [])))
    ∧ (∀ (input rest : List Char) (root : Option Element),
        parseEverything input = .ok root →
        parseEverything (input ++ ')' :: rest) = .ok root) :=
  ⟨parseEverything_all_space, parseEverything_append_close⟩

/-- C14 (witness): a buffer of two blanks gives the empty root list, and `a`
continued by `) b` gives the root of `a`. -/
theorem C14_empty_and_surplus_paren_accepted_witness :
    (∀ c ∈ "  ".data, isspace c = true)
    ∧ parseEverything "  ".data = .ok (some (.list []))
    ∧ parseEverything "a".data = .ok (some (.list [.str "a"]))
    ∧ parseEverything ("a".data ++ ')' :: " b".data) = .ok (some (.list [.str "a"])) :=
  ⟨by decide, C14_empty_and_surplus_paren_accepted.1 "  ".data (by decide), rfl,
    C14_empty_and_surplus_paren_accepted.2 "a".data " b".data _ rfl⟩

/-! ## Width of loads and stores (C15) -/

/-- C15 (code defect): for `i32.load16_u` the width that `makeLoad` records is 4,
and for `i64.store16` the width that `makeStore` records is 8, the natural width
of the type and not 2: the branch for a `1` after the operation name asserts the
`6` and moves on without assigning the width. For `i64.store8` the width is 1.
The recursive call on the operands is replaced by one that succeeds, so that
the node is returned and its fields can be read. -/
theorem C15_width_16_is_not_recorded :
    makeLoad (.list [.str "i32.load16_u", .str "$p"])
        (fun L _ => .ok (Expression.GetLocal "$p" WasmType.i32, L)) [] WasmType.i32
      = .ok (Expression.Load WasmType.i32 false 4 true 0 (-1)
              (Expression.GetLocal "$p" WasmType.i32), [])
    ∧ makeStore (.list [.str "i64.store16", .str "$p", .str "$v"])
        (fun L _ => .ok (Expression.GetLocal "$p" WasmType.i32, L)) [] WasmType.i64
      = .ok (Expression.Store WasmType.i64 false 8 0 (-1)
              (Expression.GetLocal "$p" WasmType.i32)
              (Expression.GetLocal "$p" WasmType.i32), [])
    ∧ makeStore (.list [.str "i64.store8", .str "$p", .str "$v"])
        (fun L _ => .ok (Expression.GetLocal "$p" WasmType.i32, L)) [] WasmType.i64
      = .ok (Expression.Store WasmType.i64 false 1 0 (-1)
              (Expression.GetLocal "$p" WasmType.i32)
              (Expression.GetLocal "$p" WasmType.i32), [])
    ∧ widthOf ".load16_u".data 5 WasmType.i32 = .ok (4, 7)
    ∧ widthOf ".store16".data 6 WasmType.i64 = .ok (8, 8)
    ∧ widthOf ".store8".data 6 WasmType.i64 = .ok (1, 7) :=
  ⟨rfl, rfl, rfl, rfl, rfl, rfl⟩

/-! ## The signed flag of loads (C16) -/

theorem strchr_append (T rest : List Char) (c : Char) (hT : c ∉ T) :
    strchr (T ++ c :: rest) c = some (c :: rest) := by
  induction T with
  | nil => simp [strchr]
  | cons x T1 ih =>
    have hx : x ≠ c := fun h => hT (by simp [h])
    have hT1 : c ∉ T1 := fun h => hT (List.mem_cons_of_mem _ h)
    simp [strchr, hx, ih hT1]

theorem peek_ne_NUL_iff (rest : List Char) (h : NUL ∉ rest) :
    (peek rest ≠ NUL) ↔ rest ≠ [] := by
  cases rest with
  | nil => simp [peek]
  | cons c rest1 =>
    have hc : c ≠ NUL := fun hc => h (by simp [hc])
    simp [peek, hc]

/-- The part of `makeLoad` before the operands, on a mnemonic with `load`,
width marker `w` and remainder `rest` after the dot: the width computation
succeeds and leaves `extra` on the first character of `rest`, so that the test
`extra[0] != 0` for the signed flag reads that character. -/
theorem load_extra_character (type : WasmType) (w rest : List Char)
    (hw : (w = [] ∧ peek rest ≠ '8' ∧ peek rest ≠ '1') ∨ w = ['8'] ∨ w = ['1', '6']) :
    ∃ bytes extra,
      widthOf ('.' :: ("load".data ++ (w ++ rest))) 5 type = .ok (bytes, extra)
        ∧ cAt ('.' :: ("load".data ++ (w ++ rest))) extra = .ok (peek rest) := by
  have hd : ("load".data : List Char) = ['l', 'o', 'a', 'd'] := rfl
  rw [hd]
  rcases hw with ⟨hw0, h8, h1⟩ | hw8 | hw16
  · subst hw0
    refine ⟨getWasmTypeSize type, 5, ?_, ?_⟩
    · simp [widthOf, cAt_succ, cAt_zero, bind, Except.bind, h8, h1, pure, Except.pure]
    · simp [cAt_succ, cAt_zero]
  · subst hw8
    refine ⟨1, 6, ?_, ?_⟩
    · simp [widthOf, cAt_succ, cAt_zero, peek, bind, Except.bind, pure, Except.pure]
    · simp [cAt_succ, cAt_zero]
  · subst hw16
    refine ⟨getWasmTypeSize type, 7, ?_, ?_⟩
    · simp [widthOf, cAt_succ, cAt_zero, peek, bind, Except.bind, pure, Except.pure]
    · simp [cAt_succ, cAt_zero]

/-- The method `makeLoad` is its first part followed by the immediates and the
pointer operand, whatever the recursive call does. -/
theorem makeLoad_flags (s : Element) (child : ParseChild) (L : LocalTypes) (type : WasmType) :
    makeLoad s child L type = (do
      let (bytes, signed_) ← makeLoadFlags s type
      let xs ← s.getList
      let (i, align, offset) ← immediatesLoop (xs.drop 1) 1 (-1) 0
      let (ptr, L1) ← child L i
      pure (Expression.Load type (isWasmTypeFloat type) bytes signed_ offset align ptr, L1)) := by
  unfold makeLoad makeLoadFlags
  simp only [bind, Except.bind, pure, Except.pure]
  cases s.index 0 with
  | error e => rfl
  | ok s0 =>
    simp only
    cases s0.c_str with
    | error e => rfl
    | ok str =>
      simp only
      cases strchr str '.' with
      | none => rfl
      | some dot =>
        simp only
        cases widthOf dot 5 type with
        | error e => rfl
        | ok r =>
          simp only
          cases cAt dot r.2 with
          | error e => rfl
          | ok c => rfl

/-- C16: the signed flag that `makeLoad` records is true exactly when at least
one character follows the operation name `load` and its optional width marker
(`8` or `16`) in the mnemonic, and false when nothing follows. The mnemonic is
written as type, dot, `load`, marker `w` and remainder `rest`. The first part of
`makeLoad` stores that flag in the node, whatever the operands are; and whatever
the recursive call on the pointer operand does, `makeLoad` fails after that or
returns the node with that flag. -/
theorem C16_signed_flag_recorded (type : WasmType) (T w rest : List Char)
    (operands : List Element) (hT : '.' ∉ T)
    (hw : (w = [] ∧ peek rest ≠ '8' ∧ peek rest ≠ '1') ∨ w = ['8'] ∨ w = ['1', '6'])
    (hrest : NUL ∉ rest) :
    ∃ bytes,
      makeLoadFlags (.list (.str (String.mk (T ++ '.' :: ("load".data ++ (w ++ rest))))
          :: operands)) type = .ok (bytes, decide (rest ≠ []))
      ∧ ∀ (child : ParseChild) (L : LocalTypes),
          makeLoad (.list (.str (String.mk (T ++ '.' :: ("load".data ++ (w ++ rest))))
              :: operands)) child L type
            = match immediatesLoop operands 1 (-1) 0 with
              | .error e => .error e
              | .ok (i, align, offset) =>
                match child L i with
                | .error e => .error e
                | .ok (ptr, L1) =>
                  .ok (Expression.Load type (isWasmTypeFloat type) bytes (decide (rest ≠ []))
                        offset align ptr, L1) := by
  have hflag := peek_ne_NUL_iff rest hrest
  have hdec : decide (peek rest ≠ NUL) = decide (rest ≠ []) := decide_eq_decide.mpr hflag
  obtain ⟨bytes, extra, hwidth, hc⟩ := load_extra_character type w rest hw
  have hflags : makeLoadFlags (.list (.str (String.mk (T ++ '.' :: ("load".data ++ (w ++ rest))))
          :: operands)) type = .ok (bytes, decide (rest ≠ [])) := by
    simp only [makeLoadFlags, Element.index, Element.getList, List.getElem?_cons_zero,
      Element.c_str, bind, Except.bind, strchr_append T _ '.' hT, hwidth, hc, pure, Except.pure,
      hdec]
  refine ⟨bytes, hflags, ?_⟩
  intro child L
  rw [makeLoad_flags, hflags]
  simp only [bind, Except.bind, Element.getList, List.drop_succ_cons, List.drop_zero, pure,
    Except.pure]
  cases immediatesLoop operands 1 (-1) 0 with
  | error e => rfl
  | ok r =>
    simp only
    cases child L r.1 with
    | error e => rfl
    | ok p => rfl


/-- C16 (witness): `i32.load` and `i32.load8` get signed = false, `i32.load8_s`
and `i32.load8_u` both get signed = true; the last conjunct is the statement at
`i32.load8_s`, with the marker `8` and the remainder `_s`. -/
theorem C16_signed_flag_recorded_witness :
    makeLoadFlags (.list [.str "i32.load", .list [.str "get_local", .str "$p"]]) WasmType.i32
      = .ok (4, false)
    ∧ makeLoadFlags (.list [.str "i32.load8", .list [.str "get_local", .str "$p"]])
        WasmType.i32 = .ok (1, false)
    ∧ makeLoadFlags (.list [.str "i32.load8_s", .list [.str "get_local", .str "$p"]])
        WasmType.i32 = .ok (1, true)
    ∧ makeLoadFlags (.list [.str "i32.load8_u", .list [.str "get_local", .str "$p"]])
        WasmType.i32 = .ok (1, true)
    ∧ '.' ∉ "i32".data ∧ NUL ∉ "_s".data
    ∧ ∃ bytes,
        makeLoadFlags (.list [.str "i32.load8_s", .list [.str "get_local", .str "$p"]])
          WasmType.i32 = .ok (bytes, decide ("_s".data ≠ []))
        ∧ ∀ (child : ParseChild) (L : LocalTypes),
            makeLoad (.list [.str "i32.load8_s", .list [.str "get_local", .str "$p"]]) child L
                WasmType.i32
              = match immediatesLoop [.list [.str "get_local", .str "$p"]] 1 (-1) 0 with
                | .error e => .error e
                | .ok (i, align, offset) =>
                  match child L i with
                  | .error e => .error e
                  | .ok (ptr, L1) =>
                    .ok (Expression.Load WasmType.i32 (isWasmTypeFloat WasmType.i32) bytes
                          (decide ("_s".data ≠ [])) offset align ptr, L1) :=
  ⟨rfl, rfl, rfl, rfl, by decide, by decide,
    C16_signed_flag_recorded WasmType.i32 "i32".data ['8'] "_s".data
      [.list [.str "get_local", .str "$p"]] (by decide) (Or.inr (Or.inl rfl)) (by decide)⟩

/-! ## Literals of constants (C17) -/

theorem digitChar_lt_ten (d : Nat) (h : d < 10) :
    (Nat.digitChar d).isDigit = true ∧ (Nat.digitChar d).toNat - 48 = d
      ∧ isspace (Nat.digitChar d) = false ∧ Nat.digitChar d ≠ '-'
      ∧ Nat.digitChar d ≠ '+' := by
  interval_cases d <;> decide

theorem atoiDigits_toDigitsCore (fuel : Nat) :
    ∀ (n : Nat) (ds : List Char), n < fuel →
      atoiDigits (Nat.toDigitsCore 10 fuel n ds) 0 = atoiDigits ds n := by
  induction fuel with
  | zero =>
    intro n ds h
    omega
  | succ fuel ih =>
    intro n ds h
    obtain ⟨hd1, hd2, _, _, _⟩ := digitChar_lt_ten (n % 10) (Nat.mod_lt _ (by decide))
    simp only [Nat.toDigitsCore]
    split
    · rename_i h0
      have hn : n % 10 = n := by omega
      rw [hn] at hd1 hd2
      simp only [hn, atoiDigits, hd1, if_true, hd2]
      simp
    · rename_i h0
      rw [ih (n / 10) _ (by omega)]
      simp only [atoiDigits, hd1, if_true, hd2]
      congr 1
      omega

theorem toDigitsCore_head (fuel : Nat) :
    ∀ (n : Nat) (ds : List Char),
      ∃ d rest, d < 10 ∧ Nat.toDigitsCore 10 (fuel + 1) n ds = Nat.digitChar d :: rest := by
  induction fuel with
  | zero =>
    intro n ds
    refine ⟨n % 10, ds, Nat.mod_lt _ (by decide), ?_⟩
    simp only [Nat.toDigitsCore]
    split <;> rfl
  | succ fuel ih =>
    intro n ds
    rw [Nat.toDigitsCore]
    split
    · exact ⟨n % 10, ds, Nat.mod_lt _ (by decide), rfl⟩
    · exact ih _ _

theorem atoiValue_toDigits (m : Nat) : atoiValue (Nat.toDigits 10 m) = (m : Int) := by
  have hval := atoiDigits_toDigitsCore (m + 1) m [] (Nat.lt_succ_self m)
  obtain ⟨d, rest, hd, hhead⟩ := toDigitsCore_head m m []
  obtain ⟨_, _, hsp, hminus, hplus⟩ := digitChar_lt_ten d hd
  unfold Nat.toDigits
  unfold atoiValue
  rw [hhead] at hval ⊢
  simp only [List.dropWhile, hsp]
  split
  · rename_i heq
    injection heq with h1 _
    exact absurd h1 hminus
  · rename_i heq
    injection heq with h1 _
    exact absurd h1 hplus
  · rw [hval]
    simp [atoiDigits]

theorem atoiValue_decimalLiteral (z : Int) : atoiValue (decimalLiteral z) = z := by
  cases z with
  | ofNat m => exact atoiValue_toDigits m
  | negSucc m =>
    have hval := atoiDigits_toDigitsCore (m + 1 + 1) (m + 1) [] (Nat.lt_succ_self _)
    simp only [decimalLiteral, atoiValue]
    have hminus : isspace '-' = false := by decide
    simp only [List.dropWhile, hminus]
    unfold Nat.toDigits
    rw [hval]
    simp only [atoiDigits]
    rfl

/-- A text that starts with no white space, sign or digit is read as zero. -/
theorem atoiValue_no_number (str : List Char)
    (h : (peek str).isDigit = false ∧ isspace (peek str) = false ∧ peek str ≠ '-'
      ∧ peek str ≠ '+') : atoiValue str = 0 := by
  obtain ⟨hdig, hsp, hminus, hplus⟩ := h
  unfold atoiValue
  cases str with
  | nil => rfl
  | cons c rest =>
    simp only [peek] at hdig hsp hminus hplus
    simp only [List.dropWhile, hsp]
    split
    · rename_i heq
      injection heq with h1 _
      exact absurd h1 hminus
    · rename_i heq
      injection heq with h1 _
      exact absurd h1 hplus
    · simp [atoiDigits, hdig]

theorem parseExpression_const_i32 (L : LocalTypes) (text : Name) :
    parseExpression L (.list [.str "i32.const", .str text])
      = match atoi text.data with
        | .ok v => .ok (Expression.Const WasmType.i32 (Literal.i32 v), L)
        | .error e => .error e := by
  rw [parseExpression_list,
    parseExpressionBody_dotted _ _ L "i32.const" [.str text] ".const".data WasmType.i32
      Operation.Const rfl rfl rfl rfl]
  cases h : atoi text.data <;>
    simp [makeConst, Element.index, Element.getList, Element.c_str, bind, Except.bind, h, pure,
      Except.pure]

theorem parseExpression_const_i64 (L : LocalTypes) (text : Name) :
    parseExpression L (.list [.str "i64.const", .str text])
      = match atol text.data with
        | .ok v => .ok (Expression.Const WasmType.i64 (Literal.i64 v), L)
        | .error e => .error e := by
  rw [parseExpression_list,
    parseExpressionBody_dotted _ _ L "i64.const" [.str text] ".const".data WasmType.i64
      Operation.Const rfl rfl rfl rfl]
  cases h : atol text.data <;>
    simp [makeConst, Element.index, Element.getList, Element.c_str, bind, Except.bind, h, pure,
      Except.pure]

/-- C17 (counterexample): `(i32.const abc)` and `(i64.const abc)` do not fail:
each produces a Const node, with the value 0. -/
theorem C17_counterexample_non_number_gives_zero :
    parseExpression [] (.list [.str "i32.const", .str "abc"])
      = .ok (Expression.Const WasmType.i32 (Literal.i32 0), [])
    ∧ parseExpression [] (.list [.str "i64.const", .str "abc"])
      = .ok (Expression.Const WasmType.i64 (Literal.i64 0), []) :=
  ⟨rfl, rfl⟩

/-- C17 (amended): a `const` form does not fail on a literal atom that is no
number. For every atom that starts with no white space, sign or digit (as
`abc`), `(i32.const atom)` and `(i64.const atom)` produce a Const with the value
0; and for the decimal literal of an integer n within the 32-bit signed range,
`(i32.const n)` produces a Const of type i32 whose value is n. -/
theorem C17_const_reads_leading_digits :
    (∀ (L : LocalTypes) (text : Name),
        ((peek text.data).isDigit = false ∧ isspace (peek text.data) = false
          ∧ peek text.data ≠ '-' ∧ peek text.data ≠ '+') →
        parseExpression L (.list [.str "i32.const", .str text])
            = .ok (Expression.Const WasmType.i32 (Literal.i32 0), L)
          ∧ parseExpression L (.list [.str "i64.const", .str text])
            = .ok (Expression.Const WasmType.i64 (Literal.i64 0), L))
    ∧ (∀ (L : LocalTypes) (n : Int), -(2 : Int) ^ 31 ≤ n → n < (2 : Int) ^ 31 →
        parseExpression L (.list [.str "i32.const", .str (String.mk (decimalLiteral n))])
          = .ok (Expression.Const WasmType.i32 (Literal.i32 n), L)) := by
  constructor
  · intro L text h
    have h0 := atoiValue_no_number text.data h
    rw [parseExpression_const_i32, parseExpression_const_i64]
    simp [atoi, atol, h0]
  · intro L n h1 h2
    rw [parseExpression_const_i32]
    norm_num at h1 h2
    simp [atoi, atoiValue_decimalLiteral, h1, h2]

/-- C17 (witness): the atom `abc` gives the value 0, and the decimal literal
`-42` gives the value -42. -/
theorem C17_const_reads_leading_digits_witness :
    ((peek "abc".data).isDigit = false ∧ isspace (peek "abc".data) = false
      ∧ peek "abc".data ≠ '-' ∧ peek "abc".data ≠ '+')
    ∧ (parseExpression [] (.list [.str "i32.const", .str "abc"])
          = .ok (Expression.Const WasmType.i32 (Literal.i32 0), [])
        ∧ parseExpression [] (.list [.str "i64.const", .str "abc"])
          = .ok (Expression.Const WasmType.i64 (Literal.i64 0), []))
    ∧ (-(2 : Int) ^ 31 ≤ -42 ∧ (-42 : Int) < (2 : Int) ^ 31)
    ∧ decimalLiteral (-42) = "-42".data
    ∧ parseExpression [] (.list [.str "i32.const", .str (String.mk "-42".data)])
        = .ok (Expression.Const WasmType.i32 (Literal.i32 (-42)), []) := by
  have hlit : decimalLiteral (-42) = "-42".data := rfl
  have h := C17_const_reads_leading_digits.2 [] (-42) (by decide) (by decide)
  rw [hlit] at h
  exact ⟨by decide, C17_const_reads_leading_digits.1 [] "abc" (by decide),
    ⟨by decide, by decide⟩, hlit, h⟩

/-! ## Blocks (C18) -/

/-- C18 (code defect): `parseExpression` on `(block)` returns no Block:
`makeBlock` reads `s[1]` before it looks at the size of the form, an access out
of range for a form that holds the keyword only. A block with children is
parsed as the claim says: in `(block $l (get_local $p) (get_local $q))` the atom
`$l` is the label and the two other children are the list, in source order; in
`(block (get_local $p))` there is no label. -/
theorem C18_empty_block_is_out_of_range :
    parseExpression [] (.list [.str "block"]) = .error Err.undefined
    ∧ parseExpression [("$p", WasmType.i32), ("$q", WasmType.f64)]
        (.list [.str "block", .str "$l", .list [.str "get_local", .str "$p"],
          .list [.str "get_local", .str "$q"]])
      = .ok (Expression.Block (some "$l")
              [Expression.GetLocal "$p" WasmType.i32, Expression.GetLocal "$q" WasmType.f64],
             [("$p", WasmType.i32), ("$q", WasmType.f64)])
    ∧ parseExpression [("$p", WasmType.i32)]
        (.list [.str "block", .list [.str "get_local", .str "$p"]])
      = .ok (Expression.Block none [Expression.GetLocal "$p" WasmType.i32],
             [("$p", WasmType.i32)]) :=
  ⟨rfl, rfl, rfl⟩

/-! ## The Local Environment between functions (C19) -/

theorem parseFunction_clears (L : LocalTypes) (s : Element) (f : Function)
    (L1 : LocalTypes) (h : parseFunction L s = .ok (f, L1)) : L1 = [] := by
  unfold parseFunction at h
  obtain ⟨s1, _, h⟩ := bind_ok _ _ _ h
  obtain ⟨name, _, h⟩ := bind_ok _ _ _ h
  obtain ⟨xs, _, h⟩ := bind_ok _ _ _ h
  obtain ⟨⟨f2, L2⟩, _, h⟩ := bind_ok _ _ _ h
  simp only [pure, Except.pure, Except.ok.injEq, Prod.mk.injEq] at h
  exact h.2.symm

theorem parseModuleElement_currLocalTypes (b b1 : SExpressionWasmBuilder) (curr : Element)
    (hb : b.currLocalTypes = [])
    (h : SExpressionWasmBuilder.parseModuleElement b curr = .ok b1) :
    b1.currLocalTypes = [] := by
  unfold SExpressionWasmBuilder.parseModuleElement at h
  obtain ⟨c0, _, h⟩ := bind_ok _ _ _ h
  obtain ⟨id, _, h⟩ := bind_ok _ _ _ h
  split at h
  · obtain ⟨⟨f, L⟩, hf, h⟩ := bind_ok _ _ _ h
    simp only [pure, Except.pure, Except.ok.injEq] at h
    rw [← h]
    exact parseFunction_clears _ _ _ _ hf
  · split at h
    · unfold SExpressionWasmBuilder.parseMemory at h
      obtain ⟨a, _, h⟩ := bind_ok _ _ _ h
      obtain ⟨a1, _, h⟩ := bind_ok _ _ _ h
      obtain ⟨a2, _, h⟩ := bind_ok _ _ _ h
      simp only [pure, Except.pure, Except.ok.injEq] at h
      rw [← h]
      exact hb
    · split at h
      · unfold SExpressionWasmBuilder.parseExport at h
        obtain ⟨a, _, h⟩ := bind_ok _ _ _ h
        obtain ⟨a1, _, h⟩ := bind_ok _ _ _ h
        obtain ⟨a2, _, h⟩ := bind_ok _ _ _ h
        obtain ⟨a3, _, h⟩ := bind_ok _ _ _ h
        simp only [pure, Except.pure, Except.ok.injEq] at h
        rw [← h]
        exact hb
      · split at h
        · unfold SExpressionWasmBuilder.parseTable at h
          obtain ⟨a, _, h⟩ := bind_ok _ _ _ h
          obtain ⟨a1, _, h⟩ := bind_ok _ _ _ h
          simp only [pure, Except.pure, Except.ok.injEq] at h
          rw [← h]
          exact hb
        · simp [throw, throwThe, MonadExceptOf.throw] at h

theorem parseModuleElements_currLocalTypes (cs : List Element) :
    ∀ (b b1 : SExpressionWasmBuilder), b.currLocalTypes = [] →
      SExpressionWasmBuilder.parseModuleElements cs b = .ok b1 → b1.currLocalTypes = [] := by
  induction cs with
  | nil =>
    intro b b1 hb h
    simp only [SExpressionWasmBuilder.parseModuleElements, Except.ok.injEq] at h
    rw [← h]
    exact hb
  | cons c rest ih =>
    intro b b1 hb h
    unfold SExpressionWasmBuilder.parseModuleElements at h
    cases h1 : SExpressionWasmBuilder.parseModuleElement b c with
    | error e => simp [h1] at h
    | ok b2 =>
      simp only [h1] at h
      exact ih b2 b1 (parseModuleElement_currLocalTypes b b2 c hb h1) h

/-- C19: the Local Environment does not leak between functions. `currLocalTypes`
is empty whenever `parseFunction` returns; and after any sequence of module
forms handled from the start of the constructor it is empty, so that
`parseFunction` builds from the next `func` form what it builds from that form
with an empty environment, whatever forms came before. -/
theorem C19_local_environment_does_not_leak :
    (∀ (L : LocalTypes) (s : Element) (f : Function) (L1 : LocalTypes),
        parseFunction L s = .ok (f, L1) → L1 = [])
    ∧ (∀ (wasm : Module) (before : List Element) (b : SExpressionWasmBuilder),
        SExpressionWasmBuilder.parseModuleElements before
            { wasm := wasm, currLocalTypes := [] } = .ok b →
        b.currLocalTypes = []
          ∧ ∀ s : Element, parseFunction b.currLocalTypes s = parseFunction [] s) := by
  refine ⟨parseFunction_clears, ?_⟩
  intro wasm before b h
  have hb := parseModuleElements_currLocalTypes before _ b rfl h
  exact ⟨hb, fun s => by rw [hb]⟩

/-- C19 (witness): the function `$g`, which declares `$x` as f64, is parsed from
an environment that holds `$a`, and leaves the environment empty; after the
module form of `$g` the builder holds an empty environment, and `parseFunction`
treats any form as it does with an empty environment. -/
theorem C19_local_environment_does_not_leak_witness :
    parseFunction [("$a", WasmType.i64)]
        (.list [.str "func", .str "$g", .list [.str "local", .str "$x", .str "f64"]])
      = .ok ({ name := "$g", locals := [("$x", WasmType.f64)] }, [])
    ∧ ([] : LocalTypes) = []
    ∧ SExpressionWasmBuilder.parseModuleElements
          [.list [.str "func", .str "$g", .list [.str "local", .str "$x", .str "f64"]]]
          { wasm := {}, currLocalTypes := [] }
        = .ok { wasm := {}, currLocalTypes := [] }
    ∧ (SExpressionWasmBuilder.currLocalTypes { wasm := {}, currLocalTypes := [] } = []
        ∧ ∀ s : Element,
          parseFunction
              (SExpressionWasmBuilder.currLocalTypes { wasm := {}, currLocalTypes := [] }) s
            = parseFunction [] s) :=
  ⟨rfl,
    C19_local_environment_does_not_leak.1 [("$a", WasmType.i64)]
      (.list [.str "func", .str "$g", .list [.str "local", .str "$x", .str "f64"]]) _ [] rfl,
    rfl,
    C19_local_environment_does_not_leak.2 {}
      [.list [.str "func", .str "$g", .list [.str "local", .str "$x", .str "f64"]]]
      { wasm := {}, currLocalTypes := [] } rfl⟩

/-! ## Declarations after the body (C20) -/

/-- C20 (counterexample): in `(func $f (get_local $x) (local $x i32))` the body
is parsed before the declaration of `$x` is read, and its `GetLocal($x)` does not
have type i32 (it has the value-initialised type), unlike in
`(func $f (local $x i32) (get_local $x))`. -/
theorem C20_counterexample_declaration_after_body :
    parseFunction []
        (.list [.str "func", .str "$f", .list [.str "get_local", .str "$x"],
          .list [.str "local", .str "$x", .str "i32"]])
      = .ok ({ name := "$f", params := [], result := WasmType.none,
               locals := [("$x", WasmType.i32)],
               body := some (Expression.GetLocal "$x" WasmType.none) }, [])
    ∧ parseFunction []
        (.list [.str "func", .str "$f", .list [.str "local", .str "$x", .str "i32"],
          .list [.str "get_local", .str "$x"]])
      = .ok ({ name := "$f", params := [], result := WasmType.none,
               locals := [("$x", WasmType.i32)],
               body := some (Expression.GetLocal "$x" WasmType.i32) }, []) :=
  ⟨rfl, rfl⟩

/-- C20 (amended): the children of a function form are read in one pass, and
the body is parsed with the declarations read so far. For every name without
entry in `currLocalTypes` and every type, the `GetLocal` of the name in
`(func f (get_local x) (local x ty))` has the value-initialised type, and in
`(func f (local x ty) (get_local x))` it has the declared type. -/
theorem C20_body_sees_earlier_declarations_only (L : LocalTypes) (f x ty : Name)
    (t : WasmType) (hx : LocalTypes.find L x = none)
    (ht : stringToWasmType ty.data = .ok t) :
    parseFunction L
        (.list [.str "func", .str f, .list [.str "get_local", .str x],
          .list [.str "local", .str x, .str ty]])
      = .ok ({ name := f, params := [], result := WasmType.none, locals := [(x, t)],
               body := some (Expression.GetLocal x WasmType.none) }, [])
    ∧ parseFunction L
        (.list [.str "func", .str f, .list [.str "local", .str x, .str ty],
          .list [.str "get_local", .str x]])
      = .ok ({ name := f, params := [], result := WasmType.none, locals := [(x, t)],
               body := some (Expression.GetLocal x t) }, []) := by
  have h0 : strchr "get_local".data '.' = none := rfl
  have hc0 : cAt "get_local".data 0 = .ok 'g' := rfl
  have hc1 : cAt "get_local".data 1 = .ok 'e' := rfl
  have hfind : LocalTypes.find (LocalTypes.assign L x t) x = some t :=
    LocalTypes.find_assign_same _ x t
  constructor
  · simp [parseFunction, parseFunctionLoop, parseFunctionItem, Element.index,
      Element.getList, Element.getStr, bind, Except.bind, pure, Except.pure, PARAM, RESULT,
      LOCAL, ht, parseExpression_list, parseExpressionBody, h0, hc0, hc1, makeGetLocal,
      LocalTypes.subscript, hx]
  · simp [parseFunction, parseFunctionLoop, parseFunctionItem, Element.index,
      Element.getList, Element.getStr, bind, Except.bind, pure, Except.pure, PARAM, RESULT,
      LOCAL, ht, parseExpression_list, parseExpressionBody, h0, hc0, hc1, makeGetLocal,
      LocalTypes.subscript, hfind]

/-- C20 (witness): the instance with `$x` declared as i32, from an empty
environment. -/
theorem C20_body_sees_earlier_declarations_only_witness :
    LocalTypes.find [] "$x" = none
    ∧ stringToWasmType "i32".data = .ok WasmType.i32
    ∧ parseFunction []
        (.list [.str "func", .str "$f", .list [.str "get_local", .str "$x"],
          .list [.str "local", .str "$x", .str "i32"]])
      = .ok ({ name := "$f", params := [], result := WasmType.none,
               locals := [("$x", WasmType.i32)],
               body := some (Expression.GetLocal "$x" WasmType.none) }, []) :=
  ⟨rfl, rfl, (C20_body_sees_earlier_declarations_only [] "$f" "$x" "i32" WasmType.i32 rfl rfl).1⟩

/-! ## Float operations (C21) -/

/-- C21 (counterexample): `(f64.ceil (f64.const 1.5))`, `(f64.sqrt (f64.const 1.5))`
and `(f64.abs (f64.const 1.5))` are not parsed: the switch has no case for these
suffixes and aborts. -/
theorem C21_counterexample_ceil_sqrt_abs_abort :
    parseExpression [] (.list [.str "f64.ceil", .list [.str "f64.const", .str "1.5"]])
      = .error Err.abort
    ∧ parseExpression [] (.list [.str "f64.sqrt", .list [.str "f64.const", .str "1.5"]])
      = .error Err.abort
    ∧ parseExpression [] (.list [.str "f64.abs", .list [.str "f64.const", .str "1.5"]])
      = .error Err.abort :=
  ⟨rfl, rfl, rfl⟩

/-- A form headed by a mnemonic that the switch sends to `makeUnary`, with an
operand that parses, gives the Unary node of the operator. -/
theorem parseExpression_unary (L : LocalTypes) (id : Name) (dot : List Char)
    (type : WasmType) (o : UnaryOp) (a : Element) (e : Expression) (L1 : LocalTypes)
    (hdot : strchr id.data '.' = some dot) (htype : stringToWasmType id.data = .ok type)
    (hk : classify dot.tail = .ok (Operation.Unary o))
    (ha : parseExpression L a = .ok (e, L1)) :
    parseExpression L (.list [.str id, a]) = .ok (Expression.Unary o e type, L1) := by
  rw [parseExpression_list,
    parseExpressionBody_dotted _ _ L id [a] dot type _ rfl hdot htype hk]
  simp [makeUnary, parseChildAt, ha, bind, Except.bind, pure, Except.pure]

/-- A form headed by a mnemonic that the switch sends to `makeBinary`, with two
operands that parse one after the other, gives the Binary node of the operator. -/
theorem parseExpression_binary (L : LocalTypes) (id : Name) (dot : List Char)
    (type : WasmType) (o : BinaryOp) (a b : Element) (ea eb : Expression)
    (L1 L2 : LocalTypes)
    (hdot : strchr id.data '.' = some dot) (htype : stringToWasmType id.data = .ok type)
    (hk : classify dot.tail = .ok (Operation.Binary o))
    (ha : parseExpression L a = .ok (ea, L1)) (hb : parseExpression L1 b = .ok (eb, L2)) :
    parseExpression L (.list [.str id, a, b]) = .ok (Expression.Binary o ea eb type, L2) := by
  rw [parseExpression_list,
    parseExpressionBody_dotted _ _ L id [a, b] dot type _ rfl hdot htype hk]
  simp [makeBinary, parseChildAt, ha, hb, bind, Except.bind, pure, Except.pure]

/-- C21 (amended): of the float operations, the classifier knows floor and neg
(Unary) and copysign, min and max (Binary): for every mnemonic whose type
prefix is accepted and whose suffix is one of these, a form with operands that
parse gives the node with the corresponding operator and the type of the
prefix. It has no case for ceil, sqrt and abs: a form headed by a mnemonic with
one of these suffixes fails, whatever the operands. -/
theorem C21_float_operations_recognised :
    (∀ (L : LocalTypes) (id : Name) (dot : List Char) (type : WasmType) (o : UnaryOp)
        (a : Element) (e : Expression) (L1 : LocalTypes),
        strchr id.data '.' = some dot → stringToWasmType id.data = .ok type →
        (dot.tail, o) ∈ [("floor".data, UnaryOp.Floor), ("neg".data, UnaryOp.Neg)] →
        parseExpression L a = .ok (e, L1) →
        parseExpression L (.list [.str id, a]) = .ok (Expression.Unary o e type, L1))
    ∧ (∀ (L : LocalTypes) (id : Name) (dot : List Char) (type : WasmType) (o : BinaryOp)
        (a b : Element) (ea eb : Expression) (L1 L2 : LocalTypes),
        strchr id.data '.' = some dot → stringToWasmType id.data = .ok type →
        (dot.tail, o) ∈ [("copysign".data, BinaryOp.CopySign), ("min".data, BinaryOp.Min),
          ("max".data, BinaryOp.Max)] →
        parseExpression L a = .ok (ea, L1) → parseExpression L1 b = .ok (eb, L2) →
        parseExpression L (.list [.str id, a, b])
          = .ok (Expression.Binary o ea eb type, L2))
    ∧ (∀ (L : LocalTypes) (id : Name) (dot : List Char) (operands : List Element),
        strchr id.data '.' = some dot →
        dot.tail ∈ ["ceil".data, "sqrt".data, "abs".data] →
        ∃ err, parseExpression L (.list (.str id :: operands)) = .error err) := by
  refine ⟨?_, ?_, ?_⟩
  · intro L id dot type o a e L1 hdot htype hmem ha
    have hk : classify dot.tail = .ok (Operation.Unary o) := by
      simp only [List.mem_cons, Prod.mk.injEq, List.mem_singleton, List.not_mem_nil,
        or_false] at hmem
      rcases hmem with ⟨h1, h2⟩ | ⟨h1, h2⟩ <;> (rw [h1, h2]; rfl)
    exact parseExpression_unary L id dot type o a e L1 hdot htype hk ha
  · intro L id dot type o a b ea eb L1 L2 hdot htype hmem ha hb
    have hk : classify dot.tail = .ok (Operation.Binary o) := by
      simp only [List.mem_cons, Prod.mk.injEq, List.mem_singleton, List.not_mem_nil,
        or_false] at hmem
      rcases hmem with ⟨h1, h2⟩ | ⟨h1, h2⟩ | ⟨h1, h2⟩ <;> (rw [h1, h2]; rfl)
    exact parseExpression_binary L id dot type o a b ea eb L1 L2 hdot htype hk ha hb
  · intro L id dot operands hdot hmem
    have hk : classify dot.tail = .error Err.abort := by
      simp only [List.mem_cons, List.mem_singleton, List.not_mem_nil, or_false] at hmem
      rcases hmem with h1 | h1 | h1 <;> (rw [h1]; rfl)
    rw [parseExpression_list]
    cases htype : stringToWasmType id.data with
    | error e0 =>
      exact ⟨e0, by
        simp [parseExpressionBody, Element.index, Element.getList, Element.getStr, bind,
          Except.bind, hdot, htype]⟩
    | ok type =>
      exact ⟨Err.abort, by
        simp [parseExpressionBody, Element.index, Element.getList, Element.getStr, bind,
          Except.bind, hdot, htype, hk]⟩

/-- C21 (witness): `(f64.floor (f64.const 1.5))` gives the Unary node `Floor`,
`(f64.copysign (f64.const 1.5) (f64.const 2))` the Binary node `CopySign`, and
`(f64.ceil (f64.const 1.5))` fails. -/
theorem C21_float_operations_recognised_witness :
    parseExpression [] (.list [.str "f64.floor", .list [.str "f64.const", .str "1.5"]])
      = .ok (Expression.Unary UnaryOp.Floor
              (Expression.Const WasmType.f64 (Literal.f64 "1.5".data)) WasmType.f64, [])
    ∧ parseExpression []
        (.list [.str "f64.copysign", .list [.str "f64.const", .str "1.5"],
          .list [.str "f64.const", .str "2"]])
      = .ok (Expression.Binary BinaryOp.CopySign
              (Expression.Const WasmType.f64 (Literal.f64 "1.5".data))
              (Expression.Const WasmType.f64 (Literal.f64 "2".data)) WasmType.f64, [])
    ∧ ∃ err, parseExpression []
        (.list (.str "f64.ceil" :: [.list [.str "f64.const", .str "1.5"]])) = .error err :=
  ⟨C21_float_operations_recognised.1 [] "f64.floor" ".floor".data WasmType.f64 UnaryOp.Floor
      (.list [.str "f64.const", .str "1.5"]) _ [] rfl rfl (by simp) rfl,
    C21_float_operations_recognised.2.1 [] "f64.copysign" ".copysign".data WasmType.f64
      BinaryOp.CopySign (.list [.str "f64.const", .str "1.5"])
      (.list [.str "f64.const", .str "2"]) _ _ [] [] rfl rfl (by simp) rfl rfl,
    C21_float_operations_recognised.2.2 [] "f64.ceil" ".ceil".data _ rfl (by simp)⟩

/-! ## Loads and stores never parse (C22) -/

/-- The loop over the immediates ends only on a child that is a string: when it
returns the index `i`, the child at that index (counted from the index the loop
started at) is a string element. -/
theorem immediatesLoop_stops_at_string (ys : List Element) :
    ∀ (i0 : Nat) (align offset : Int) (i : Nat) (align1 offset1 : Int),
      immediatesLoop ys i0 align offset = .ok (i, align1, offset1) →
      i0 ≤ i ∧ ∃ name, ys[i - i0]? = some (Element.str name) := by
  induction ys with
  | nil =>
    intro i0 align offset i align1 offset1 h
    simp [immediatesLoop] at h
  | cons curr rest ih =>
    intro i0 align offset i align1 offset1 h
    unfold immediatesLoop at h
    split at h
    · -- a list: an immediate, and the loop goes on
      have hstep : ∀ (a o : Int), immediatesLoop rest (i0 + 1) a o = .ok (i, align1, offset1) →
          i0 ≤ i ∧ ∃ name, (curr :: rest)[i - i0]? = some (Element.str name) := by
        intro a o h1
        obtain ⟨hle, name, hname⟩ := ih (i0 + 1) a o i align1 offset1 h1
        refine ⟨by omega, name, ?_⟩
        have hi : i - i0 = (i - (i0 + 1)) + 1 := by omega
        rw [hi, List.getElem?_cons_succ]
        exact hname
      split at h
      · cases h
      · split at h
        · cases h
        · split at h
          · split at h
            · cases h
            · split at h
              · cases h
              · split at h
                · cases h
                · exact hstep _ _ h
          · split at h
            · split at h
              · cases h
              · split at h
                · cases h
                · split at h
                  · cases h
                  · exact hstep _ _ h
            · cases h
    · -- a string: the loop ends here
      rename_i hlist
      simp only [Except.ok.injEq, Prod.mk.injEq] at h
      obtain ⟨hi, _, _⟩ := h
      subst hi
      cases curr with
      | list xs => simp [Element.isList] at hlist
      | str name => exact ⟨Nat.le_refl _, name, by simp⟩

/-- With the recursive call of `parseExpression`, the child on which the loop
over the immediates ends cannot be parsed: it is a string, and
`parseExpression` asserts a list. -/
theorem parseChildAt_after_immediates (L : LocalTypes) (xs : List Element)
    (i : Nat) (align offset : Int)
    (h : immediatesLoop (xs.drop 1) 1 (-1) 0 = .ok (i, align, offset)) :
    parseChildAt L xs i = .error Err.assertFail := by
  obtain ⟨hle, name, hname⟩ := immediatesLoop_stops_at_string _ _ _ _ _ _ _ h
  rw [List.getElem?_drop] at hname
  have hi : 1 + (i - 1) = i := by omega
  rw [hi] at hname
  rw [parseChildAt_eq, hname]
  simp [parseExpression]

/-- C22: no load or store form can be parsed. For every list element `s` and
every type, `makeLoad` and `makeStore`, with `parseExpression` as the recursive
call on the children of `s`, fail and return no node, whatever `currLocalTypes`
holds; on a string element they fail as well, whatever the recursive call; and
so `parseExpression` fails on every form headed by a mnemonic that the switch
sends to `makeLoad` or `makeStore`. -/
theorem C22_load_and_store_never_parse :
    (∀ (xs : List Element) (L : LocalTypes) (type : WasmType),
        (∃ e, makeLoad (.list xs) (fun L1 i => parseChildAt L1 xs i) L type = .error e)
        ∧ (∃ e, makeStore (.list xs) (fun L1 i => parseChildAt L1 xs i) L type = .error e))
    ∧ (∀ (name : Name) (child : ParseChild) (L : LocalTypes) (type : WasmType),
        makeLoad (.str name) child L type = .error Err.assertFail
        ∧ makeStore (.str name) child L type = .error Err.assertFail)
    ∧ (∀ (L : LocalTypes) (id : Name) (dot : List Char) (operands : List Element),
        strchr id.data '.' = some dot →
        (classify dot.tail = .ok Operation.Load ∨ classify dot.tail = .ok Operation.Store) →
        ∃ e, parseExpression L (.list (.str id :: operands)) = .error e) := by
  have hmake : ∀ (xs : List Element) (L : LocalTypes) (type : WasmType),
      (∃ e, makeLoad (.list xs) (fun L1 i => parseChildAt L1 xs i) L type = .error e)
      ∧ (∃ e, makeStore (.list xs) (fun L1 i => parseChildAt L1 xs i) L type = .error e) := by
    intro xs L type
    constructor
    · cases hres : makeLoad (.list xs) (fun L1 i => parseChildAt L1 xs i) L type with
      | error e => exact ⟨e, rfl⟩
      | ok r =>
        exfalso
        unfold makeLoad at hres
        obtain ⟨s0, _, h⟩ := bind_ok _ _ _ hres
        obtain ⟨str, _, h⟩ := bind_ok _ _ _ h
        split at h
        · simp [throw, throwThe, MonadExceptOf.throw] at h
        · obtain ⟨⟨bytes, extra⟩, _, h⟩ := bind_ok _ _ _ h
          obtain ⟨c, _, h⟩ := bind_ok _ _ _ h
          obtain ⟨ys, hys, h⟩ := bind_ok _ _ _ h
          obtain ⟨⟨i, align, offset⟩, hloop, h⟩ := bind_ok _ _ _ h
          obtain ⟨⟨ptr, La⟩, hptr, h⟩ := bind_ok _ _ _ h
          simp only [Element.getList, Except.ok.injEq] at hys
          subst hys
          simp only [parseChildAt_after_immediates L _ i align offset hloop] at hptr
          cases hptr
    · cases hres : makeStore (.list xs) (fun L1 i => parseChildAt L1 xs i) L type with
      | error e => exact ⟨e, rfl⟩
      | ok r =>
        exfalso
        unfold makeStore at hres
        obtain ⟨s0, _, h⟩ := bind_ok _ _ _ hres
        obtain ⟨str, _, h⟩ := bind_ok _ _ _ h
        split at h
        · simp [throw, throwThe, MonadExceptOf.throw] at h
        · obtain ⟨⟨bytes, extra⟩, _, h⟩ := bind_ok _ _ _ h
          obtain ⟨ys, hys, h⟩ := bind_ok _ _ _ h
          obtain ⟨⟨i, align, offset⟩, hloop, h⟩ := bind_ok _ _ _ h
          obtain ⟨⟨ptr, La⟩, hptr, h⟩ := bind_ok _ _ _ h
          simp only [Element.getList, Except.ok.injEq] at hys
          subst hys
          simp only [parseChildAt_after_immediates L _ i align offset hloop] at hptr
          cases hptr
  refine ⟨hmake, ?_, ?_⟩
  · intro name child L type
    constructor
    · simp [makeLoad, Element.index, Element.getList, bind, Except.bind]
    · simp [makeStore, Element.index, Element.getList, bind, Except.bind]
  · intro L id dot operands hdot hk
    rw [parseExpression_list]
    cases htype : stringToWasmType id.data with
    | error e0 =>
      exact ⟨e0, by
        simp [parseExpressionBody, Element.index, Element.getList, Element.getStr, bind,
          Except.bind, hdot, htype]⟩
    | ok type =>
      rcases hk with hk | hk
      · rw [parseExpressionBody_dotted _ _ L id operands dot type _ rfl hdot htype hk]
        exact (hmake (.str id :: operands) L type).1
      · rw [parseExpressionBody_dotted _ _ L id operands dot type _ rfl hdot htype hk]
        exact (hmake (.str id :: operands) L type).2

/-- C22 (witness): `(i32.load $p)`, `(i32.load (get_local $p))` and
`(i32.store $p $v)` fail, with `$p` declared. -/
theorem C22_load_and_store_never_parse_witness :
    (∃ e, parseExpression [("$p", WasmType.i32)]
        (.list (.str "i32.load" :: [.str "$p"])) = .error e)
    ∧ (∃ e, parseExpression [("$p", WasmType.i32)]
        (.list (.str "i32.load" :: [.list [.str "get_local", .str "$p"]])) = .error e)
    ∧ (∃ e, parseExpression [("$p", WasmType.i32)]
        (.list (.str "i32.store" :: [.str "$p", .str "$v"])) = .error e)
    ∧ parseExpression [("$p", WasmType.i32)] (.list [.str "i32.load", .str "$p"])
        = .error Err.assertFail :=
  ⟨C22_load_and_store_never_parse.2.2 _ "i32.load" ".load".data _ rfl (Or.inl rfl),
    C22_load_and_store_never_parse.2.2 _ "i32.load" ".load".data _ rfl (Or.inl rfl),
    C22_load_and_store_never_parse.2.2 _ "i32.store" ".store".data _ rfl (Or.inr rfl),
    rfl⟩

/-! ## The tokenizer: advancing positions -/

theorem advancesTo_refl (input : List Char) : advancesTo input input :=
  ⟨[], rfl, by simp⟩

theorem advancesTo_trans (a b c : List Char) (h1 : advancesTo a b) (h2 : advancesTo b c) :
    advancesTo a c := by
  obtain ⟨p1, e1, n1⟩ := h1
  obtain ⟨p2, e2, n2⟩ := h2
  refine ⟨p1 ++ p2, by rw [e1, e2, List.append_assoc], ?_⟩
  intro hmem
  rcases List.mem_append.mp hmem with h | h
  · exact n1 h
  · exact n2 h

theorem advancesTo_tail (input : List Char) (h : peek input ≠ NUL) :
    advancesTo input input.tail := by
  cases input with
  | nil => exact absurd rfl h
  | cons c rest =>
    refine ⟨[c], rfl, ?_⟩
    intro hmem
    simp only [List.mem_singleton] at hmem
    exact h hmem.symm

theorem advancesTo_length (input pos : List Char) (h : advancesTo input pos) :
    pos.length ≤ input.length := by
  obtain ⟨p, e, _⟩ := h
  rw [e, List.length_append]
  omega


theorem tokenizer_fuel_le (f g : Nat) (hfg : f ≤ g) :
    (∀ input res, parseInnerList f input = res → res ≠ .error Err.outOfFuel →
        parseInnerList g input = res)
    ∧ (∀ input ret res, parseInnerListLoop f input ret = res → res ≠ .error Err.outOfFuel →
        parseInnerListLoop g input ret = res)
    ∧ (∀ input res, parse f input = res → res ≠ .error Err.outOfFuel →
        parse g input = res) := by
  induction g with
  | zero =>
    have hf : f = 0 := by omega
    subst hf
    exact ⟨fun _ _ h _ => h, fun _ _ _ h _ => h, fun _ _ h _ => h⟩
  | succ g ih =>
    by_cases hle : f ≤ g
    · obtain ⟨ih1, ih2, ih3⟩ := ih hle
      obtain ⟨s1, s2, s3⟩ := tokenizer_fuel_succ g
      exact ⟨fun input res h hne => s1 _ _ (ih1 _ _ h hne) hne,
        fun input ret res h hne => s2 _ _ _ (ih2 _ _ _ h hne) hne,
        fun input res h hne => s3 _ _ (ih3 _ _ h hne) hne⟩
    · have hf : f = g + 1 := by omega
      subst hf
      exact ⟨fun _ _ h _ => h, fun _ _ _ h _ => h, fun _ _ h _ => h⟩

theorem skipWhitespace_suffix (input : List Char) :
    ∃ pre, input = pre ++ skipWhitespace input ∧ NUL ∉ pre := by
  induction input with
  | nil => exact ⟨[], rfl, by simp⟩
  | cons c rest ih =>
    unfold skipWhitespace
    split
    · rename_i hsp
      obtain ⟨pre, hpre, hnul⟩ := ih
      refine ⟨c :: pre, by rw [List.cons_append, ← hpre], ?_⟩
      intro hmem
      rcases List.mem_cons.mp hmem with h | h
      · exact (isspace_ne c hsp).1 h.symm
      · exact hnul h
    · exact ⟨[], rfl, by simp⟩

/-- The loop of `parseString` passes over atom characters only and stops at the
end of the buffer or on a character that is not one. -/
theorem parseStringLoop_spec (input : List Char) :
    ∀ acc : List Char, ∃ tok,
      (parseStringLoop input acc).1 = acc ++ tok
        ∧ input = tok ++ (parseStringLoop input acc).2
        ∧ (∀ c ∈ tok, atomChar c = true)
        ∧ atomChar (peek (parseStringLoop input acc).2) = false := by
  induction input with
  | nil =>
    intro acc
    exact ⟨[], by simp [parseStringLoop], by simp [parseStringLoop], by simp,
      by simp [parseStringLoop, peek, atomChar]⟩
  | cons c rest ih =>
    intro acc
    unfold parseStringLoop
    split
    · rename_i hc
      obtain ⟨tok, h1, h2, h3, h4⟩ := ih (acc ++ [c])
      refine ⟨c :: tok, by simp [h1], by rw [List.cons_append, ← h2], ?_, h4⟩
      intro x hx
      rcases List.mem_cons.mp hx with h | h
      · subst h
        simp [atomChar, hc.1, hc.2.1, hc.2.2]
      · exact h3 x h
    · rename_i hc
      refine ⟨[], by simp, by simp, by simp, ?_⟩
      simp only [peek]
      by_contra hne
      apply hc
      simp only [atomChar, Bool.and_eq_true, bne_iff_ne, ne_eq, Bool.not_eq_true',
        Bool.not_eq_true] at hne
      simp only [Bool.not_eq_false] at hne
      simp only [atomChar, Bool.and_eq_true, bne_iff_ne, ne_eq, Bool.not_eq_true'] at hne
      exact ⟨hne.1.1, hne.1.2, hne.2⟩

theorem atomChar_ne_NUL (c : Char) (h : atomChar c = true) : c ≠ NUL := by
  simp only [atomChar, Bool.and_eq_true, bne_iff_ne, ne_eq] at h
  exact h.1.1

theorem strstrCommentEnd_suffix (input pos : List Char)
    (h : strstrCommentEnd input = some pos) :
    ∃ pre, input = pre ++ pos ∧ NUL ∉ pre := by
  induction input with
  | nil => simp [strstrCommentEnd] at h
  | cons c rest ih =>
    unfold strstrCommentEnd at h
    split at h
    · cases h
    · rename_i hnul
      split at h
      · cases h
        exact ⟨[], rfl, by simp⟩
      · obtain ⟨pre, hpre, hn⟩ := ih h
        refine ⟨c :: pre, by rw [List.cons_append, ← hpre], ?_⟩
        intro hmem
        rcases List.mem_cons.mp hmem with h1 | h1
        · exact hnul h1.symm
        · exact hn h1

theorem advancesTo_skipWhitespace (input : List Char) :
    advancesTo input (skipWhitespace input) :=
  skipWhitespace_suffix input

theorem advancesTo_parseString (input : List Char) :
    advancesTo input (parseString input).2 := by
  obtain ⟨tok, _, h2, h3, _⟩ := parseStringLoop_spec input []
  exact ⟨tok, h2, fun hmem => atomChar_ne_NUL NUL (h3 NUL hmem) rfl⟩

/-- The position never moves backwards or past the terminator: every position
that a call returns is reached from the position of the call by moving
forwards over characters that are not the terminator. A call of `parse` that
returns null has only skipped white space. -/
theorem tokenizer_advances (f : Nat) :
    (∀ input r pos, parseInnerList f input = .ok (r, pos) → advancesTo input pos)
    ∧ (∀ input ret r pos, parseInnerListLoop f input ret = .ok (r, pos) →
        advancesTo input pos)
    ∧ (∀ input r pos, parse f input = .ok (r, pos) →
        advancesTo input pos ∧ (r = none → pos = skipWhitespace input)) := by
  induction f with
  | zero => simp [parseInnerList, parseInnerListLoop, parse]
  | succ f ih =>
    obtain ⟨ih1, ih2, ih3⟩ := ih
    refine ⟨?_, ?_, ?_⟩
    · intro input r pos h
      rw [parseInnerList] at h
      split at h
      · rename_i hsemi
        split at h
        · cases h
        · rename_i p hp
          cases h
          exact advancesTo_trans _ _ _
            (advancesTo_tail input (by rw [hsemi]; decide)) (strstrCommentEnd_suffix _ _ hp)
      · exact ih2 _ _ _ _ h
    · intro input ret r pos h
      rw [parseInnerListLoop] at h
      split at h
      · cases h
      · rename_i p hp
        cases h
        exact (ih3 _ _ _ hp).1
      · rename_i curr p hp
        exact advancesTo_trans _ _ _ (ih3 _ _ _ hp).1 (ih2 _ _ _ _ h)
    · intro input r pos h
      rw [parse] at h
      dsimp only at h
      split at h
      · cases h
        exact ⟨advancesTo_skipWhitespace input, fun _ => rfl⟩
      · rename_i hend
        split at h
        · rename_i hopen
          split at h
          · cases h
          · rename_i ret p hp
            split at h
            · rename_i hclose
              cases h
              have h1 := advancesTo_tail (skipWhitespace input) (by rw [hopen]; decide)
              have h2 := ih1 _ _ _ hp
              have h3 := advancesTo_skipWhitespace p
              have h4 := advancesTo_tail (skipWhitespace p) (by rw [hclose]; decide)
              refine ⟨advancesTo_trans _ _ _ (advancesTo_skipWhitespace input)
                (advancesTo_trans _ _ _ h1 (advancesTo_trans _ _ _ h2
                  (advancesTo_trans _ _ _ h3 h4))), ?_⟩
              intro hnone
              subst hnone
              rcases (tokenizer_unclosed f).1 _ _ _ hp with ⟨_, hsemi⟩ | ⟨hr, _, _⟩
              · rw [skipWhitespace_of_not_space p (by rw [hsemi]; decide), hsemi] at hclose
                exact absurd hclose (by decide)
              · exact absurd rfl hr
            · cases h
        · cases h
          refine ⟨advancesTo_trans _ _ _ (advancesTo_skipWhitespace input)
            (advancesTo_parseString _), ?_⟩
          intro hnone
          cases hnone

/-! ## Printing and parsing again (C23) -/

theorem tokenizedList_append (xs ys : List Element) :
    tokenizedList (xs ++ ys) = (tokenizedList xs && tokenizedList ys) := by
  induction xs with
  | nil => simp [tokenizedList]
  | cons x rest ih => simp [tokenizedList, ih, Bool.and_assoc]

theorem parseString_tokenized (input : List Char) (h1 : atomChar (peek input) = true)
    (h2 : peek input ≠ '(') : (parseString input).1.tokenized = true := by
  cases input with
  | nil => simp [peek, atomChar] at h1
  | cons c rest =>
    simp only [peek] at h1 h2
    have hc : c ≠ NUL ∧ isspace c = false ∧ c ≠ ')' := by
      simp only [atomChar, Bool.and_eq_true, bne_iff_ne, ne_eq, Bool.not_eq_true'] at h1
      exact ⟨h1.1.1, h1.1.2, h1.2⟩
    obtain ⟨tok, e1, _, e3, _⟩ := parseStringLoop_spec rest ([] ++ [c])
    simp only [parseString, parseStringLoop, hc, ne_eq, not_false_eq_true, and_self, if_true,
      Element.tokenized]
    rw [e1]
    simp only [List.nil_append, List.singleton_append, isAtomText, Bool.and_eq_true,
      bne_iff_ne, ne_eq, List.all_cons, List.all_eq_true]
    exact ⟨h2, h1, e3⟩

/-- Every tree the tokenizer returns is a list, and each of its atoms has the
text of an atom: not empty, without white space and `)`, not starting with `(`. -/
theorem tokenizer_tokenized (f : Nat) :
    (∀ input r pos, parseInnerList f input = .ok (some r, pos) →
        ∃ xs, r = .list xs ∧ tokenizedList xs = true)
    ∧ (∀ input ret r pos, parseInnerListLoop f input ret = .ok (some r, pos) →
        tokenizedList ret = true → ∃ xs, r = .list xs ∧ tokenizedList xs = true)
    ∧ (∀ input r pos, parse f input = .ok (some r, pos) → r.tokenized = true) := by
  induction f with
  | zero => simp [parseInnerList, parseInnerListLoop, parse]
  | succ f ih =>
    obtain ⟨ih1, ih2, ih3⟩ := ih
    refine ⟨?_, ?_, ?_⟩
    · intro input r pos h
      rw [parseInnerList] at h
      split at h
      · split at h
        · cases h
        · cases h
      · exact ih2 _ _ _ _ h rfl
    · intro input ret r pos h hret
      rw [parseInnerListLoop] at h
      split at h
      · cases h
      · cases h
        exact ⟨ret, rfl, hret⟩
      · rename_i curr p hp
        have hcurr := ih3 _ _ _ hp
        exact ih2 _ _ _ _ h (by simp [tokenizedList_append, tokenizedList, hret, hcurr])
    · intro input r pos h
      rw [parse] at h
      dsimp only at h
      split at h
      · cases h
      · rename_i hend
        split at h
        · split at h
          · cases h
          · rename_i ret p hp
            split at h
            · cases h
              obtain ⟨xs, hxs, htok⟩ := ih1 _ _ _ hp
              subst hxs
              simpa [Element.tokenized] using htok
            · cases h
        · rename_i hopen
          cases h
          apply parseString_tokenized _ _ hopen
          have hsp := isspace_peek_skipWhitespace input
          simp only [atomChar, Bool.and_eq_true, bne_iff_ne, ne_eq, Bool.not_eq_true']
          exact ⟨⟨fun hc => hend (Or.inl hc), hsp⟩, fun hc => hend (Or.inr hc)⟩

theorem parseStringLoop_token (tok rest : List Char) (htok : ∀ c ∈ tok, atomChar c = true)
    (hrest : atomChar (peek rest) = false) :
    ∀ acc, parseStringLoop (tok ++ rest) acc = (acc ++ tok, rest) := by
  induction tok with
  | nil =>
    intro acc
    cases rest with
    | nil => simp [parseStringLoop]
    | cons c r =>
      simp only [peek] at hrest
      have hc : ¬ (c ≠ NUL ∧ isspace c = false ∧ c ≠ ')') := by
        intro h
        simp [atomChar, h.1, h.2.1, h.2.2] at hrest
      simp only [List.nil_append, parseStringLoop, hc, if_false, List.append_nil]
  | cons c tok1 ih =>
    intro acc
    have h1 := htok c (List.mem_cons_self _ _)
    have hc : c ≠ NUL ∧ isspace c = false ∧ c ≠ ')' := by
      simp only [atomChar, Bool.and_eq_true, bne_iff_ne, ne_eq, Bool.not_eq_true'] at h1
      exact ⟨h1.1.1, h1.1.2, h1.2⟩
    have hstep : parseStringLoop (c :: (tok1 ++ rest)) acc
        = parseStringLoop (tok1 ++ rest) (acc ++ [c]) := by
      rw [parseStringLoop]
      simp only [hc, ne_eq, not_false_eq_true, and_self, if_true]
    rw [List.cons_append, hstep, ih (fun x hx => htok x (List.mem_cons_of_mem _ hx)) (acc ++ [c])]
    simp

theorem parse_space (f : Nat) (c : Char) (input : List Char) (hc : isspace c = true) :
    parse f (c :: input) = parse f input := by
  cases f with
  | zero => rw [parse, parse]
  | succ f =>
    rw [parse, parse]
    simp only [skipWhitespace, hc, if_true]

theorem parse_print_atom (s : Name) (h : isAtomText s.data = true) (rest : List Char)
    (hrest : atomChar (peek rest) = false) :
    parse 1 (s.data ++ rest) = .ok (some (Element.str s), rest) := by
  cases hs : s.data with
  | nil => simp [hs, isAtomText] at h
  | cons c cs =>
    rw [hs] at h
    simp only [isAtomText, Bool.and_eq_true, bne_iff_ne, ne_eq, List.all_eq_true] at h
    obtain ⟨hopen, hall⟩ := h
    have h1 := hall c (List.mem_cons_self _ _)
    have hc : c ≠ NUL ∧ isspace c = false ∧ c ≠ ')' := by
      simp only [atomChar, Bool.and_eq_true, bne_iff_ne, ne_eq, Bool.not_eq_true'] at h1
      exact ⟨h1.1.1, h1.1.2, h1.2⟩
    have hskip : skipWhitespace (c :: cs ++ rest) = c :: cs ++ rest :=
      skipWhitespace_of_not_space _ (by simpa [peek] using hc.2.1)
    have hend : ¬ (peek (c :: cs ++ rest) = NUL ∨ peek (c :: cs ++ rest) = ')') := by
      simp only [List.cons_append, peek]
      intro hx
      rcases hx with hx | hx
      · exact hc.1 hx
      · exact hc.2.2 hx
    have hno : ¬ (peek (c :: cs ++ rest) = '(') := by
      simpa [peek] using hopen
    rw [parse]
    simp only [hskip, hend, hno, if_false]
    have hloop := parseStringLoop_token (c :: cs) rest hall hrest []
    simp only [parseString, hloop, List.nil_append]
    have hname : String.mk (c :: cs) = s := by
      rw [← hs]
    rw [hname]

theorem peek_printItems (xs : List Element) (rest : List Char) :
    peek (printItems xs ++ ' ' :: rest) = ' ' := by
  cases xs with
  | nil => simp [printItems, peek]
  | cons x xs1 => simp [printItems, peek]

/-- The loop of `parseInnerList` reads the printed items of a list, up to the
` )` that ends the printed list, as these items. -/
theorem parseInnerListLoop_printItems (xs : List Element)
    (hxs : ∀ x ∈ xs, ∀ rest, atomChar (peek rest) = false →
      ∃ f, parse f (x.print ++ rest) = .ok (some x, rest)) :
    ∀ (acc : List Element) (rest : List Char), ∃ f,
      parseInnerListLoop f (printItems xs ++ ' ' :: ')' :: rest) acc
        = .ok (some (Element.list (acc ++ xs)), ')' :: rest) := by
  induction xs with
  | nil =>
    intro acc rest
    refine ⟨2, ?_⟩
    have hp : parse 1 (' ' :: ')' :: rest) = .ok (none, ')' :: rest) := by
      rw [parse_space 1 ' ' _ (by decide), parse]
      simp [skipWhitespace, isspace, peek]
    simp only [printItems, List.nil_append]
    rw [parseInnerListLoop, hp]
    simp
  | cons x xs1 ih =>
    intro acc rest
    have hdelim : atomChar (peek (printItems xs1 ++ ' ' :: ')' :: rest)) = false := by
      rw [peek_printItems]
      decide
    obtain ⟨f1, h1⟩ := hxs x (List.mem_cons_self _ _) _ hdelim
    obtain ⟨f2, h2⟩ := ih (fun y hy => hxs y (List.mem_cons_of_mem _ hy)) (acc ++ [x]) rest
    refine ⟨max f1 f2 + 1, ?_⟩
    have h1m := (tokenizer_fuel_le f1 (max f1 f2) (Nat.le_max_left _ _)).2.2 _ _ h1 (by simp)
    have h2m := (tokenizer_fuel_le f2 (max f1 f2) (Nat.le_max_right _ _)).2.1 _ _ _ h2
      (by simp)
    have hin : printItems (x :: xs1) ++ ' ' :: ')' :: rest
        = ' ' :: (x.print ++ (printItems xs1 ++ ' ' :: ')' :: rest)) := by
      simp [printItems]
    rw [hin, parseInnerListLoop, parse_space _ ' ' _ (by decide), h1m]
    simp only
    rw [h2m]
    simp

/-- A printed element is parsed back as that element, when its atoms have the
text of atoms and the printed text is followed by the end of the buffer, white
space or `)`. -/
theorem parse_print (e : Element) :
    e.tokenized = true → ∀ rest, atomChar (peek rest) = false →
      ∃ f, parse f (e.print ++ rest) = .ok (some e, rest) := by
  induction e using Element.induction with
  | hstr s =>
    intro htok rest hrest
    exact ⟨1, by
      simp only [Element.tokenized] at htok
      simpa [Element.print] using parse_print_atom s htok rest hrest⟩
  | hlist xs ih =>
    intro htok rest hrest
    have hmem : ∀ x ∈ xs, x.tokenized = true := by
      simp only [Element.tokenized] at htok
      clear ih
      induction xs with
      | nil => intro x hx; cases hx
      | cons y ys ihy =>
        simp only [tokenizedList, Bool.and_eq_true] at htok
        intro x hx
        rcases List.mem_cons.mp hx with h | h
        · rw [h]
          exact htok.1
        · exact ihy htok.2 x h
    obtain ⟨f, hf⟩ := parseInnerListLoop_printItems xs
      (fun x hx => ih x hx (hmem x hx)) [] rest
    refine ⟨f + 2, ?_⟩
    have hin : (Element.list xs).print ++ rest
        = '(' :: (printItems xs ++ ' ' :: ')' :: rest) := by
      simp [Element.print]
    have hpeek : peek (printItems xs ++ ' ' :: ')' :: rest) ≠ ';' := by
      rw [peek_printItems]
      decide
    rw [hin, parse]
    have hskip : skipWhitespace ('(' :: (printItems xs ++ ' ' :: ')' :: rest))
        = '(' :: (printItems xs ++ ' ' :: ')' :: rest) :=
      skipWhitespace_of_not_space _ (by rw [peek_cons]; decide)
    simp only [hskip, peek_cons, List.tail_cons]
    rw [parseInnerList, if_neg hpeek, hf]
    simp [skipWhitespace, isspace, peek, NUL]

/-- The printed form of a list is parsed back by `parseEverything` as the root
with that list as its one child. -/
theorem parseEverything_print (xs : List Element) (h : tokenizedList xs = true) :
    parseEverything (Element.list xs).print = .ok (some (.list [.list xs])) := by
  obtain ⟨f, hf⟩ := parse_print (.list xs) (by simpa [Element.tokenized] using h) []
    (by decide)
  rw [List.append_nil] at hf
  -- some budget gives the result
  have hsome : parseInnerList (f + 3) (Element.list xs).print
      = .ok (some (.list [.list xs]), []) := by
    have hpeek : peek (Element.list xs).print ≠ ';' := by
      simp [Element.print, peek]
    have hf1 := (tokenizer_fuel_le f (f + 1) (Nat.le_succ _)).2.2 _ _ hf (by simp)
    cases f with
    | zero => rw [parse] at hf; cases hf
    | succ g =>
      rw [parseInnerList, if_neg hpeek, parseInnerListLoop, hf1]
      simp only
      rw [parseInnerListLoop, parse]
      simp [skipWhitespace, peek]
  -- hence the budget of `parseEverything` gives it
  have hfuel := (tokenizer_fuel (3 * (Element.list xs).print.length + 3)).1
    (Element.list xs).print (Nat.le_refl _)
  have hres : parseInnerList (3 * (Element.list xs).print.length + 3) (Element.list xs).print
      = .ok (some (.list [.list xs]), []) := by
    by_cases hle : f + 3 ≤ 3 * (Element.list xs).print.length + 3
    · exact parseInnerList_fuel_le _ _ hle _ _ hsome (by simp)
    · have h1 := parseInnerList_fuel_le _ (f + 3) (by omega) _ _ rfl hfuel
      rw [← h1]
      exact hsome
  unfold parseEverything
  rw [hres]

/-- C23: printing and parsing again is a round trip. For every text on which
`parseEverything` succeeds with root `r`, every atom of `r` is not empty, free
of white space and `)` and does not start with `(`; and `parseEverything` on
the text that the printing operator writes for `r` succeeds and returns a list
with exactly one child, equal to `r`. -/
theorem C23_print_parse_round_trip (input : List Char) (r : Element)
    (h : parseEverything input = .ok (some r)) :
    r.tokenized = true ∧ parseEverything r.print = .ok (some (.list [r])) := by
  unfold parseEverything at h
  split at h
  · cases h
  · rename_i root pos hp
    cases h
    obtain ⟨xs, hxs, htok⟩ := (tokenizer_tokenized _).1 _ _ _ hp
    subst hxs
    exact ⟨by simpa [Element.tokenized] using htok, parseEverything_print xs htok⟩

/-- C23 (witness): the text `(a (b c) d)` is parsed to a root that is printed as
`( ( a ( b c ) d ) )`, and that text is parsed to the list with the root as its
one child. -/
theorem C23_print_parse_round_trip_witness :
    parseEverything "(a (b c) d)".data
      = .ok (some (.list [.list [.str "a", .list [.str "b", .str "c"], .str "d"]]))
    ∧ (Element.list [.list [.str "a", .list [.str "b", .str "c"], .str "d"]]).print
      = "( ( a ( b c ) d ) )".data
    ∧ (Element.list [.list [.str "a", .list [.str "b", .str "c"], .str "d"]]).tokenized = true
    ∧ parseEverything
        (Element.list [.list [.str "a", .list [.str "b", .str "c"], .str "d"]]).print
      = .ok (some (.list [.list [.list [.str "a", .list [.str "b", .str "c"], .str "d"]]])) :=
  ⟨rfl, rfl, (C23_print_parse_round_trip "(a (b c) d)".data _ rfl).1,
    (C23_print_parse_round_trip "(a (b c) d)".data _ rfl).2⟩

/-! ## Termination of the tokenizer (C24) -/

/-- C24: the tokenizer terminates on every input. The recursion budget of the
model, three units per character of the rest of the buffer, never runs out, and
a larger budget gives the same result, so the result of `parseEverything` is
the result of the code. Each call of `parse` that returns either returns null
after skipping white space only, or returns an element and has advanced the
position by at least one character; and the position a call returns is reached
by moving forwards over characters that are not the terminator, so it never
moves backwards or past the terminating NUL. -/
theorem C24_tokenizer_terminates :
    (∀ input : List Char, parseEverything input ≠ .error Err.outOfFuel)
    ∧ (∀ (input : List Char) (f : Nat), 3 * input.length + 3 ≤ f →
        parseInnerList f input = parseInnerList (3 * input.length + 3) input)
    ∧ (∀ (input : List Char) (f : Nat), 3 * input.length + 1 ≤ f →
        parse f input ≠ .error Err.outOfFuel)
    ∧ (∀ (f : Nat) (input : List Char) (r : Option Element) (pos : List Char),
        parse f input = .ok (r, pos) →
        advancesTo input pos
          ∧ (r = none → pos = skipWhitespace input)
          ∧ (r ≠ none → pos.length < input.length))
    ∧ (∀ (f : Nat) (input : List Char) (r : Option Element) (pos : List Char),
        parseInnerList f input = .ok (r, pos) → advancesTo input pos) := by
  refine ⟨parseEverything_fuel, ?_, ?_, ?_, ?_⟩
  · intro input f hf
    exact parseInnerList_fuel_le _ f hf input _ rfl
      ((tokenizer_fuel _).1 input (Nat.le_refl _))
  · intro input f hf
    exact (tokenizer_fuel f).2.2 input hf
  · intro f input r pos h
    obtain ⟨h1, h2⟩ := (tokenizer_advances f).2.2 _ _ _ h
    exact ⟨h1, h2, ((tokenizer_length f).2.2 _ _ _ h).2⟩
  · intro f input r pos h
    exact (tokenizer_advances f).1 _ _ _ h

/-- C24 (witness): on `(a) b` a call of `parse` returns the list of `a` and
leaves the position on ` b`, three characters further; on ` )` it returns null
on the `)`. -/
theorem C24_tokenizer_terminates_witness :
    parse 10 "(a) b".data = .ok (some (.list [.str "a"]), " b".data)
    ∧ (advancesTo "(a) b".data " b".data
        ∧ ((some (Element.list [.str "a"]) = none) → " b".data = skipWhitespace "(a) b".data)
        ∧ ((some (Element.list [.str "a"]) ≠ none) → " b".data.length < "(a) b".data.length))
    ∧ parse 10 " )".data = .ok (none, ")".data)
    ∧ (advancesTo " )".data ")".data
        ∧ (((none : Option Element) = none) → ")".data = skipWhitespace " )".data)
        ∧ (((none : Option Element) ≠ none) → ")".data.length < " )".data.length))
    ∧ parseInnerList 100 "(a) b".data = parseInnerList (3 * "(a) b".data.length + 3) "(a) b".data :=
  ⟨rfl, C24_tokenizer_terminates.2.2.2.1 10 "(a) b".data _ _ rfl,
    rfl, C24_tokenizer_terminates.2.2.2.1 10 " )".data _ _ rfl,
    C24_tokenizer_terminates.2.1 "(a) b".data 100 (by decide)⟩

end wasm
